import Mathlib

/-!
# GroupChatAnalysis: a shallow embedding of `main.js`

The definitions below translate the functions of `src/main.js` into Lean.

Conventions of the embedding.
* A JavaScript text that the program reads is a `List Char`, a sequence of
  Unicode code points: the texts come from decoding a file, so they are
  well formed, and `for (const char of text)` iterates code points.
* `String.prototype.length` and `slice` count UTF-16 code units, so token
  values, which `slice(-2)` may cut in the middle of a surrogate pair, are
  lists of UTF-16 code units (`List Nat`).
* A JavaScript object used as a table is an association list. The alias
  registry and the tables of `show_interation` are kept in the enumeration
  order of their keys (`own_set`); the tables of `calc_tfidf`, whose values
  do not depend on that order, are kept in insertion order (`table_set`).
* A message time is a JavaScript number that `parse` computes as
  `Date.parse(text) / 1000`: whole epoch seconds, or `NaN` for a text that is
  no date. It is an `Option Int`, `none` for `NaN`.
* The numbers of the link computation of `show_interation` are IEEE 754
  doubles: a double is the rational number it stands for and every
  operation rounds its exact result (`round_double`). The scores of
  `calc_tfidf` are taken in a field with a logarithm (exact arithmetic).
* A thrown `TypeError` is the result `none`.
-/

namespace GroupChat

/-! ## Data model -/

/-- Token of `main.js`: the subclass is the constructor, `value` a string in UTF-16 code units. -/
inductive Token where
  | BiGram (value : List Nat)
  | English (value : List Nat)
deriving DecidableEq, Repr

/-- The field `value` of a token. -/
def Token.value : Token → List Nat
  | Token.BiGram v => v
  | Token.English v => v

/-- Message object `{ time, id, tokens }` built by `parse`; the time `none` is `NaN`. -/
structure Message where
  time : Option Int
  id : List Char
  tokens : List Token
deriving DecidableEq, Repr

/-! ## Session detector (`detect_session`, lines 191-203) -/

/-- The statement `sessions[sessions.length - 1].push(message)`: with no session
the receiver is `undefined` and the call throws. -/
def push_to_last_session (sessions : List (List Message)) (message : Message) :
    Option (List (List Message)) :=
  match sessions.getLast? with
  | none => none
  | some last => some (sessions.dropLast ++ [last ++ [message]])

/-- The test `message.time - last_time > gap_limit` (line 196): a difference with
`NaN` is `NaN`, and a comparison with `NaN` is false. -/
def gap_exceeded (time last_time : Option Int) (gap_limit : Int) : Bool :=
  match time, last_time with
  | some t, some l => decide (t - l > gap_limit)
  | _, _ => false

/-- The test `time - last_time <= gap_limit` on JavaScript numbers: false when one
of the times is `NaN`. -/
def gap_within (time last_time : Option Int) (gap_limit : Int) : Bool :=
  match time, last_time with
  | some t, some l => decide (t - l ≤ gap_limit)
  | _, _ => false

/-- The body of the `for` loop of `detect_session`, on the loop state
`(sessions, last_time)`. -/
def detect_session_loop (gap_limit : Int) :
    List Message → List (List Message) → Option Int → Option (List (List Message))
  | [], sessions, _ => some sessions
  | message :: rest, sessions, last_time =>
    let sessions1 :=
      if gap_exceeded message.time last_time gap_limit then sessions ++ [[]] else sessions
    match push_to_last_session sessions1 message with
    | none => none
    | some sessions2 => detect_session_loop gap_limit rest sessions2 message.time

/-- Function `detect_session(messages, gap_limit)`. -/
def detect_session (messages : List Message) (gap_limit : Int) : Option (List (List Message)) :=
  detect_session_loop gap_limit messages [] (some 0)

/-- Index of the session that holds position `i` of the concatenated sessions. -/
def session_index : List (List Message) → Nat → Nat
  | [], _ => 0
  | s :: rest, i => if i < s.length then 0 else session_index rest (i - s.length) + 1

/-- A message with the given time, no id and no tokens. -/
def message_at (t : Int) : Message := { time := some t, id := [], tokens := [] }

/-- A message whose time is `NaN`, with no id and no tokens. -/
def message_nan : Message := { time := none, id := [], tokens := [] }

/-- Sessions that follow the running one: `(continuation of the running session,
later sessions)` for the messages after a message sent at `last_time`. -/
def session_runs (gap_limit : Int) :
    Option Int → List Message → List Message × List (List Message)
  | _, [] => ([], [])
  | last_time, message :: rest =>
    let r := session_runs gap_limit message.time rest
    if gap_exceeded message.time last_time gap_limit then ([], (message :: r.1) :: r.2)
    else (message :: r.1, r.2)

/-! ## Tokenizer (`string_to_token`, lines 20-97) -/

/-- UTF-16 code units of one code point. -/
def utf16 (c : Char) : List Nat :=
  if c.toNat < 0x10000 then [c.toNat]
  else [0xD800 + (c.toNat - 0x10000) / 0x400, 0xDC00 + (c.toNat - 0x10000) % 0x400]

/-- UTF-16 code units of a text. -/
def utf16_text : List Char → List Nat
  | [] => []
  | c :: rest => utf16 c ++ utf16_text rest

/-- The property `length` of a JavaScript string: its number of UTF-16 code units. -/
def js_length (s : List Char) : Nat := (utf16_text s).length

/-- Code point ranges of `Script=Han` (Unicode 15.0, `Scripts.txt`). -/
def han_ranges : List (Nat × Nat) :=
  [(0x2E80, 0x2E99), (0x2E9B, 0x2EF3), (0x2F00, 0x2FD5), (0x3005, 0x3005), (0x3007, 0x3007),
   (0x3021, 0x3029), (0x3038, 0x303B), (0x3400, 0x4DBF), (0x4E00, 0x9FFF), (0xF900, 0xFA6D),
   (0xFA70, 0xFAD9), (0x16FE2, 0x16FE3), (0x16FF0, 0x16FF1), (0x20000, 0x2A6DF),
   (0x2A700, 0x2B739), (0x2B740, 0x2B81D), (0x2B820, 0x2CEA1), (0x2CEB0, 0x2EBE0),
   (0x2F800, 0x2FA1D), (0x30000, 0x3134A), (0x31350, 0x323AF)]

/-- The test `/\p{Script=Han}/u.test(c)` on one code point. -/
def is_chinese (c : Char) : Bool :=
  han_ranges.any (fun r => decide (r.1 ≤ c.toNat) && decide (c.toNat ≤ r.2))

/-- The test `/[a-zA-Z]/u.test(c)` on one code point. -/
def is_english (c : Char) : Bool :=
  (decide (97 ≤ c.toNat) && decide (c.toNat ≤ 122)) || (decide (65 ≤ c.toNat) && decide (c.toNat ≤ 90))

/-- Method `BiGram.is_complete`: `this.value.length >= 2`. -/
def is_complete (value : List Nat) : Bool := decide (2 ≤ value.length)

/-- `String.prototype.toLowerCase` on one code unit; the values it is applied to hold
ASCII letters only, where it maps `A-Z` to `a-z`. -/
def lower_unit (u : Nat) : Nat := if 65 ≤ u ∧ u ≤ 90 then u + 32 else u

/-- `String.prototype.toLowerCase` on a value. -/
def to_lower_case (value : List Nat) : List Nat := value.map lower_unit

/-- Constructor `new English(value)`: stores `value.toLowerCase()`. -/
def new_English (value : List Nat) : Token := Token.English (to_lower_case value)

/-- `value.slice(-2)`: the last two UTF-16 code units. -/
def slice_last2 (value : List Nat) : List Nat := value.drop (value.length - 2)

/-- One iteration of the `for (const char of text + '\0')` loop, on the loop state
`(tokens, state)`. -/
def tokenize_step (tokens : List Token) (state : Option Token) (char : Char) :
    List Token × Option Token :=
  match state with
  | some (Token.BiGram value) =>
    let tokens1 := if is_complete value then tokens ++ [Token.BiGram value] else tokens
    if is_chinese char then (tokens1, some (Token.BiGram (slice_last2 (value ++ utf16 char))))
    else if is_english char then (tokens1, some (new_English (utf16 char)))
    else (tokens1, none)
  | some (Token.English value) =>
    if is_chinese char then (tokens ++ [Token.English value], some (Token.BiGram (utf16 char)))
    else if is_english char then (tokens, some (new_English (value ++ utf16 char)))
    else (tokens ++ [Token.English value], none)
  | none =>
    if is_chinese char then (tokens, some (Token.BiGram (utf16 char)))
    else if is_english char then (tokens, some (new_English (utf16 char)))
    else (tokens, none)

/-- The `for (const char of ...)` loop of `string_to_token`. -/
def tokenize_loop : List Char → List Token → Option Token → List Token
  | [], tokens, _ => tokens
  | char :: rest, tokens, state =>
    tokenize_loop rest (tokenize_step tokens state char).1 (tokenize_step tokens state char).2

/-- Alias registry `{ id: { name: count } }`, in the enumeration order of its keys. -/
abbrev Aliases := List (List Char × List (List Char × Nat))

/-- Method `Set.prototype.add` on a set kept in insertion order. -/
def set_add {α : Type} [DecidableEq α] (set : List α) (x : α) : List α :=
  if x ∈ set then set else set ++ [x]

/-- The set `stop_words` after the two loops over `aliases` (lines 23-30). -/
def stop_words (aliases : Aliases) : List (List Char) :=
  aliases.foldl
    (fun set entry => entry.2.foldl (fun set2 name_count => set_add set2 ('@' :: name_count.1)) set)
    [['[', '图', '片', ']'], ['[', '表', '情', ']']]

/-- The comparator `(a, b) => b.length - a.length` is not positive: `a` may stay
before `b`. -/
def longer_first (a b : List Char) : Prop := js_length b ≤ js_length a

instance : DecidableRel longer_first :=
  fun a b => inferInstanceAs (Decidable (js_length b ≤ js_length a))

instance : IsTotal (List Char) longer_first :=
  ⟨fun a b => by unfold longer_first; omega⟩

instance : IsTrans (List Char) longer_first :=
  ⟨fun a b c h1 h2 => by unfold longer_first at *; omega⟩

/-- `text.replaceAll(pattern, replacement)` for a non-empty pattern, scanning left to
right; `skip` counts the characters of a match still to be dropped. -/
def replace_all_aux (pattern replacement : List Char) : Nat → List Char → List Char
  | _, [] => []
  | skip + 1, _ :: rest => replace_all_aux pattern replacement skip rest
  | 0, c :: rest =>
    if pattern.isPrefixOf (c :: rest) then
      replacement ++ replace_all_aux pattern replacement (pattern.length - 1) rest
    else c :: replace_all_aux pattern replacement 0 rest

/-- `text.replaceAll(pattern, replacement)` with a string pattern; the empty pattern
matches before every character and at the end. -/
def replace_all (pattern replacement text : List Char) : List Char :=
  if pattern = [] then replacement ++ text.flatMap (fun c => c :: replacement)
  else replace_all_aux pattern replacement 0 text

/-- The text after the stop-word loop (lines 32-33): the stop-words are sorted by
descending length with a stable sort and replaced one after the other. -/
def remove_stop_words (text : List Char) (aliases : Aliases) : List Char :=
  ((stop_words aliases).insertionSort longer_first).foldl
    (fun t stop_word => replace_all stop_word [' '] t) text

/-- Function `string_to_token(text, aliases)`. -/
def string_to_token (text : List Char) (aliases : Aliases) : List Token :=
  tokenize_loop (remove_stop_words text aliases ++ [Char.ofNat 0]) [] none

/-! ### Runs of characters, for the statements about the tokenizer -/

/-- The three character classes of the tokenizer. -/
inductive CharClass where
  | han
  | latin
  | other
deriving DecidableEq, Repr

/-- Class of a character, in the order the `switch` tests it. -/
def char_class (c : Char) : CharClass :=
  if is_chinese c then CharClass.han else if is_english c then CharClass.latin else CharClass.other

/-- Splits off the leading run when it has class `k`: `(that run or [], the other runs)`. -/
def head_run (k : CharClass) :
    List (CharClass × List Char) → List Char × List (CharClass × List Char)
  | [] => ([], [])
  | (k2, run) :: runs => if k2 = k then (run, runs) else ([], (k2, run) :: runs)

/-- The maximal runs of characters of one class, in text order, each with its class. -/
def class_runs : List Char → List (CharClass × List Char)
  | [] => []
  | c :: rest =>
    (char_class c, c :: (head_run (char_class c) (class_runs rest)).1)
      :: (head_run (char_class c) (class_runs rest)).2

/-- The maximal runs of ASCII Latin letters of a text, in order. -/
def latin_runs (text : List Char) : List (List Char) :=
  (class_runs text).filterMap (fun kr => if kr.1 = CharClass.latin then some kr.2 else none)

/-- The tokens the loop emits for a text followed by the terminator, from a state. -/
def tokens_from (state : Option Token) (text : List Char) : List Token :=
  tokenize_loop (text ++ [Char.ofNat 0]) [] state

/-- The tokens one maximal run stands for: a Latin run is one English token whose value
is the run with every letter in lowercase (`Char.toLower`), a Han run the tokens of the
loop on the run alone, another run none. -/
def run_tokens (kr : CharClass × List Char) : List Token :=
  match kr.1 with
  | CharClass.latin => [Token.English (utf16_text (kr.2.map Char.toLower))]
  | CharClass.han => tokens_from none kr.2
  | CharClass.other => []

/-- The tokens of a run as the loop builds them: the value of the English token of a
Latin run is `toLowerCase` of the code units of the run. -/
def run_tokens_units (kr : CharClass × List Char) : List Token :=
  match kr.1 with
  | CharClass.latin => [Token.English (to_lower_case (utf16_text kr.2))]
  | CharClass.han => tokens_from none kr.2
  | CharClass.other => []

/-- The values of the English tokens of a token list, in order. -/
def english_values (tokens : List Token) : List (List Nat) :=
  tokens.filterMap (fun t => match t with
    | Token.English v => some v
    | Token.BiGram _ => none)

/-- No stop-word of the registry occurs in the text. -/
def no_stop_word (text : List Char) (aliases : Aliases) : Prop :=
  ∀ w ∈ stop_words aliases, ¬ w <:+: text

/-! ## Header parser (`parse_header`, lines 99-110)

The regular expression is embedded with backtracking made explicit: a piece of the
expression maps a text to its candidate matches `(matched, rest)` in the order the
matcher tries them, and the result of `text.match` is the first candidate of the whole
expression. -/

/-- The class `\d`: an ASCII digit. -/
def is_digit (c : Char) : Bool := decide (48 ≤ c.toNat) && decide (c.toNat ≤ 57)

/-- The class `.`: any character but a line terminator. -/
def is_dot (c : Char) : Bool :=
  !(c.toNat = 0x0A || c.toNat = 0x0D || c.toNat = 0x2028 || c.toNat = 0x2029)

/-- The class `[^<>]`. -/
def is_not_angle (c : Char) : Bool := !(c = '<' || c = '>')

/-- A literal character. -/
def lit (c : Char) : List Char → List (List Char × List Char)
  | [] => []
  | x :: rest => if x = c then [([x], rest)] else []

/-- The quantifier `{n}` on a class: exactly `n` characters of the class. -/
def exactly (p : Char → Bool) (n : Nat) (s : List Char) : List (List Char × List Char) :=
  if n ≤ s.length ∧ (s.take n).all p = true then [(s.take n, s.drop n)] else []

/-- The greedy quantifier `*` on a class: every prefix made of characters of the class,
the longest first. -/
def star (p : Char → Bool) : List Char → List (List Char × List Char)
  | [] => [([], [])]
  | c :: rest =>
    if p c then (star p rest).map (fun x => (c :: x.1, x.2)) ++ [([], c :: rest)]
    else [([], c :: rest)]

/-- The greedy quantifier `+` on a class. -/
def plus (p : Char → Bool) (s : List Char) : List (List Char × List Char) :=
  (star p s).filter (fun x => decide (x.1 ≠ []))

/-- Concatenation of two pieces. -/
def seq (m1 m2 : List Char → List (List Char × List Char)) (s : List Char) :
    List (List Char × List Char) :=
  (m1 s).flatMap (fun x => (m2 x.2).map (fun y => (x.1 ++ y.1, y.2)))

/-- The quantifier `{1,2}` on `\d`, greedy: two digits are tried before one. -/
def digits_1_2 (s : List Char) : List (List Char × List Char) :=
  exactly is_digit 2 s ++ exactly is_digit 1 s

/-- Group 1: `\d{4}-\d{2}-\d{2} \d{1,2}:\d{2}:\d{2}`. -/
def timestamp_re : List Char → List (List Char × List Char) :=
  seq (exactly is_digit 4) (seq (lit '-') (seq (exactly is_digit 2) (seq (lit '-')
    (seq (exactly is_digit 2) (seq (lit ' ') (seq digits_1_2 (seq (lit ':')
      (seq (exactly is_digit 2) (seq (lit ':') (exactly is_digit 2))))))))))

/-- The groups of a match of `header_format`: `time`, `name`, `qq`, `email`; a group
that took no part in the match is `none` (`undefined`). -/
structure HeaderMatch where
  time : List Char
  name : List Char
  qq : Option (List Char)
  email : Option (List Char)
deriving DecidableEq, Repr

/-- The end of group 3 and of the expression: the first branch `\((\d+)\)` followed by `$`. -/
def qq_branch (time name : List Char) (s : List Char) : List HeaderMatch :=
  (lit '(' s).flatMap fun o =>
    (plus is_digit o.2).flatMap fun q =>
      (lit ')' q.2).flatMap fun c =>
        if c.2 = [] then [{ time := time, name := name, qq := some q.1, email := none }] else []

/-- The end of group 3 and of the expression: the second branch `<([^<>]+)>` followed
by `$`. -/
def email_branch (time name : List Char) (s : List Char) : List HeaderMatch :=
  (lit '<' s).flatMap fun o =>
    (plus is_not_angle o.2).flatMap fun e =>
      (lit '>' e.2).flatMap fun c =>
        if c.2 = [] then [{ time := time, name := name, qq := none, email := some e.1 }] else []

/-- The matches of `header_format` at the start of `text`, in the order of the
backtracking search. -/
def header_matches (text : List Char) : List HeaderMatch :=
  (timestamp_re text).flatMap fun t =>
    (lit ' ' t.2).flatMap fun sp =>
      (star is_dot sp.2).flatMap fun nm =>
        qq_branch t.1 nm.1 nm.2 ++ email_branch t.1 nm.1 nm.2

/-- The expression `a || b` on two groups: `a` unless it is `undefined` or empty. -/
def js_or (a b : Option (List Char)) : Option (List Char) :=
  match a with
  | some x => if x = [] then b else some x
  | none => b

/-- Object `{ time, name, id }` returned by `parse_header`; `id` is `none` when
`qq || email` is `undefined`. -/
structure Header where
  time : List Char
  name : List Char
  id : Option (List Char)
deriving DecidableEq, Repr

/-- Function `parse_header(text)`; `none` is the result `null`. -/
def parse_header (text : List Char) : Option Header :=
  match (header_matches text).head? with
  | none => none
  | some m => some { time := m.time, name := m.name, id := js_or m.qq m.email }

/-- A text of the shape `YYYY-MM-DD H:MM:SS` or `YYYY-MM-DD HH:MM:SS`, with ASCII
digits. -/
def is_timestamp : List Char → Bool
  | [y1, y2, y3, y4, a, m1, m2, b, d1, d2, sp, h1, c1, n1, n2, c2, s1, s2] =>
    [y1, y2, y3, y4, m1, m2, d1, d2, h1, n1, n2, s1, s2].all is_digit
      && decide ([a, b, sp, c1, c2] = ['-', '-', ' ', ':', ':'])
  | [y1, y2, y3, y4, a, m1, m2, b, d1, d2, sp, h1, h2, c1, n1, n2, c2, s1, s2] =>
    [y1, y2, y3, y4, m1, m2, d1, d2, h1, h2, n1, n2, s1, s2].all is_digit
      && decide ([a, b, sp, c1, c2] = ['-', '-', ' ', ':', ':'])
  | _ => false

/-! ## TF-IDF (`calc_tfidf`, lines 318-342)

The tables `tf`, `df` and `tfidf` are association lists in insertion order; JavaScript
enumerates integer-like keys first, which changes no value of the tables. The scores
are computed in a field `R` with the function `log` as a parameter: the theorems take
the real numbers and the natural logarithm (exact arithmetic). -/

/-- Property read `table[key]`; `none` is `undefined`. -/
def table_get {κ ν : Type} [DecidableEq κ] (key : κ) : List (κ × ν) → Option ν
  | [] => none
  | (k, v) :: rest => if k = key then some v else table_get key rest

/-- Property write `table[key] = value`: an existing key keeps its place. -/
def table_set {κ ν : Type} [DecidableEq κ] (key : κ) (value : ν) : List (κ × ν) → List (κ × ν)
  | [] => [(key, value)]
  | (k, v) :: rest => if k = key then (key, value) :: rest else (k, v) :: table_set key value rest

/-- The keys of a table, `Object.keys(table)`. -/
def table_keys {κ ν : Type} (table : List (κ × ν)) : List κ := table.map Prod.fst

/-- The values of a table, `Object.values(table)`. -/
def table_values {κ ν : Type} (table : List (κ × ν)) : List ν := table.map Prod.snd

/-- The table `tf`: `{ id: { token: count } }`. -/
abbrev TfTable := List (List Char × List (List Nat × Nat))

/-- The table `df`: `{ token: Set(id) }`. -/
abbrev DfTable := List (List Nat × List (List Char))

/-- `new Set(tokens.map(token => token.value))`: the distinct values, in the order of
their first occurrence. -/
def message_words (tokens : List Token) : List (List Nat) :=
  (tokens.map Token.value).foldl set_add []

/-- The read `tf[id]`, after `tf[id] = tf[id] ?? Object.create(null)`: an absent entry
is the empty table. -/
def tf_counts (tf : TfTable) (id : List Char) : List (List Nat × Nat) :=
  (table_get id tf).getD []

/-- The read `tf[id][word] ?? 0`. -/
def tf_count (tf : TfTable) (id : List Char) (word : List Nat) : Nat :=
  (table_get word (tf_counts tf id)).getD 0

/-- The read `df[word] ?? new Set()`. -/
def df_set (df : DfTable) (word : List Nat) : List (List Char) :=
  (table_get word df).getD []

/-- The body of `for (const word of words)` (lines 327-329) on the state `(tf, df)`. -/
def count_word (id : List Char) (state : TfTable × DfTable) (word : List Nat) :
    TfTable × DfTable :=
  (table_set id (table_set word (tf_count state.1 id word + 1) (tf_counts state.1 id)) state.1,
    table_set word (set_add (df_set state.2 word) id) state.2)

/-- The body of `for (const { id, tokens } of messages)` (lines 323-330). -/
def count_message (state : TfTable × DfTable) (message : Message) : TfTable × DfTable :=
  (message_words message.tokens).foldl (count_word message.id)
    (table_set message.id (tf_counts state.1 message.id) state.1, state.2)

/-- The tables `(tf, df)` after the first loop of `calc_tfidf`. -/
def count_messages (messages : List Message) : TfTable × DfTable :=
  messages.foldl count_message ([], [])

/-- The score `tf[id][word] / total_words * Math.log(Object.keys(tf).length /
(df[word].size + 1))` with `total_words = sum(Object.values(tf[id]))`. -/
def score {R : Type} [Field R] (log : R → R) (tf : TfTable) (df : DfTable)
    (id : List Char) (word : List Nat) : R :=
  (tf_count tf id word : R) / (((table_values (tf_counts tf id)).sum : Nat) : R)
    * log (((table_keys tf).length : R) / (((df_set df word).length : R) + 1))

/-- The body of `for (const word in tf[id])` (lines 337-338): the score is stored when
`df[word].size > 1`. -/
def score_word {R : Type} [Field R] (log : R → R) (tf : TfTable) (df : DfTable)
    (id : List Char) (tfidf : List (List Char × List (List Nat × R))) (word : List Nat) :
    List (List Char × List (List Nat × R)) :=
  if (df_set df word).length > 1 then
    table_set id (table_set word (score log tf df id word) ((table_get id tfidf).getD [])) tfidf
  else tfidf

/-- The body of `for (const id in tf)` (lines 335-338). -/
def score_id {R : Type} [Field R] (log : R → R) (tf : TfTable) (df : DfTable)
    (tfidf : List (List Char × List (List Nat × R))) (id : List Char) :
    List (List Char × List (List Nat × R)) :=
  (table_keys (tf_counts tf id)).foldl (score_word log tf df id)
    (table_set id ((table_get id tfidf).getD []) tfidf)

/-- Function `calc_tfidf(messages)`. -/
def calc_tfidf {R : Type} [Field R] (log : R → R) (messages : List Message) :
    List (List Char × List (List Nat × R)) :=
  (table_keys (count_messages messages).1).foldl
    (score_id log (count_messages messages).1 (count_messages messages).2) []

/-- The entry `table[id][word]` of a two-level table. -/
def score_at {R : Type} (table : List (List Char × List (List Nat × R))) (id : List Char)
    (word : List Nat) : Option R :=
  (table_get id table).bind (table_get word)

/-! ### Quantities named by the specification of the TF-IDF table -/

/-- The message has a token with value `word`. -/
def uses (word : List Nat) (message : Message) : Bool :=
  decide (word ∈ message.tokens.map Token.value)

/-- The messages of an identity. -/
def messages_of (id : List Char) (messages : List Message) : List Message :=
  messages.filter (fun m => decide (m.id = id))

/-- The identities of a message list, without repetition. -/
def identities (messages : List Message) : List (List Char) :=
  (messages.map Message.id).dedup

/-- The identities that used `word`, without repetition: `df` is the length. -/
def speakers (word : List Nat) (messages : List Message) : List (List Char) :=
  identities (messages.filter (uses word))

/-- Total number of occurrences of `word` over all tokens of the messages of `id`. -/
def occurrences (id : List Char) (word : List Nat) (messages : List Message) : Nat :=
  ((messages_of id messages).map (fun m => (m.tokens.map Token.value).count word)).sum

/-- Total number of token occurrences of `id`. -/
def total_occurrences (id : List Char) (messages : List Message) : Nat :=
  ((messages_of id messages).map (fun m => m.tokens.length)).sum

/-- Number of messages of `id` that hold `word` at least once. -/
def message_count (id : List Char) (word : List Nat) (messages : List Message) : Nat :=
  ((messages_of id messages).filter (uses word)).length

/-- Sum, over the messages of `id`, of the number of distinct words of the message. -/
def distinct_word_total (id : List Char) (messages : List Message) : Nat :=
  ((messages_of id messages).map (fun m => (m.tokens.map Token.value).dedup.length)).sum

/-- The identity `id` used `word` in at least one of its messages. -/
def used_by (id : List Char) (word : List Nat) (messages : List Message) : Bool :=
  messages.any (fun m => decide (m.id = id) && uses word m)

/-- The score of the claim: `(tf / total) * ln(N / (df + 1))` with `tf` the number of
occurrences of the word over all tokens of the identity and `total` the number of token
occurrences of the identity. -/
def occurrence_score {R : Type} [Field R] (log : R → R) (messages : List Message)
    (id : List Char) (word : List Nat) : R :=
  (occurrences id word messages : R) / (total_occurrences id messages : R)
    * log (((identities messages).length : R) / (((speakers word messages).length : R) + 1))

/-- The score with the counts per message: `tf` is the number of messages of the
identity that hold the word, `total` the sum over its messages of the number of distinct
words. -/
def message_score {R : Type} [Field R] (log : R → R) (messages : List Message)
    (id : List Char) (word : List Nat) : R :=
  (message_count id word messages : R) / (distinct_word_total id messages : R)
    * log (((identities messages).length : R) / (((speakers word messages).length : R) + 1))

/-- Two identities A and B; A says the word x twice and the word y once in one
message, B says x and y. -/
def repeated_word_messages : List Message :=
  [{ time := some 0, id := ['A'],
     tokens := [Token.English [120], Token.English [120], Token.English [121]] },
   { time := some 1, id := ['B'], tokens := [Token.English [120], Token.English [121]] }]

/-- Two identities A and B that both say the word x. -/
def shared_word_messages : List Message :=
  [{ time := some 0, id := ['A'], tokens := [Token.English [120]] },
   { time := some 1, id := ['B'], tokens := [Token.English [120]] }]

/-- Three identities: A and B say the word x, C says the word y. -/
def three_speaker_messages : List Message :=
  [{ time := some 0, id := ['A'], tokens := [Token.English [120]] },
   { time := some 1, id := ['B'], tokens := [Token.English [120]] },
   { time := some 2, id := ['C'], tokens := [Token.English [121]] }]

/-! ## Identity cleaner (`remove_id`, lines 138-155, and `clean`, lines 166-189) -/

/-- The loop `let j = i - 1; while (j >= 0 && to_remove[j]) j--`: the value of `j` after
the loop, for `i` given; `none` is the index -1. -/
def parent_index (to_remove : List Bool) : Nat → Option Nat
  | 0 => none
  | k + 1 => if to_remove.getD k false = true then parent_index to_remove k else some k

/-- The statement `to_remove[j] = true`; for `j = -1` it adds a property named `-1` to
the array and changes none of its elements. -/
def mark_removed (to_remove : List Bool) : Option Nat → List Bool
  | some j => to_remove.set j true
  | none => to_remove

/-- The body of the loop `for (let i = 0; i < messages.length; i++)` of `remove_id`, on
the array `to_remove`. -/
def remove_id_step (messages : List Message) (id_to_remove : List Char)
    (remove_parent_message : Bool) (to_remove : List Bool) (i : Nat) : List Bool :=
  match messages.get? i with
  | none => to_remove
  | some message =>
    if message.id = id_to_remove then
      if remove_parent_message then
        mark_removed (to_remove.set i true) (parent_index (to_remove.set i true) i)
      else to_remove.set i true
    else to_remove

/-- The array `to_remove` after the loop of `remove_id`. -/
def removal_marks (messages : List Message) (id_to_remove : List Char)
    (remove_parent_message : Bool) : List Bool :=
  (List.range messages.length).foldl
    (remove_id_step messages id_to_remove remove_parent_message) (messages.map (fun _ => false))

/-- The expression `messages.filter((_, i) => !to_remove[i])`, for an array `to_remove`
as long as `messages`. -/
def keep_unmarked (messages : List Message) (to_remove : List Bool) : List Message :=
  ((messages.zip to_remove).filter (fun p => !p.2)).map Prod.fst

/-- Function `remove_id(messages, id_to_remove, remove_parent_message)`. -/
def remove_id (messages : List Message) (id_to_remove : List Char)
    (remove_parent_message : Bool) : List Message :=
  keep_unmarked messages (removal_marks messages id_to_remove remove_parent_message)

/-- The scan of the specification: a stack of surviving messages, top at the end; a
message of another identity is pushed, a message of the target is dropped and, when the
parent is removed too, pops the most recently kept message if there is one. -/
def removal_scan (id_to_remove : List Char) (remove_parent_message : Bool)
    (messages : List Message) : List Message :=
  messages.foldl
    (fun stack m =>
      if m.id = id_to_remove then (if remove_parent_message then stack.dropLast else stack)
      else stack ++ [m])
    []

/-- A message of the identity `id`, at time 0 and without tokens. -/
def message_of (id : List Char) : Message := { time := some 0, id := id, tokens := [] }

/-- The statement `delete table[key]`. -/
def table_delete {κ ν : Type} [DecidableEq κ] (key : κ) (table : List (κ × ν)) : List (κ × ν) :=
  table.filter (fun entry => decide (entry.1 ≠ key))

/-- The two statements `messages = remove_id(messages, id, remove_parent)` and
`delete aliases[id]`, on the state `(messages, aliases)`. -/
def clean_id (remove_parent_message : Bool) (state : List Message × Aliases) (id : List Char) :
    List Message × Aliases :=
  (remove_id state.1 id remove_parent_message, table_delete id state.2)

/-- The body of `for (const id in aliases)` (lines 172-175); `blacklisted id` stands for
`black_list.includes(await sha256(id))`. -/
def clean_blacklisted (blacklisted : List Char → Bool) (state : List Message × Aliases)
    (id : List Char) : List Message × Aliases :=
  if blacklisted id = true then clean_id false state id else state

/-- Function `clean(messages, aliases, interactive_bot_ids, non_interactive_bot_ids)`, with
the test against the black list as a parameter; the first loop runs over the keys the
registry has when it starts, and deletes no key before it is visited. -/
def clean (blacklisted : List Char → Bool) (messages : List Message) (aliases : Aliases)
    (interactive_bot_ids non_interactive_bot_ids : List (List Char)) :
    List Message × Aliases :=
  non_interactive_bot_ids.foldl (clean_id false)
    (interactive_bot_ids.foldl (clean_id true)
      ((table_keys aliases).foldl (clean_blacklisted blacklisted) (messages, aliases)))

/-- Four messages, of A, of the bot, of a blacklisted identity X and of B. -/
def clean_example_messages : List Message :=
  [message_of ['A'], message_of ['B', 'o', 't'], message_of ['X'], message_of ['B']]

/-- A registry with one name for each of the four identities. -/
def clean_example_aliases : Aliases :=
  [(['A'], [(['a'], 1)]), (['B', 'o', 't'], [(['b', 'o', 't'], 1)]), (['X'], [(['x'], 1)]),
   (['B'], [(['b'], 1)])]

/-! ## Message assembler (`parse`, lines 112-136)

An object whose keys are enumerated is kept in the order of `OrdinaryOwnPropertyKeys`:
the keys that are array indices in ascending order, then the other keys in the order of
their creation. -/

/-- The value of a decimal numeral. -/
def decimal (digits : List Char) : Nat :=
  digits.foldl (fun n c => 10 * n + (c.toNat - 48)) 0

/-- The array index a property key is, if any: a canonical decimal numeral (no leading
zero) of value at most 2^32 - 2. -/
def array_index (key : List Char) : Option Nat :=
  match key with
  | [] => none
  | c :: rest =>
    if key.all is_digit = true ∧ (c ≠ '0' ∨ rest = []) ∧ decimal key ≤ 4294967294 then
      some (decimal key)
    else none

/-- A new key `key` is enumerated before the existing key `k`: `key` is an array index and
`k` is not one or is a larger one. -/
def enumerated_before (key k : List Char) : Bool :=
  match array_index key, array_index k with
  | some n, some m => decide (n < m)
  | some _, none => true
  | none, _ => false

/-- Creation of the property `key`, absent from the object. -/
def own_insert {ν : Type} (key : List Char) (value : ν) :
    List (List Char × ν) → List (List Char × ν)
  | [] => [(key, value)]
  | (k, v) :: rest =>
    if enumerated_before key k = true then (key, value) :: (k, v) :: rest
    else (k, v) :: own_insert key value rest

/-- Property write `object[key] = value` on an object whose keys are enumerated. -/
def own_set {ν : Type} (key : List Char) (value : ν) (object : List (List Char × ν)) :
    List (List Char × ν) :=
  if key ∈ table_keys object then table_set key value object else own_insert key value object

/-- Message as `parse` pushes it: `time` is `Date.parse(time) / 1000`, `none` when it is
`NaN`. -/
abbrev ParsedMessage := Message

/-- `text.split(/\r?\n/)`. -/
def split_lines : List Char → List (List Char)
  | [] => [[]]
  | c :: rest =>
    if c = '\n' then [] :: split_lines rest
    else if c = '\r' ∧ rest.head? = some '\n' then split_lines rest
    else
      match split_lines rest with
      | [] => [[c]]
      | line :: lines => (c :: line) :: lines

/-- The statement `messages[messages.length - 1].tokens.push(...tokens)`, on a list of
messages that is not empty. -/
def push_tokens (messages : List ParsedMessage) (tokens : List Token) : List ParsedMessage :=
  match messages.getLast? with
  | none => messages
  | some last => messages.dropLast ++ [{ last with tokens := last.tokens ++ tokens }]

/-- The property key an id is used as: the string `undefined` for `undefined`. -/
def id_key (id : Option (List Char)) : List Char :=
  id.getD ['u', 'n', 'd', 'e', 'f', 'i', 'n', 'e', 'd']

/-- The statements of lines 123-124 on the registry: `aliases[id] = aliases[id] ?? ...`
and `aliases[id][name] = (aliases[id][name] ?? 0) + 1`. -/
def record_alias (aliases : Aliases) (id name : List Char) : Aliases :=
  own_set id
    (own_set name
      ((table_get name
          ((table_get id (own_set id ((table_get id aliases).getD []) aliases)).getD [])).getD 0
        + 1)
      ((table_get id (own_set id ((table_get id aliases).getD []) aliases)).getD []))
    (own_set id ((table_get id aliases).getD []) aliases)

/-- The body of the loop of `parse`, on the state `(aliases, messages)`; `date_parse` is
`Date.parse(time) / 1000` on the timestamp text, `none` for `NaN`. -/
def parse_line (date_parse : List Char → Option Int) (state : Aliases × List ParsedMessage)
    (line : List Char) : Aliases × List ParsedMessage :=
  match parse_header line with
  | some header =>
    (record_alias state.1 (id_key header.id) header.name,
      state.2 ++ [{ time := date_parse header.time, id := id_key header.id, tokens := [] }])
  | none =>
    if state.2.length = 0 then state
    else (state.1, push_tokens state.2 (string_to_token line state.1))

/-- The loop of `parse` over the lines. -/
def parse_lines (date_parse : List Char → Option Int) (lines : List (List Char)) :
    Aliases × List ParsedMessage :=
  lines.foldl (parse_line date_parse) ([], [])

/-- Function `parse(text)`: the pair `(aliases, messages)`. -/
def parse (date_parse : List Char → Option Int) (text : List Char) :
    Aliases × List ParsedMessage :=
  parse_lines date_parse (split_lines text)

/-- The sum of the occurrence counts of the display names of an identity. -/
def name_count_sum (aliases : Aliases) (id : List Char) : Nat :=
  (table_values ((table_get id aliases).getD [])).sum

/-- The headers among the lines, in order. -/
def header_lines (lines : List (List Char)) : List Header :=
  lines.filterMap parse_header

/-- The numbers written by the runs of digits of a text; `current` is the run being read. -/
def digit_fields (current : Option Nat) : List Char → List Nat
  | [] => current.toList
  | c :: rest =>
    if is_digit c = true then digit_fields (some (10 * current.getD 0 + (c.toNat - 48))) rest
    else current.toList ++ digit_fields none rest

/-- Number of days of a month of the Gregorian calendar. -/
def days_in_month (year month : Nat) : Nat :=
  if month = 2 then
    (if (year % 4 = 0 ∧ year % 100 ≠ 0) ∨ year % 400 = 0 then 29 else 28)
  else if month = 4 ∨ month = 6 ∨ month = 9 ∨ month = 11 then 30
  else 31

/-- Number of days from 1970-01-01 to a date of the Gregorian calendar. -/
def days_from_civil (year month day : Int) : Int :=
  (if month ≤ 2 then year - 1 else year) / 400 * 146097
    + (((if month ≤ 2 then year - 1 else year) % 400) * 365
      + ((if month ≤ 2 then year - 1 else year) % 400) / 4
      - ((if month ≤ 2 then year - 1 else year) % 400) / 100
      + ((153 * (if month > 2 then month - 3 else month + 9) + 2) / 5 + day - 1))
    - 719468

/-- One `Date.parse(time) / 1000`: an engine in the UTC time zone that reads the text
YYYY-MM-DD H:MM:SS as a date of the calendar and gives `NaN` when a field is out of
range. The format is not the ISO format, so engines may differ on dates; no engine
accepts a month 13. -/
def date_parse_utc (time : List Char) : Option Int :=
  match digit_fields none time with
  | [y, mo, d, h, mi, s] =>
    if 1 ≤ mo ∧ mo ≤ 12 ∧ 1 ≤ d ∧ d ≤ days_in_month y mo ∧ h ≤ 23 ∧ mi ≤ 59 ∧ s ≤ 59 then
      some (days_from_civil y mo d * 86400 + h * 3600 + mi * 60 + s)
    else none
  | _ => none

/-- An export of three lines: a line of text, then two headers of one identity. -/
def two_header_text : List Char :=
  "junk\n2023-05-01 9:03:21 Bob(123456)\n2023-05-01 9:03:25 Bobby(123456)".toList

/-- A header line whose timestamp has the header shape and is no date. -/
def invalid_date_text : List Char := "2023-13-45 99:99:99 Bob(1)".toList

/-! ## Representative display names (`get_representitive_alias`, line 314) -/

/-- The comparator `(a, b) => b[1] - a[1]` is not positive: `a` may stay before `b`. -/
def more_first (a b : List Char × Nat) : Prop := b.2 ≤ a.2

instance : DecidableRel more_first :=
  fun a b => inferInstanceAs (Decidable (b.2 ≤ a.2))

/-- The expression `Object.entries(name_counts).sort((a, b) => b[1] - a[1])[0][0]`, with
a stable sort; `none` is the `TypeError` of `[0][0]` on an empty array. -/
def representative (name_counts : List (List Char × Nat)) : Option (List Char) :=
  ((name_counts.insertionSort more_first).head?).map Prod.fst

/-- The entries `[id, name]` that `Object.entries(aliases).map(...)` builds. -/
def representative_entries : Aliases → Option (List (List Char × List Char))
  | [] => some []
  | entry :: rest =>
    match representative entry.2, representative_entries rest with
    | some name, some entries => some ((entry.1, name) :: entries)
    | _, _ => none

/-- `Object.fromEntries(entries)`. -/
def from_entries (entries : List (List Char × List Char)) : List (List Char × List Char) :=
  entries.foldl (fun object entry => own_set entry.1 entry.2 object) []

/-- Function `get_representitive_alias(aliases)`, on the registry in the order of
enumeration; `none` is a thrown `TypeError`. -/
def get_representitive_alias (aliases : Aliases) : Option (List (List Char × List Char)) :=
  (representative_entries aliases).map from_entries

/-- Two headers of the identity 1, first with the display name 9, then with the display
name 1. -/
def numeric_names_text : List Char :=
  "2023-05-01 9:03:21 9(1)\n2023-05-01 9:03:22 1(1)".toList

/-! ## JavaScript numbers of the link computation

The shares, the products and the totals of `show_interation` are IEEE 754 doubles. A
finite double is the rational number it stands for, and `+`, `*`, `/` give the exact
result rounded to the nearest double, ties to the even significand (`round_double`).
The exponent is not bounded: for an array of less than 2^32 messages, the values of
the link computation lie between 2^-66 and 2^34, far from overflow and underflow. -/

/-- Number of binary digits of a natural number, by halving; `fuel` bounds the number of
steps. -/
def bit_length_loop : Nat → Nat → Nat
  | 0, _ => 0
  | fuel + 1, n => if n = 0 then 0 else bit_length_loop fuel (n / 2) + 1

/-- Number of binary digits of a natural number: 0 for 0, and `k` when
`2^(k-1) <= n < 2^k`. -/
def bit_length (n : Nat) : Nat := bit_length_loop n n

/-- Binary exponent of a rational `q` that is not 0: the integer `e` with
`2^e <= |q| < 2^(e+1)`. -/
def binade (q : ℚ) : Int :=
  let k : Int := (bit_length q.num.natAbs : Int) - (bit_length q.den : Int)
  if (2 : ℚ) ^ k ≤ |q| then k else k - 1

/-- The integer nearest to a rational; of two nearest integers, the even one. -/
def round_even (x : ℚ) : Int :=
  if x - ⌊x⌋ < 1 / 2 then ⌊x⌋
  else if 1 / 2 < x - ⌊x⌋ then ⌊x⌋ + 1
  else if ⌊x⌋ % 2 = 0 then ⌊x⌋ else ⌊x⌋ + 1

/-- Rounding of an exact result to a double: the nearest number with a significand of
53 binary digits, ties to the even significand. -/
def round_double (q : ℚ) : ℚ :=
  if q = 0 then 0
  else (round_even (q / (2 : ℚ) ^ (binade q - 52)) : ℚ) * (2 : ℚ) ^ (binade q - 52)

/-- The operator `+` on two doubles. -/
def double_add (x y : ℚ) : ℚ := round_double (x + y)

/-- The operator `*` on two doubles. -/
def double_mul (x y : ℚ) : ℚ := round_double (x * y)

/-- The operator `/` on two doubles, the divisor not 0. -/
def double_div (x y : ℚ) : ℚ := round_double (x / y)

/-! ## Interaction links (`show_interation`, lines 212-236) -/

/-- The comparison `a < b` of two strings: the lexicographic order on UTF-16 code units. -/
def units_lt : List Nat → List Nat → Bool
  | _, [] => false
  | [], _ :: _ => true
  | x :: xs, y :: ys => decide (x < y) || (decide (x = y) && units_lt xs ys)

/-- The comparison `a < b` of two identities. -/
def js_lt (a b : List Char) : Bool := units_lt (utf16_text a) (utf16_text b)

/-- The table `message_count` of a session after the loop of lines 217-218: every
message adds `1 / session.length` to the share of its identity. -/
def session_shares (session : List Message) : List (List Char × ℚ) :=
  session.foldl
    (fun message_count m =>
      own_set m.id
        (double_add ((table_get m.id message_count).getD 0) (double_div 1 (session.length : ℚ)))
        message_count)
    []

/-- The read `message_count[id]`, 0 for an identity that is not in the session. -/
def share (session : List Message) (id : List Char) : ℚ :=
  (table_get id (session_shares session)).getD 0

/-- The table `links`: `{ a: { b: total } }`. -/
abbrev Links := List (List Char × List (List Char × ℚ))

/-- The read `links[a][b] ?? 0`: the accumulated total of a pair. -/
def link_total (links : Links) (a b : List Char) : ℚ :=
  (table_get b ((table_get a links).getD [])).getD 0

/-- The body of the double loop of line 219, for one pair `(a, b)` (lines 219-222). -/
def add_link (session : List Message) (links : Links) (a b : List Char) : Links :=
  if js_lt a b = true then
    own_set a
      (own_set b
        (double_add (link_total (own_set a ((table_get a links).getD []) links) a b)
          (double_mul (share session a) (share session b)))
        ((table_get a (own_set a ((table_get a links).getD []) links)).getD []))
      (own_set a ((table_get a links).getD []) links)
  else links

/-- The body of `for (const session of ...)` (lines 216-222). -/
def add_session_links (links : Links) (session : List Message) : Links :=
  (table_keys (session_shares session)).foldl
    (fun links1 a =>
      (table_keys (session_shares session)).foldl
        (fun links2 b => add_link session links2 a b) links1)
    links

/-- The table `links` after the loop over the two session gaps (lines 214-223); `none`
when `detect_session` throws. -/
def accumulate_links (messages : List Message) : Option Links :=
  match detect_session messages 30 with
  | none => none
  | some short_sessions =>
    match detect_session messages (30 * 60) with
    | none => none
    | some long_sessions =>
      some (long_sessions.foldl add_session_links
        (short_sessions.foldl add_session_links []))

/-- Object `{ source, target, value }` of the list of links. -/
structure Link where
  source : List Char
  target : List Char
  value : ℚ
deriving DecidableEq

/-- The list `links_list` after the loop of lines 226-227. -/
def links_list (links : Links) : List Link :=
  (table_keys links).flatMap fun a =>
    (table_keys ((table_get a links).getD [])).filterMap fun b =>
      if link_total links a b > 1 then
        some { source := a, target := b, value := link_total links a b }
      else none

/-- `Math.max(...values)`; `none` is `-Infinity`, the result for no value. -/
def maximum : List ℚ → Option ℚ
  | [] => none
  | v :: rest =>
    match maximum rest with
    | none => some v
    | some m => some (max v m)

/-- The division `value / maximum_link_value` of a positive value; by `-Infinity` it
gives a zero. -/
def divide_by_maximum (value : ℚ) : Option ℚ → ℚ
  | none => 0
  | some m => double_div value m

/-- The list `links_list` after the normalization of lines 229-231. -/
def normalize_links (list : List Link) : List Link :=
  list.map fun link =>
    { link with value := divide_by_maximum link.value (maximum (list.map fun l => l.value)) }

/-- The field `links` of the graph that `show_interation` draws; `none` when
`detect_session` throws. -/
def graph_links (messages : List Message) : Option (List Link) :=
  (accumulate_links messages).map fun links => normalize_links (links_list links)

/-- A message of an identity at a time, without tokens. -/
def message_of_at (id : List Char) (time : Int) : Message :=
  { time := some time, id := id, tokens := [] }

/-- The product `message_count[a] * message_count[b]` that a session adds to the total of
the pair `(a, b)`. -/
def contribution (session : List Message) (a b : List Char) : ℚ :=
  double_mul (share session a) (share session b)

/-- Eighteen messages, sent one second apart from the time `start`, by A and B in turn. -/
def eighteen_messages (start : Int) : List Message :=
  (List.range 18).map fun i =>
    message_of_at (if i % 2 = 0 then ['A'] else ['B']) (start + (i : Int))

/-- Two conversations of eighteen messages between A and B, more than half an hour apart. -/
def two_conversations : List Message := eighteen_messages 10000 ++ eighteen_messages 20000

/-- Both identities have a message in the session. -/
def both_in (a b : List Char) (session : List Message) : Bool :=
  decide (a ∈ session.map Message.id) && decide (b ∈ session.map Message.id)

/-! ## Theorems: session detector -/

theorem push_to_last_session_append (ss : List (List Message)) (cur : List Message) (m : Message) :
    push_to_last_session (ss ++ [cur]) m = some (ss ++ [cur ++ [m]]) := by
  simp [push_to_last_session]

theorem detect_session_loop_running (g : Int) (ms : List Message) :
    ∀ (ss : List (List Message)) (cur : List Message) (t : Option Int),
      detect_session_loop g ms (ss ++ [cur]) t
        = some (ss ++ [cur ++ (session_runs g t ms).1] ++ (session_runs g t ms).2) := by
  induction ms with
  | nil => intro ss cur t; simp [detect_session_loop, session_runs]
  | cons m rest ih =>
    intro ss cur t
    by_cases h : gap_exceeded m.time t g = true
    · simp only [detect_session_loop, session_runs, if_pos h]
      rw [push_to_last_session_append (ss ++ [cur]) [] m]
      simp only [ih (ss ++ [cur]) ([] ++ [m]) m.time]
      simp
    · simp only [detect_session_loop, session_runs, if_neg h]
      rw [push_to_last_session_append ss cur m]
      simp only [ih ss (cur ++ [m]) m.time]
      simp

theorem detect_session_cons (g : Int) (m : Message) (rest : List Message) :
    detect_session (m :: rest) g
      = if gap_exceeded m.time (some 0) g = true then
          some (((m :: (session_runs g m.time rest).1)) :: (session_runs g m.time rest).2)
        else none := by
  by_cases h : gap_exceeded m.time (some 0) g = true
  · simp only [detect_session, detect_session_loop, if_pos h]
    rw [push_to_last_session_append [] [] m]
    simp only [detect_session_loop_running g rest [] ([] ++ [m]) m.time]
    simp
  · simp [detect_session, detect_session_loop, h, push_to_last_session]

theorem session_runs_flatten (g : Int) (ms : List Message) :
    ∀ t : Option Int, (session_runs g t ms).1 ++ (session_runs g t ms).2.flatten = ms := by
  induction ms with
  | nil => intro t; simp [session_runs]
  | cons m rest ih =>
    intro t
    by_cases h : gap_exceeded m.time t g = true
    · simp only [session_runs, if_pos h]
      simpa using ih m.time
    · simp only [session_runs, if_neg h]
      simpa using ih m.time

theorem session_runs_nonempty (g : Int) (ms : List Message) :
    ∀ t : Option Int, ∀ s ∈ (session_runs g t ms).2, s ≠ [] := by
  induction ms with
  | nil => intro t s hs; simp [session_runs] at hs
  | cons m rest ih =>
    intro t s hs
    by_cases h : gap_exceeded m.time t g = true
    · simp only [session_runs, if_pos h, List.mem_cons] at hs
      rcases hs with hs | hs
      · simp [hs]
      · exact ih m.time s hs
    · simp only [session_runs, if_neg h] at hs
      exact ih m.time s hs

theorem session_index_lt (s : List Message) (rest : List (List Message)) (i : Nat)
    (h : i < s.length) : session_index (s :: rest) i = 0 := by
  simp [session_index, h]

theorem session_index_ge (s : List Message) (rest : List (List Message)) (i k : Nat)
    (h : i = s.length + k) : session_index (s :: rest) i = session_index rest k + 1 := by
  subst h
  simp [session_index]

theorem session_runs_index (g : Int) (ms : List Message) :
    ∀ (cur : List Message) (x : Message) (pre : List Message) (a b : Message)
      (post : List Message),
      x :: ms = pre ++ a :: b :: post →
      (session_index ((cur ++ x :: (session_runs g x.time ms).1) :: (session_runs g x.time ms).2)
          (cur.length + pre.length)
        = session_index
            ((cur ++ x :: (session_runs g x.time ms).1) :: (session_runs g x.time ms).2)
            (cur.length + pre.length + 1)
        ↔ gap_exceeded b.time a.time g = false) := by
  induction ms with
  | nil =>
    intro cur x pre a b post h
    have := congrArg List.length h
    simp at this
    omega
  | cons m rest ih =>
    intro cur x pre a b post h
    cases pre with
    | nil =>
      simp only [List.nil_append, List.cons.injEq] at h
      obtain ⟨h1, h2, h3⟩ := h
      subst h1 h2 h3
      by_cases hg : gap_exceeded m.time x.time g = true
      · simp only [session_runs, if_pos hg]
        rw [session_index_lt _ _ _ (by simp),
          session_index_ge _ _ _ 0 (by simp), session_index_lt _ _ _ (by simp)]
        simp [hg]
      · simp only [session_runs, if_neg hg]
        rw [session_index_lt _ _ _ (by simp), session_index_lt _ _ _ (by simp)]
        simpa using hg
    | cons p pre2 =>
      simp only [List.cons_append, List.cons.injEq] at h
      obtain ⟨h1, h2⟩ := h
      subst h1
      by_cases hg : gap_exceeded m.time x.time g = true
      · have key := ih [] m pre2 a b post h2
        simp only [List.nil_append, List.length_nil, Nat.zero_add] at key
        simp only [session_runs, if_pos hg]
        rw [session_index_ge (cur ++ [x]) _ (cur.length + (x :: pre2).length) pre2.length
            (by simp; omega),
          session_index_ge (cur ++ [x]) _ (cur.length + (x :: pre2).length + 1) (pre2.length + 1)
            (by simp; omega)]
        simpa using key
      · have key := ih (cur ++ [x]) m pre2 a b post h2
        simp only [session_runs, if_neg hg]
        have e5 : (cur ++ [x]).length + pre2.length = cur.length + (pre2.length + 1) := by
          simp; omega
        rw [e5] at key
        simpa using key

theorem detect_session_index (messages : List Message) (gap_limit : Int)
    (sessions : List (List Message)) (h : detect_session messages gap_limit = some sessions)
    (pre : List Message) (a b : Message) (post : List Message)
    (hsplit : messages = pre ++ a :: b :: post) :
    session_index sessions pre.length = session_index sessions (pre.length + 1)
      ↔ gap_exceeded b.time a.time gap_limit = false := by
  cases messages with
  | nil =>
    have := congrArg List.length hsplit
    simp at this
    omega
  | cons m rest =>
    rw [detect_session_cons] at h
    by_cases hg : gap_exceeded m.time (some 0) gap_limit = true
    · rw [if_pos hg] at h
      simp only [Option.some.injEq] at h
      subst h
      have key := session_runs_index gap_limit rest [] m pre a b post hsplit
      simpa using key
    · rw [if_neg hg] at h
      cases h

/-- C1 (evaluation at the failing input): on the messages sent at times
0, 10, 100 and 110 with gap limit 30, `detect_session` does not open a session for
the first message (0 - 0 > 30 is false) and throws on `sessions[-1].push`. -/
theorem detect_session_small_first_time_throws :
    detect_session [message_at 0, message_at 10, message_at 100, message_at 110] 30 = none := by
  decide

/-- C2: whenever `detect_session` returns sessions, their concatenation in order is
exactly the input message list and no session is empty. -/
theorem detect_session_partition (messages : List Message) (gap_limit : Int)
    (sessions : List (List Message)) (h : detect_session messages gap_limit = some sessions) :
    sessions.flatten = messages ∧ ∀ s ∈ sessions, s ≠ [] := by
  cases messages with
  | nil =>
    simp [detect_session, detect_session_loop] at h
    subst h
    simp
  | cons m rest =>
    rw [detect_session_cons] at h
    by_cases hg : gap_exceeded m.time (some 0) gap_limit = true
    · rw [if_pos hg] at h
      simp only [Option.some.injEq] at h
      subst h
      refine ⟨?_, ?_⟩
      · simpa using session_runs_flatten gap_limit rest m.time
      · intro s hs
        simp only [List.mem_cons] at hs
        rcases hs with hs | hs
        · simp [hs]
        · exact session_runs_nonempty gap_limit rest m.time s hs
    · rw [if_neg hg] at h
      cases h

/-- Witness for C2: the messages at times 100, 110, 200 with gap limit 30 are split
into two sessions that concatenate to the input. -/
theorem detect_session_partition_witness :
    detect_session [message_at 100, message_at 110, message_at 200] 30
        = some [[message_at 100, message_at 110], [message_at 200]]
      ∧ ([[message_at 100, message_at 110], [message_at 200]].flatten
            = [message_at 100, message_at 110, message_at 200]
          ∧ ∀ s ∈ [[message_at 100, message_at 110], [message_at 200]], s ≠ []) :=
  ⟨by decide, detect_session_partition _ 30 _ (by decide)⟩

/-- C3 (counterexample): the messages at times 100, `NaN`, 1000 with gap limit 30 form
one session, so the second and the third message lie in the same session, although
`1000 - NaN <= 30` is false (and so is `NaN - 100 <= 30` for the first two). -/
theorem detect_session_nan_same_session :
    detect_session [message_at 100, message_nan, message_at 1000] 30
        = some [[message_at 100, message_nan, message_at 1000]]
      ∧ session_index [[message_at 100, message_nan, message_at 1000]] 1
          = session_index [[message_at 100, message_nan, message_at 1000]] 2
      ∧ gap_within (message_at 1000).time message_nan.time 30 = false
      ∧ gap_within message_nan.time (message_at 100).time 30 = false := by
  decide

/-- C3 (amended): whenever `detect_session` returns sessions, two consecutive messages
`a`, `b` of the input (at positions i-1 and i) lie in the same session if and only if
the test `b.time - a.time > gap_limit` is false. When both times are numbers, that is
`b.time - a.time <= gap_limit`; when one of them is `NaN`, the two messages are in the
same session. -/
theorem detect_session_same_session_iff (messages : List Message) (gap_limit : Int)
    (sessions : List (List Message)) (h : detect_session messages gap_limit = some sessions)
    (pre : List Message) (a b : Message) (post : List Message)
    (hsplit : messages = pre ++ a :: b :: post) :
    (session_index sessions pre.length = session_index sessions (pre.length + 1)
      ↔ gap_exceeded b.time a.time gap_limit = false)
    ∧ (∀ ta tb : Int, a.time = some ta → b.time = some tb →
        (session_index sessions pre.length = session_index sessions (pre.length + 1)
          ↔ tb - ta ≤ gap_limit))
    ∧ (a.time = none ∨ b.time = none →
        session_index sessions pre.length = session_index sessions (pre.length + 1)) := by
  have key := detect_session_index messages gap_limit sessions h pre a b post hsplit
  refine ⟨key, ?_, ?_⟩
  · intro ta tb ha hb
    rw [key, ha, hb]
    simp [gap_exceeded]
  · intro hn
    rw [key]
    rcases hn with hn | hn
    · rw [hn]
      cases b.time <;> rfl
    · rw [hn]
      rfl

/-- Witness for C3 (amended): in the sessions of the messages at times 100, 110, `NaN`,
200 with gap limit 30, the message at 110 and the one without a valid time are in the
same session. -/
theorem detect_session_same_session_iff_witness :
    detect_session [message_at 100, message_at 110, message_nan, message_at 200] 30
        = some [[message_at 100, message_at 110, message_nan, message_at 200]]
    ∧ ((session_index [[message_at 100, message_at 110, message_nan, message_at 200]] 1
          = session_index [[message_at 100, message_at 110, message_nan, message_at 200]] 2
        ↔ gap_exceeded message_nan.time (message_at 110).time 30 = false)
      ∧ (∀ ta tb : Int, (message_at 110).time = some ta → message_nan.time = some tb →
          (session_index [[message_at 100, message_at 110, message_nan, message_at 200]] 1
            = session_index [[message_at 100, message_at 110, message_nan, message_at 200]] 2
            ↔ tb - ta ≤ 30))
      ∧ ((message_at 110).time = none ∨ message_nan.time = none →
          session_index [[message_at 100, message_at 110, message_nan, message_at 200]] 1
            = session_index
                [[message_at 100, message_at 110, message_nan, message_at 200]] 2)) :=
  ⟨by decide,
   detect_session_same_session_iff
    [message_at 100, message_at 110, message_nan, message_at 200] 30
    [[message_at 100, message_at 110, message_nan, message_at 200]] (by decide)
    [message_at 100] (message_at 110) message_nan [message_at 200] rfl⟩

/-! ## Theorems: tokenizer -/

theorem tokenize_loop_acc (cs : List Char) :
    ∀ (tokens : List Token) (state : Option Token),
      tokenize_loop cs tokens state = tokens ++ tokenize_loop cs [] state := by
  induction cs with
  | nil => intro tokens state; simp [tokenize_loop]
  | cons c rest ih =>
    intro tokens state
    have h1 : (tokenize_step tokens state c).2 = (tokenize_step [] state c).2 := by
      unfold tokenize_step; split <;> (repeat' split) <;> rfl
    have h2 : (tokenize_step tokens state c).1 = tokens ++ (tokenize_step [] state c).1 := by
      unfold tokenize_step; split <;> (repeat' split) <;> simp
    simp only [tokenize_loop]
    rw [ih (tokenize_step tokens state c).1, ih (tokenize_step [] state c).1, h1, h2]
    simp

theorem tokens_from_nil (state : Option Token) :
    tokens_from state [] = (tokenize_step [] state (Char.ofNat 0)).1 := by
  simp [tokens_from, tokenize_loop]

theorem tokens_from_cons (state : Option Token) (c : Char) (cs : List Char) :
    tokens_from state (c :: cs)
      = (tokenize_step [] state c).1 ++ tokens_from (tokenize_step [] state c).2 cs := by
  simp only [tokens_from, List.cons_append, tokenize_loop]
  rw [tokenize_loop_acc]
  rfl

theorem char_class_terminator : char_class (Char.ofNat 0) = CharClass.other := by decide

theorem to_lower_case_append (v w : List Nat) :
    to_lower_case (v ++ w) = to_lower_case v ++ to_lower_case w := by
  simp [to_lower_case]

theorem lower_unit_idem (u : Nat) : lower_unit (lower_unit u) = lower_unit u := by
  unfold lower_unit
  split_ifs <;> omega

theorem to_lower_case_idem (v : List Nat) : to_lower_case (to_lower_case v) = to_lower_case v := by
  simp [to_lower_case, lower_unit_idem]

/-- The step on a character of class `other`: the pending token is flushed. -/
theorem tokenize_step_other (state : Option Token) (c : Char)
    (h : char_class c = CharClass.other) :
    tokenize_step [] state c = (tokens_from state [], none) := by
  have h0 := char_class_terminator
  unfold char_class at h h0
  have hc1 : is_chinese c = false := by
    by_contra hx; simp at hx; simp [hx] at h
  have hc2 : is_english c = false := by
    by_contra hx; simp at hx; simp [hx, hc1] at h
  have hz1 : is_chinese (Char.ofNat 0) = false := by decide
  have hz2 : is_english (Char.ofNat 0) = false := by decide
  rw [tokens_from_nil]
  unfold tokenize_step
  rcases state with _ | (v | v) <;> simp [hc1, hc2, hz1, hz2]

theorem tokenize_step_han (state : Option Token) (c : Char)
    (h : char_class c = CharClass.han) :
    tokenize_step [] state c
      = (tokens_from state [],
          some (Token.BiGram (match state with
            | some (Token.BiGram v) => slice_last2 (v ++ utf16 c)
            | _ => utf16 c))) := by
  unfold char_class at h
  have hc1 : is_chinese c = true := by
    by_contra hx; simp at hx; simp [hx] at h; split_ifs at h
  have hz1 : is_chinese (Char.ofNat 0) = false := by decide
  have hz2 : is_english (Char.ofNat 0) = false := by decide
  rw [tokens_from_nil]
  unfold tokenize_step
  rcases state with _ | (v | v) <;> simp [hc1, hz1, hz2]

theorem tokenize_step_latin (state : Option Token) (c : Char)
    (h : char_class c = CharClass.latin) :
    tokenize_step [] state c
      = match state with
        | some (Token.English v) => ([], some (new_English (v ++ utf16 c)))
        | _ => (tokens_from state [], some (new_English (utf16 c))) := by
  unfold char_class at h
  have hc1 : is_chinese c = false := by
    by_contra hx; simp at hx; simp [hx] at h
  have hc2 : is_english c = true := by
    by_contra hx; simp at hx; simp [hx, hc1] at h
  have hz1 : is_chinese (Char.ofNat 0) = false := by decide
  have hz2 : is_english (Char.ofNat 0) = false := by decide
  rw [tokens_from_nil]
  unfold tokenize_step
  rcases state with _ | (v | v) <;> simp [hc1, hc2, hz1, hz2]

theorem tokens_from_none_nil : tokens_from none [] = [] := by decide

theorem tokens_from_english_nil (v : List Nat) :
    tokens_from (some (new_English v)) [] = [Token.English (to_lower_case v)] := by
  have hz1 : is_chinese (Char.ofNat 0) = false := by decide
  have hz2 : is_english (Char.ofNat 0) = false := by decide
  simp [tokens_from_nil, tokenize_step, new_English, hz1, hz2]

theorem flatMap_head_run_other (R : List (CharClass × List Char)) :
    ((head_run CharClass.other R).2).flatMap run_tokens_units = R.flatMap run_tokens_units := by
  cases R with
  | nil => rfl
  | cons kr rest =>
    obtain ⟨k, r⟩ := kr
    by_cases hk : k = CharClass.other
    · subst hk
      simp [head_run, run_tokens_units]
    · simp [head_run, hk]

theorem head_run_class_runs_cons (k : CharClass) (c : Char) (cs : List Char) :
    head_run k (class_runs (c :: cs))
      = if char_class c = k then
          (c :: (head_run (char_class c) (class_runs cs)).1,
            (head_run (char_class c) (class_runs cs)).2)
        else ([], class_runs (c :: cs)) := by
  simp only [class_runs, head_run]

theorem tokens_from_runs (cs : List Char) :
    (tokens_from none cs = (class_runs cs).flatMap run_tokens_units)
    ∧ (∀ v, tokens_from (some (new_English v)) cs
        = Token.English
            (to_lower_case (v ++ utf16_text (head_run CharClass.latin (class_runs cs)).1))
          :: ((head_run CharClass.latin (class_runs cs)).2).flatMap run_tokens_units)
    ∧ (∀ v, tokens_from (some (Token.BiGram v)) cs
        = tokens_from (some (Token.BiGram v)) (head_run CharClass.han (class_runs cs)).1
          ++ ((head_run CharClass.han (class_runs cs)).2).flatMap run_tokens_units) := by
  induction cs with
  | nil =>
    refine ⟨by simp [tokens_from_none_nil, class_runs], ?_, ?_⟩
    · intro v
      simp [tokens_from_english_nil, class_runs, head_run, utf16_text]
    · intro v
      simp [class_runs, head_run]
  | cons c cs ih =>
    obtain ⟨ih1, ih2, ih3⟩ := ih
    rcases hk : char_class c with _ | _ | _
    · -- a Han character
      refine ⟨?_, ?_, ?_⟩
      · rw [tokens_from_cons, tokenize_step_han none c hk]
        simp only [tokens_from_none_nil, List.nil_append]
        rw [ih3]
        simp only [class_runs, hk, List.flatMap_cons, run_tokens_units]
        rw [tokens_from_cons, tokenize_step_han none c hk]
        simp [tokens_from_none_nil]
      · intro v
        rw [tokens_from_cons]
        simp only [new_English, tokenize_step_han _ c hk]
        rw [ih3]
        rw [head_run_class_runs_cons, hk]
        simp only [reduceCtorEq, if_false, utf16_text, List.append_nil]
        simp only [class_runs, hk, List.flatMap_cons, run_tokens_units]
        rw [tokens_from_cons (none) c, tokenize_step_han none c hk]
        have := tokens_from_english_nil v
        simp only [new_English] at this
        simp [tokens_from_none_nil, this, to_lower_case_idem]
      · intro v
        rw [tokens_from_cons, tokenize_step_han _ c hk]
        simp only
        rw [ih3]
        rw [head_run_class_runs_cons, hk]
        simp only [if_true]
        rw [tokens_from_cons (some (Token.BiGram v)) c, tokenize_step_han _ c hk]
        simp
    · -- a Latin letter
      refine ⟨?_, ?_, ?_⟩
      · rw [tokens_from_cons, tokenize_step_latin none c hk]
        simp only [tokens_from_none_nil, List.nil_append]
        rw [ih2]
        simp [class_runs, hk, run_tokens_units, utf16_text]
      · intro v
        rw [tokens_from_cons]
        simp only [new_English, tokenize_step_latin _ c hk]
        simp only [List.nil_append]
        have key := ih2 (to_lower_case v ++ utf16 c)
        simp only [new_English] at key
        rw [key]
        rw [head_run_class_runs_cons, hk]
        simp [utf16_text, to_lower_case_append, to_lower_case_idem]
      · intro v
        rw [tokens_from_cons, tokenize_step_latin _ c hk]
        simp only
        rw [ih2]
        rw [head_run_class_runs_cons, hk]
        simp [class_runs, hk, run_tokens_units, utf16_text]
    · -- another character
      refine ⟨?_, ?_, ?_⟩
      · rw [tokens_from_cons, tokenize_step_other none c hk]
        simp only [tokens_from_none_nil, List.nil_append]
        rw [ih1]
        simp [class_runs, hk, run_tokens_units, flatMap_head_run_other]
      · intro v
        rw [tokens_from_cons, tokenize_step_other _ c hk]
        simp only
        rw [ih1, tokens_from_english_nil]
        rw [head_run_class_runs_cons, hk]
        simp [class_runs, hk, run_tokens_units, flatMap_head_run_other, utf16_text]
      · intro v
        rw [tokens_from_cons, tokenize_step_other _ c hk]
        simp only
        rw [ih1]
        rw [head_run_class_runs_cons, hk]
        simp [class_runs, hk, run_tokens_units, flatMap_head_run_other]

theorem replace_all_aux_absent (p r : List Char) (text : List Char)
    (h : ¬ p <:+: text) : replace_all_aux p r 0 text = text := by
  induction text with
  | nil => rfl
  | cons c rest ih =>
    have h1 : p.isPrefixOf (c :: rest) = false := by
      by_contra hx
      simp only [Bool.not_eq_false] at hx
      exact h (List.isPrefixOf_iff_prefix.1 hx).isInfix
    have h2 : ¬ p <:+: rest := fun hx => h (List.infix_cons hx)
    simp only [replace_all_aux, h1, Bool.false_eq_true, if_false, ih h2]

theorem replace_all_absent (p r : List Char) (text : List Char)
    (h : ¬ p <:+: text) : replace_all p r text = text := by
  have hp : p ≠ [] := by
    rintro rfl
    exact h List.nil_infix
  simp only [replace_all, hp, if_false]
  exact replace_all_aux_absent p r text h

theorem foldl_replace_all_absent (ws : List (List Char)) (r text : List Char)
    (h : ∀ w ∈ ws, ¬ w <:+: text) :
    ws.foldl (fun t w => replace_all w r t) text = text := by
  induction ws with
  | nil => rfl
  | cons w rest ih =>
    simp only [List.foldl_cons]
    rw [replace_all_absent w r text (h w (List.mem_cons_self _ _))]
    exact ih (fun x hx => h x (List.mem_cons_of_mem _ hx))

theorem remove_stop_words_of_no_stop_word (text : List Char) (aliases : Aliases)
    (h : no_stop_word text aliases) : remove_stop_words text aliases = text := by
  unfold remove_stop_words
  apply foldl_replace_all_absent
  intro w hw
  exact h w ((List.perm_insertionSort longer_first (stop_words aliases)).mem_iff.1 hw)

theorem head_run_snd_subset (k : CharClass) (R : List (CharClass × List Char)) :
    ∀ kr ∈ (head_run k R).2, kr ∈ R := by
  intro kr hkr
  cases R with
  | nil => simp [head_run] at hkr
  | cons x rest =>
    obtain ⟨k2, r⟩ := x
    by_cases hk : k2 = k
    · simp only [head_run, hk, if_true] at hkr
      exact List.mem_cons_of_mem _ hkr
    · simpa [head_run, hk] using hkr

theorem head_run_fst_mem (k : CharClass) (R : List (CharClass × List Char)) :
    (head_run k R).1 = [] ∨ (k, (head_run k R).1) ∈ R := by
  cases R with
  | nil => left; rfl
  | cons x rest =>
    obtain ⟨k2, r⟩ := x
    by_cases hk : k2 = k
    · right
      simp [head_run, hk]
    · left
      simp [head_run, hk]

/-- Every character of a run has the class of the run. -/
theorem class_runs_homogeneous (cs : List Char) :
    ∀ kr ∈ class_runs cs, ∀ c ∈ kr.2, char_class c = kr.1 := by
  induction cs with
  | nil => intro kr hkr; simp [class_runs] at hkr
  | cons c cs ih =>
    intro kr hkr x hx
    simp only [class_runs, List.mem_cons] at hkr
    rcases hkr with rfl | hkr
    · simp only [List.mem_cons] at hx
      rcases hx with rfl | hx
      · rfl
      · rcases head_run_fst_mem (char_class c) (class_runs cs) with h0 | h0
        · rw [h0] at hx
          cases hx
        · exact ih _ h0 x hx
    · exact ih kr (head_run_snd_subset _ _ kr hkr) x hx

/-- The runs of a text concatenate to the text. -/
theorem class_runs_flatten (cs : List Char) :
    (class_runs cs).flatMap (fun kr => kr.2) = cs := by
  have aux : ∀ (k : CharClass) (R : List (CharClass × List Char)),
      (head_run k R).1 ++ ((head_run k R).2).flatMap (fun kr => kr.2)
        = R.flatMap (fun kr => kr.2) := by
    intro k R
    cases R with
    | nil => rfl
    | cons x rest =>
      obtain ⟨k2, r⟩ := x
      by_cases hk : k2 = k <;> simp [head_run, hk]
  induction cs with
  | nil => rfl
  | cons c cs ih =>
    simp only [class_runs, List.flatMap_cons, List.cons_append]
    rw [aux, ih]

theorem english_values_append (a b : List Token) :
    english_values (a ++ b) = english_values a ++ english_values b := by
  simp [english_values]

theorem english_values_han_run (r : List Char) (hr : ∀ c ∈ r, char_class c = CharClass.han) :
    ∀ state : Option Token, (∀ v, state ≠ some (Token.English v)) →
      english_values (tokens_from state r) = [] := by
  have base : ∀ state : Option Token, (∀ v, state ≠ some (Token.English v)) →
      english_values (tokens_from state []) = [] := by
    intro state hs
    have hz1 : is_chinese (Char.ofNat 0) = false := by decide
    have hz2 : is_english (Char.ofNat 0) = false := by decide
    rcases state with _ | (v | v)
    · simp [tokens_from_none_nil, english_values]
    · by_cases hv : is_complete v <;>
        simp [tokens_from_nil, tokenize_step, hz1, hz2, hv, english_values]
    · exact absurd rfl (hs v)
  induction r with
  | nil => exact base
  | cons c r ih =>
    intro state hs
    rw [tokens_from_cons, tokenize_step_han state c (hr c (List.mem_cons_self _ _))]
    simp only
    have ih2 := ih (fun x hx => hr x (List.mem_cons_of_mem _ hx))
    rw [english_values_append, base state hs, ih2 _ (by intro v; simp)]
    rfl

theorem english_values_runs (R : List (CharClass × List Char))
    (hR : ∀ kr ∈ R, ∀ c ∈ kr.2, char_class c = kr.1) :
    english_values (R.flatMap run_tokens_units)
      = (R.filterMap (fun kr => if kr.1 = CharClass.latin then some kr.2 else none)).map
          (fun r => to_lower_case (utf16_text r)) := by
  induction R with
  | nil => rfl
  | cons kr rest ih =>
    have ih2 := ih (fun x hx => hR x (List.mem_cons_of_mem _ hx))
    obtain ⟨k, r⟩ := kr
    have hr := hR (k, r) (List.mem_cons_self _ _)
    simp only [List.flatMap_cons]
    rw [english_values_append, ih2]
    cases k with
    | han =>
      have := english_values_han_run r hr none (by intro v; simp)
      simp [run_tokens_units, this]
    | latin => simp [run_tokens_units, english_values]
    | other => simp [run_tokens_units, english_values]

/-- C7 (evaluation at the failing input): the text made of the single Han character
U+20000, a maximal Han run of length 1 without stop-word, yields one token, whose
value is that single character (two UTF-16 code units). -/
theorem string_to_token_astral_han_single :
    class_runs [Char.ofNat 0x20000] = [(CharClass.han, [Char.ofNat 0x20000])]
      ∧ no_stop_word [Char.ofNat 0x20000] []
      ∧ string_to_token [Char.ofNat 0x20000] [] = [Token.BiGram (utf16 (Char.ofNat 0x20000))] := by
  refine ⟨by decide, ?_, by decide⟩
  unfold no_stop_word
  decide

theorem toNat_ofNat_letter (n : Nat) (h1 : 65 ≤ n) (h2 : n ≤ 90) :
    (Char.ofNat (n + 32)).toNat = n + 32 := by
  interval_cases n <;> rfl

theorem utf16_toLower (c : Char) (h : is_english c = true) :
    utf16 (Char.toLower c) = to_lower_case (utf16 c)
      ∧ ∀ u ∈ utf16 (Char.toLower c), 97 ≤ u ∧ u ≤ 122 := by
  have hb : (97 ≤ c.toNat ∧ c.toNat ≤ 122) ∨ (65 ≤ c.toNat ∧ c.toNat ≤ 90) := by
    simpa [is_english] using h
  by_cases hu : 65 ≤ c.toNat ∧ c.toNat ≤ 90
  · have e : (Char.toLower c).toNat = c.toNat + 32 := by
      have : Char.toLower c = Char.ofNat (c.toNat + 32) := by
        simp [Char.toLower, hu.1, hu.2]
      rw [this]
      exact toNat_ofNat_letter c.toNat hu.1 hu.2
    have h1 : c.toNat < 65536 := by omega
    have h2 : c.toNat + 32 < 65536 := by omega
    simp only [utf16, e, to_lower_case, lower_unit, h1, h2, if_true, List.map_cons, List.map_nil,
      hu, and_self, List.mem_singleton]
    refine ⟨trivial, ?_⟩
    intro u hu2
    omega
  · have e : Char.toLower c = c := by
      have : ¬ (c.toNat ≥ 65 ∧ c.toNat ≤ 90) := hu
      simp only [Char.toLower, this, if_false]
    have h1 : c.toNat < 65536 := by omega
    simp only [e, utf16, to_lower_case, lower_unit, h1, if_true, List.map_cons, List.map_nil,
      hu, if_false, List.mem_singleton]
    refine ⟨trivial, ?_⟩
    intro u hu2
    omega

theorem utf16_text_toLower (r : List Char) (h : ∀ c ∈ r, is_english c = true) :
    utf16_text (r.map Char.toLower) = to_lower_case (utf16_text r)
      ∧ ∀ u ∈ utf16_text (r.map Char.toLower), 97 ≤ u ∧ u ≤ 122 := by
  induction r with
  | nil => simp [utf16_text, to_lower_case]
  | cons c rest ih =>
    have hc := utf16_toLower c (h c (by simp))
    have hr := ih (fun x hx => h x (by simp [hx]))
    simp only [List.map_cons, utf16_text, to_lower_case_append, hc.1, hr.1, List.mem_append,
      true_and]
    intro u hu
    rcases hu with hu | hu
    · exact hc.2 u (hc.1 ▸ hu)
    · exact hr.2 u (hr.1 ▸ hu)

theorem is_english_of_latin (c : Char) (h : char_class c = CharClass.latin) :
    is_english c = true := by
  unfold char_class at h
  by_cases h1 : is_chinese c = true
  · simp [h1] at h
  · by_cases h2 : is_english c = true
    · exact h2
    · simp [h1, h2] at h

theorem run_tokens_eq (cs : List Char) :
    ∀ kr ∈ class_runs cs, run_tokens_units kr = run_tokens kr := by
  intro kr hkr
  obtain ⟨k, r⟩ := kr
  cases k with
  | han => rfl
  | other => rfl
  | latin =>
    have hr : ∀ c ∈ r, is_english c = true := fun c hc =>
      is_english_of_latin c (class_runs_homogeneous cs _ hkr c hc)
    simp [run_tokens_units, run_tokens, (utf16_text_toLower r hr).1]

theorem mem_latin_runs (text r : List Char) (h : r ∈ latin_runs text) :
    ∀ c ∈ r, is_english c = true := by
  unfold latin_runs at h
  rw [List.mem_filterMap] at h
  obtain ⟨kr, hkr, hr⟩ := h
  by_cases hk : kr.1 = CharClass.latin
  · simp only [hk, if_true, Option.some.injEq] at hr
    subst hr
    intro c hc
    exact is_english_of_latin c (hk ▸ class_runs_homogeneous text kr hkr c hc)
  · simp [hk] at hr

/-- C8: on a text without stop-word occurrence, the tokens are the concatenation, over
the maximal runs of the text in order, of the tokens of each run, a Latin run giving the
single English token whose value is the run with every letter in lowercase
(`Char.toLower`); hence the English tokens are, in order, exactly the lowercased maximal
runs of ASCII Latin letters, and their values hold the letters a-z only. -/
theorem string_to_token_runs (text : List Char) (aliases : Aliases)
    (h : no_stop_word text aliases) :
    string_to_token text aliases = (class_runs text).flatMap run_tokens
      ∧ english_values (string_to_token text aliases)
          = (latin_runs text).map (fun r => utf16_text (r.map Char.toLower))
      ∧ ∀ v ∈ english_values (string_to_token text aliases), ∀ u ∈ v, 97 ≤ u ∧ u ≤ 122 := by
  have e : string_to_token text aliases = (class_runs text).flatMap run_tokens_units := by
    unfold string_to_token
    rw [remove_stop_words_of_no_stop_word text aliases h]
    exact (tokens_from_runs text).1
  have e2 : english_values (string_to_token text aliases)
      = (latin_runs text).map (fun r => utf16_text (r.map Char.toLower)) := by
    rw [e, english_values_runs (class_runs text) (class_runs_homogeneous text)]
    apply List.map_congr_left
    intro r hr
    exact ((utf16_text_toLower r (mem_latin_runs text r hr)).1).symm
  refine ⟨?_, e2, ?_⟩
  · rw [e, List.flatMap, List.flatMap]
    congr 1
    apply List.map_congr_left
    intro kr hkr
    exact run_tokens_eq text kr hkr
  · intro v hv
    rw [e2, List.mem_map] at hv
    obtain ⟨r, hr, hv⟩ := hv
    subst hv
    exact (utf16_text_toLower r (mem_latin_runs text r hr)).2

/-- Witness for C8: the text Hello世界HI has no stop-word, its maximal Latin runs are
Hello and HI, and it yields the tokens hello, 世界, hi, as does the text hello世界hi. -/
theorem string_to_token_runs_witness :
    no_stop_word "Hello世界HI".toList []
      ∧ (string_to_token "Hello世界HI".toList []
            = (class_runs "Hello世界HI".toList).flatMap run_tokens
        ∧ english_values (string_to_token "Hello世界HI".toList [])
            = (latin_runs "Hello世界HI".toList).map (fun r => utf16_text (r.map Char.toLower))
        ∧ ∀ v ∈ english_values (string_to_token "Hello世界HI".toList []),
            ∀ u ∈ v, 97 ≤ u ∧ u ≤ 122)
      ∧ latin_runs "Hello世界HI".toList = ["Hello".toList, "HI".toList]
      ∧ string_to_token "Hello世界HI".toList []
          = [Token.English [104, 101, 108, 108, 111], Token.BiGram [0x4E16, 0x754C],
              Token.English [104, 105]]
      ∧ string_to_token "hello世界hi".toList []
          = [Token.English [104, 101, 108, 108, 111], Token.BiGram [0x4E16, 0x754C],
              Token.English [104, 105]] :=
  ⟨by unfold no_stop_word; decide,
    string_to_token_runs "Hello世界HI".toList [] (by unfold no_stop_word; decide),
    by decide, by decide, by decide⟩

/-! ### Stop-words -/

theorem set_add_mem {α : Type} [DecidableEq α] (set : List α) (x y : α) :
    y ∈ set_add set x ↔ y ∈ set ∨ y = x := by
  unfold set_add
  by_cases h : x ∈ set
  · simp only [h, if_true]
    constructor
    · exact Or.inl
    · rintro (h1 | rfl)
      · exact h1
      · exact h
  · simp [h]

theorem set_add_nodup {α : Type} [DecidableEq α] (set : List α) (x : α) (h : set.Nodup) :
    (set_add set x).Nodup := by
  unfold set_add
  by_cases hx : x ∈ set
  · simpa [hx] using h
  · simp only [hx, if_false]
    rw [List.nodup_append]
    refine ⟨h, List.nodup_singleton x, ?_⟩
    intro a ha hb
    simp only [List.mem_singleton] at hb
    exact hx (hb ▸ ha)

theorem names_fold_mem (names : List (List Char × Nat)) :
    ∀ (set : List (List Char)) (y : List Char),
      y ∈ names.foldl (fun set2 name_count => set_add set2 ('@' :: name_count.1)) set
        ↔ y ∈ set ∨ ∃ nc ∈ names, y = '@' :: nc.1 := by
  induction names with
  | nil => intro set y; simp
  | cons nc rest ih =>
    intro set y
    simp only [List.foldl_cons, ih, set_add_mem, List.mem_cons, exists_eq_or_imp]
    tauto

theorem names_fold_nodup (names : List (List Char × Nat)) :
    ∀ (set : List (List Char)), set.Nodup →
      (names.foldl (fun set2 name_count => set_add set2 ('@' :: name_count.1)) set).Nodup := by
  induction names with
  | nil => intro set h; simpa using h
  | cons nc rest ih =>
    intro set h
    simp only [List.foldl_cons]
    exact ih _ (set_add_nodup _ _ h)

theorem aliases_fold_mem (aliases : Aliases) :
    ∀ (set : List (List Char)) (y : List Char),
      y ∈ aliases.foldl
          (fun set entry =>
            entry.2.foldl (fun set2 name_count => set_add set2 ('@' :: name_count.1)) set) set
        ↔ y ∈ set ∨ ∃ entry ∈ aliases, ∃ nc ∈ entry.2, y = '@' :: nc.1 := by
  induction aliases with
  | nil => intro set y; simp
  | cons e rest ih =>
    intro set y
    simp only [List.foldl_cons, ih, names_fold_mem]
    constructor
    · rintro ((h | ⟨nc, hnc, hy⟩) | ⟨entry, hentry, nc, hnc, hy⟩)
      · exact Or.inl h
      · exact Or.inr ⟨e, List.mem_cons_self _ _, nc, hnc, hy⟩
      · exact Or.inr ⟨entry, List.mem_cons_of_mem _ hentry, nc, hnc, hy⟩
    · rintro (h | ⟨entry, hentry, nc, hnc, hy⟩)
      · exact Or.inl (Or.inl h)
      · rcases List.mem_cons.1 hentry with rfl | hentry
        · exact Or.inl (Or.inr ⟨nc, hnc, hy⟩)
        · exact Or.inr ⟨entry, hentry, nc, hnc, hy⟩

theorem aliases_fold_nodup (aliases : Aliases) :
    ∀ (set : List (List Char)), set.Nodup →
      (aliases.foldl
          (fun set entry =>
            entry.2.foldl (fun set2 name_count => set_add set2 ('@' :: name_count.1)) set)
          set).Nodup := by
  induction aliases with
  | nil => intro set h; simpa using h
  | cons e rest ih =>
    intro set h
    simp only [List.foldl_cons]
    exact ih _ (names_fold_nodup _ _ h)

/-- The stop-words are the two placeholders and `@` + every registered name. -/
theorem mem_stop_words (aliases : Aliases) (y : List Char) :
    y ∈ stop_words aliases
      ↔ (y = ['[', '图', '片', ']'] ∨ y = ['[', '表', '情', ']'])
        ∨ ∃ entry ∈ aliases, ∃ nc ∈ entry.2, y = '@' :: nc.1 := by
  unfold stop_words
  rw [aliases_fold_mem]
  simp

theorem stop_words_nodup (aliases : Aliases) : (stop_words aliases).Nodup := by
  unfold stop_words
  apply aliases_fold_nodup
  decide

theorem is_english_toNat (c : Char) (h : is_english c = true) : c.toNat ≤ 122 := by
  unfold is_english at h
  simp only [Bool.or_eq_true, Bool.and_eq_true, decide_eq_true_eq] at h
  omega

theorem utf16_letter (c : Char) (h : is_english c = true) : utf16 c = [c.toNat] := by
  have := is_english_toNat c h
  unfold utf16
  rw [if_pos (by omega)]

theorem js_length_letters (m : List Char) (h : ∀ c ∈ m, is_english c = true) :
    js_length m = m.length := by
  induction m with
  | nil => rfl
  | cons c rest ih =>
    have e := ih (fun x hx => h x (List.mem_cons_of_mem _ hx))
    unfold js_length at e ⊢
    simp only [utf16_text, List.length_append, e, List.length_cons,
      utf16_letter c (h c (List.mem_cons_self _ _)), List.length_nil]
    omega

theorem js_length_mention (m : List Char) (h : ∀ c ∈ m, is_english c = true) :
    js_length ('@' :: m) = m.length + 1 := by
  have e := js_length_letters m h
  unfold js_length at e ⊢
  have h64 : utf16 '@' = [64] := by decide
  simp only [utf16_text, List.length_append, e, h64, List.length_cons, List.length_nil]
  omega

theorem replace_all_aux_skip (p r : List Char) (xs ys : List Char) :
    replace_all_aux p r xs.length (xs ++ ys) = replace_all_aux p r 0 ys := by
  induction xs with
  | nil => rfl
  | cons x rest ih => simpa [replace_all_aux] using ih

theorem absent_of_mem_not_mem (w text : List Char) (c : Char) (hw : c ∈ w)
    (ht : c ∉ text) : ¬ w <:+: text :=
  fun h => ht (h.subset hw)

theorem at_not_mem_letters (n : List Char) (hn : ∀ c ∈ n, is_english c = true)
    (sfx : List Char) (hs : '@' ∉ sfx) : '@' ∉ n ++ sfx := by
  intro h
  rcases List.mem_append.1 h with h | h
  · have := hn _ h
    revert this
    decide
  · exact hs h

/-- A mention of a different name that is at least as long does not occur in the text
`@` + n + ` hi`. -/
theorem longer_mention_absent (n m : List Char) (hn : ∀ c ∈ n, is_english c = true)
    (hm : ∀ c ∈ m, is_english c = true) (hlen : n.length ≤ m.length) (hne : m ≠ n) :
    ¬ ('@' :: m) <:+: ('@' :: n ++ [' ', 'h', 'i']) := by
  rintro ⟨a, b, hab⟩
  cases a with
  | nil =>
    simp only [List.nil_append, List.cons_append, List.cons.injEq, true_and] at hab
    have p1 : m <+: n ++ [' ', 'h', 'i'] := ⟨b, hab⟩
    have p2 : n <+: n ++ [' ', 'h', 'i'] := List.prefix_append _ _
    obtain ⟨t, ht⟩ := List.prefix_of_prefix_length_le p2 p1 hlen
    subst ht
    cases t with
    | nil => exact hne (by simp)
    | cons c t2 =>
      rw [List.append_assoc] at hab
      have hab2 := List.append_cancel_left hab
      simp only [List.cons_append, List.cons.injEq] at hab2
      have hc := hm c (by simp)
      rw [hab2.1] at hc
      revert hc
      decide
  | cons x a2 =>
    simp only [List.cons_append, List.cons.injEq] at hab
    have hmem : '@' ∈ n ++ [' ', 'h', 'i'] := by
      rw [← hab.2]
      simp
    exact at_not_mem_letters n hn _ (by decide) hmem

/-- Replacing the mention of `n` in `@` + n + ` hi` leaves two spaces and `hi`. -/
theorem replace_all_mention (n : List Char) :
    replace_all ('@' :: n) [' '] ('@' :: n ++ [' ', 'h', 'i']) = [' ', ' ', 'h', 'i'] := by
  have hpre : ('@' :: n).isPrefixOf ('@' :: (n ++ [' ', 'h', 'i'])) = true :=
    List.isPrefixOf_iff_prefix.2 (List.prefix_append ('@' :: n) [' ', 'h', 'i'])
  have hrest : replace_all_aux ('@' :: n) [' '] 0 [' ', 'h', 'i'] = [' ', 'h', 'i'] :=
    replace_all_aux_absent _ _ _
      (absent_of_mem_not_mem _ _ '@' (List.mem_cons_self _ _) (by decide))
  have h0 : replace_all_aux ('@' :: n) [' '] 0 ('@' :: (n ++ [' ', 'h', 'i']))
      = [' '] ++ replace_all_aux ('@' :: n) [' '] n.length (n ++ [' ', 'h', 'i']) := by
    rw [replace_all_aux, if_pos hpre]
    rfl
  simp only [replace_all, reduceCtorEq, if_false, List.cons_append]
  rw [h0, replace_all_aux_skip, hrest]
  rfl

/-- No stop-word occurs in the text of two spaces and `hi`. -/
theorem stop_word_absent_hi (aliases : Aliases) (w : List Char)
    (hw : w ∈ stop_words aliases) : ¬ w <:+: [' ', ' ', 'h', 'i'] := by
  rcases (mem_stop_words aliases w).1 hw with (rfl | rfl) | ⟨entry, _, nc, _, rfl⟩
  · decide
  · decide
  · exact absent_of_mem_not_mem _ _ '@' (List.mem_cons_self _ _) (by decide)

/-- C9: in a registry whose display names are made of ASCII letters, for every
registered name n the text `@` + n + ` hi` is tokenized to the single English token
`hi`: the mention is removed whole, also when a shorter registered name is its prefix. -/
theorem string_to_token_mention (aliases : Aliases)
    (hletters : ∀ entry ∈ aliases, ∀ nc ∈ entry.2, ∀ c ∈ nc.1, is_english c = true)
    (n : List Char) (hn : ∃ entry ∈ aliases, ∃ nc ∈ entry.2, nc.1 = n) :
    string_to_token ('@' :: n ++ [' ', 'h', 'i']) aliases
      = [Token.English (utf16_text ['h', 'i'])] := by
  obtain ⟨entry0, hentry0, nc0, hnc0, hn0⟩ := hn
  have hnl : ∀ c ∈ n, is_english c = true := hn0 ▸ hletters entry0 hentry0 nc0 hnc0
  have hperm := List.perm_insertionSort longer_first (stop_words aliases)
  have hsorted := List.sorted_insertionSort longer_first (stop_words aliases)
  have hnodup : ((stop_words aliases).insertionSort longer_first).Nodup :=
    hperm.nodup_iff.2 (stop_words_nodup aliases)
  have hw : ('@' :: n) ∈ (stop_words aliases).insertionSort longer_first :=
    hperm.mem_iff.2 ((mem_stop_words aliases _).2
      (Or.inr ⟨entry0, hentry0, nc0, hnc0, by rw [hn0]⟩))
  obtain ⟨l1, l2, hl⟩ := List.append_of_mem hw
  have hmem : ∀ x, x ∈ l1 ∨ x ∈ l2 → x ∈ stop_words aliases := by
    intro x hx
    apply hperm.mem_iff.1
    rw [hl]
    rcases hx with hx | hx
    · exact List.mem_append_left _ hx
    · exact List.mem_append_right _ (List.mem_cons_of_mem _ hx)
  rw [hl] at hsorted hnodup
  have hlong : ∀ x ∈ l1, longer_first x ('@' :: n) := fun x hx =>
    (List.pairwise_append.1 hsorted).2.2 x hx _ (List.mem_cons_self _ _)
  have hnot : ∀ x ∈ l1, x ≠ '@' :: n := by
    intro x hx hxe
    exact (List.nodup_append.1 hnodup).2.2 hx (hxe ▸ List.mem_cons_self _ _)
  have step1 : l1.foldl (fun t w => replace_all w [' '] t) ('@' :: n ++ [' ', 'h', 'i'])
      = '@' :: n ++ [' ', 'h', 'i'] := by
    apply foldl_replace_all_absent
    intro x hx
    rcases (mem_stop_words aliases x).1 (hmem x (Or.inl hx)) with
      (rfl | rfl) | ⟨entry, hentry, nc, hnc, rfl⟩
    · refine absent_of_mem_not_mem _ _ '[' (List.mem_cons_self _ _) ?_
      intro hx2
      rcases List.mem_cons.1 hx2 with h | h
      · revert h; decide
      · rcases List.mem_append.1 h with h | h
        · have := hnl _ h
          revert this; decide
        · revert h; decide
    · refine absent_of_mem_not_mem _ _ '[' (List.mem_cons_self _ _) ?_
      intro hx2
      rcases List.mem_cons.1 hx2 with h | h
      · revert h; decide
      · rcases List.mem_append.1 h with h | h
        · have := hnl _ h
          revert this; decide
        · revert h; decide
    · have hml := hletters entry hentry nc hnc
      have hlen := hlong _ hx
      unfold longer_first at hlen
      rw [js_length_mention n hnl, js_length_mention nc.1 hml] at hlen
      refine longer_mention_absent n nc.1 hnl hml (by omega) ?_
      intro he
      exact hnot _ hx (by rw [he])
  have step3 : l2.foldl (fun t w => replace_all w [' '] t) [' ', ' ', 'h', 'i']
      = [' ', ' ', 'h', 'i'] :=
    foldl_replace_all_absent _ _ _
      (fun x hx => stop_word_absent_hi aliases x (hmem x (Or.inr hx)))
  have hremove : remove_stop_words ('@' :: n ++ [' ', 'h', 'i']) aliases
      = [' ', ' ', 'h', 'i'] := by
    unfold remove_stop_words
    rw [hl, List.foldl_append, List.foldl_cons, step1, replace_all_mention, step3]
  unfold string_to_token
  rw [hremove]
  decide

/-- Witness for C9: with the registry of the names Ann and AnnMarie, the text
`@AnnMarie hi` is tokenized to the single token `hi`. -/
theorem string_to_token_mention_witness :
    string_to_token "@AnnMarie hi".toList
        [("id1".toList, [("Ann".toList, 1)]), ("id2".toList, [("AnnMarie".toList, 1)])]
      = [Token.English (utf16_text "hi".toList)] :=
  string_to_token_mention
    [("id1".toList, [("Ann".toList, 1)]), ("id2".toList, [("AnnMarie".toList, 1)])]
    (by decide) "AnnMarie".toList (by decide)

/-! ## Theorems: header parser -/

theorem timestamp_re_of_is_timestamp (ts : List Char) (h : is_timestamp ts = true)
    (rest : List Char) : timestamp_re (ts ++ rest) = [(ts, rest)] := by
  have hcolon : is_digit ':' = false := by decide
  unfold is_timestamp at h
  split at h
  · simp only [List.all_cons, List.all_nil, Bool.and_true, Bool.and_eq_true, decide_eq_true_eq,
      List.cons.injEq, and_true] at h
    obtain ⟨⟨h1, h2, h3, h4, h5, h6, h7, h8, h9, h10, h11, h12, h13⟩, rfl, rfl, rfl, rfl, rfl⟩ := h
    simp [timestamp_re, seq, exactly, lit, digits_1_2, h1, h2, h3, h4, h5, h6, h7, h8, h9, h10,
      h11, h12, h13, hcolon]
  · simp only [List.all_cons, List.all_nil, Bool.and_true, Bool.and_eq_true, decide_eq_true_eq,
      List.cons.injEq, and_true] at h
    obtain ⟨⟨h1, h2, h3, h4, h5, h6, h7, h8, h9, h10, h11, h12, h13, h14⟩,
      rfl, rfl, rfl, rfl, rfl⟩ := h
    simp [timestamp_re, seq, exactly, lit, digits_1_2, h1, h2, h3, h4, h5, h6, h7, h8, h9, h10,
      h11, h12, h13, h14, hcolon]
  · cases h

/-- Every candidate of `star` splits the text, and its matched part is in the class. -/
theorem mem_star (p : Char → Bool) (s : List Char) :
    ∀ x : List Char × List Char, x ∈ star p s ↔ (x.1 ++ x.2 = s ∧ ∀ c ∈ x.1, p c = true) := by
  induction s with
  | nil =>
    intro x
    obtain ⟨a, b⟩ := x
    simp only [star, List.mem_singleton, Prod.mk.injEq, List.append_eq_nil]
    constructor
    · rintro ⟨rfl, rfl⟩
      simp
    · rintro ⟨⟨rfl, rfl⟩, _⟩
      simp
  | cons c rest ih =>
    intro x
    obtain ⟨a, b⟩ := x
    by_cases hc : p c = true
    · simp only [star, hc, if_true, List.mem_append, List.mem_map, List.mem_singleton,
        Prod.mk.injEq]
      constructor
      · rintro (⟨y, hy, rfl, rfl⟩ | ⟨rfl, rfl⟩)
        · obtain ⟨e1, e2⟩ := (ih y).1 hy
          refine ⟨by simp [e1], ?_⟩
          intro d hd
          rcases List.mem_cons.1 hd with rfl | hd
          · exact hc
          · exact e2 d hd
        · simp
      · rintro ⟨e1, e2⟩
        cases a with
        | nil => right; simpa using e1
        | cons a0 a2 =>
          left
          simp only [List.cons_append, List.cons.injEq] at e1
          refine ⟨(a2, b), (ih (a2, b)).2 ⟨e1.2, fun d hd => e2 d (List.mem_cons_of_mem _ hd)⟩,
            ?_, rfl⟩
          simp [e1.1]
    · simp only [star, hc, if_false, List.mem_singleton, Prod.mk.injEq, Bool.false_eq_true]
      constructor
      · rintro ⟨rfl, rfl⟩
        simp
      · rintro ⟨e1, e2⟩
        cases a with
        | nil => simpa using e1
        | cons a0 a2 =>
          simp only [List.cons_append, List.cons.injEq] at e1
          have := e2 a0 (List.mem_cons_self _ _)
          rw [e1.1] at this
          exact absurd this hc

/-- The candidates of `star` on a text that starts with `n`, all in the class: first
the candidates that take more than `n`, then `n` itself, then shorter ones. -/
theorem star_append (p : Char → Bool) (n r : List Char) (hn : ∀ c ∈ n, p c = true) :
    ∃ before after : List (List Char × List Char),
      star p (n ++ r) = before ++ (n, r) :: after
        ∧ ∀ x ∈ before, ∃ a r2, a ≠ [] ∧ a ++ r2 = r ∧ x = (n ++ a, r2) := by
  induction n with
  | nil =>
    cases r with
    | nil => exact ⟨[], [], by simp [star], by simp⟩
    | cons c rest =>
      by_cases hc : p c = true
      · refine ⟨(star p rest).map (fun x => (c :: x.1, x.2)), [], by simp [star, hc], ?_⟩
        intro x hx
        obtain ⟨y, hy, rfl⟩ := List.mem_map.1 hx
        exact ⟨c :: y.1, y.2, by simp, by simp [((mem_star p rest y).1 hy).1], by simp⟩
      · exact ⟨[], [], by simp [star, hc], by simp⟩
  | cons c n2 ih =>
    obtain ⟨before, after, e, hb⟩ := ih (fun d hd => hn d (List.mem_cons_of_mem _ hd))
    have hc := hn c (List.mem_cons_self _ _)
    refine ⟨before.map (fun x => (c :: x.1, x.2)),
      after.map (fun x => (c :: x.1, x.2)) ++ [([], c :: (n2 ++ r))], ?_, ?_⟩
    · simp [star, hc, e]
    · intro x hx
      obtain ⟨y, hy, rfl⟩ := List.mem_map.1 hx
      obtain ⟨a, r2, ha, har, rfl⟩ := hb y hy
      exact ⟨a, r2, ha, har, by simp⟩

/-- The first candidate of `plus` on a non-empty run of the class that ends at a
character outside the class is the whole run. -/
theorem plus_run (p : Char → Bool) (d : List Char) (c0 : Char) (r : List Char)
    (hd : ∀ c ∈ d, p c = true) (hne : d ≠ []) (hc0 : p c0 = false) :
    ∃ after, plus p (d ++ c0 :: r) = (d, c0 :: r) :: after := by
  have key : ∀ d : List Char, (∀ c ∈ d, p c = true) →
      ∃ after, star p (d ++ c0 :: r) = (d, c0 :: r) :: after := by
    intro d
    induction d with
    | nil => intro _; exact ⟨[], by simp [star, hc0]⟩
    | cons c d2 ih =>
      intro h
      obtain ⟨after, e⟩ := ih (fun x hx => h x (List.mem_cons_of_mem _ hx))
      exact ⟨after.map (fun x => (c :: x.1, x.2)) ++ [([], c :: (d2 ++ c0 :: r))],
        by simp [star, h c (List.mem_cons_self _ _), e]⟩
  obtain ⟨after, e⟩ := key d hd
  exact ⟨after.filter (fun x => decide (x.1 ≠ [])), by simp [plus, e, hne]⟩

theorem qq_branch_nil_of_head (time name s : List Char) (h : ∀ rest, s ≠ '(' :: rest) :
    qq_branch time name s = [] := by
  cases s with
  | nil => rfl
  | cons c rest =>
    have hc : c ≠ '(' := fun e => h rest (by rw [e])
    simp [qq_branch, lit, hc]

theorem email_branch_nil_of_head (time name s : List Char) (h : ∀ rest, s ≠ '<' :: rest) :
    email_branch time name s = [] := by
  cases s with
  | nil => rfl
  | cons c rest =>
    have hc : c ≠ '<' := fun e => h rest (by rw [e])
    simp [email_branch, lit, hc]

/-- A text matched by the first branch ends with a closing parenthesis. -/
theorem qq_branch_last (time name s : List Char) (h : qq_branch time name s ≠ []) :
    ∃ q, s = '(' :: q ++ [')'] := by
  obtain ⟨m, hm⟩ := List.exists_mem_of_ne_nil _ h
  unfold qq_branch at hm
  simp only [List.mem_flatMap] at hm
  obtain ⟨o, ho, q, hq, c, hc, hm⟩ := hm
  cases s with
  | nil => simp [lit] at ho
  | cons s0 s1 =>
    by_cases hs0 : s0 = '('
    · subst hs0
      simp only [lit, if_true, List.mem_singleton] at ho
      subst ho
      have hq2 := ((mem_star is_digit s1 q).1 (List.mem_filter.1 hq).1).1
      cases hq3 : q.2 with
      | nil => rw [hq3] at hc; simp [lit] at hc
      | cons t0 t1 =>
        rw [hq3] at hc
        by_cases ht0 : t0 = ')'
        · subst ht0
          simp only [lit, if_true, List.mem_singleton] at hc
          subst hc
          by_cases ht1 : t1 = []
          · subst ht1
            exact ⟨q.1, by rw [← hq2, hq3]; rfl⟩
          · simp [ht1] at hm
        · simp [lit, ht0] at hc
    · simp [lit, hs0] at ho

theorem head?_flatMap_skip {α β : Type} (f : α → List β) (l1 : List α) (a : α)
    (l2 : List α) (x : β) (rest : List β) (h1 : ∀ b ∈ l1, f b = []) (h2 : f a = x :: rest) :
    ((l1 ++ a :: l2).flatMap f).head? = some x := by
  induction l1 with
  | nil => simp [h2]
  | cons b l ih =>
    have hb := h1 b (List.mem_cons_self _ _)
    simp only [List.cons_append, List.flatMap_cons, hb, List.nil_append]
    exact ih (fun y hy => h1 y (List.mem_cons_of_mem _ hy))

/-- The first match of `header_format` on a text `ts name tail`, when no longer name
has a match and `tail` has one. -/
theorem header_matches_head (ts n tail : List Char) (hts : is_timestamp ts = true)
    (hn : ∀ c ∈ n, is_dot c = true) (x : HeaderMatch) (rest : List HeaderMatch)
    (hlong : ∀ a r2, a ≠ [] → a ++ r2 = tail →
      qq_branch ts (n ++ a) r2 ++ email_branch ts (n ++ a) r2 = [])
    (hhere : qq_branch ts n tail ++ email_branch ts n tail = x :: rest) :
    (header_matches (ts ++ ' ' :: (n ++ tail))).head? = some x := by
  obtain ⟨before, after, e, hb⟩ := star_append is_dot n tail hn
  unfold header_matches
  rw [timestamp_re_of_is_timestamp ts hts]
  simp only [List.flatMap_cons, List.flatMap_nil, List.append_nil, lit, if_true]
  rw [e]
  apply head?_flatMap_skip _ before (n, tail) after x rest
  · intro b hbm
    obtain ⟨a, r2, ha, har, rfl⟩ := hb b hbm
    exact hlong a r2 ha har
  · exact hhere

/-- C10: formatting then parsing a header is the identity. For a timestamp `ts` of the
shape YYYY-MM-DD H:MM:SS (hour of 1 or 2 digits) and a name `n` without line terminator:
the line `ts n(d)` with `d` a non-empty digit string parses to time `ts`, name `n`,
id `d`, and the line `ts n<e>` with `e` non-empty and free of `<` and `>` parses to time
`ts`, name `n`, id `e`. -/
theorem parse_header_format (ts n : List Char) (hts : is_timestamp ts = true)
    (hn : ∀ c ∈ n, is_dot c = true) :
    (∀ d : List Char, d ≠ [] → (∀ c ∈ d, is_digit c = true) →
      parse_header (ts ++ ' ' :: (n ++ '(' :: (d ++ [')'])))
        = some { time := ts, name := n, id := some d })
    ∧ (∀ e : List Char, e ≠ [] → (∀ c ∈ e, c ≠ '<' ∧ c ≠ '>') →
      parse_header (ts ++ ' ' :: (n ++ '<' :: (e ++ ['>'])))
        = some { time := ts, name := n, id := some e }) := by
  constructor
  · intro d hd hdig
    obtain ⟨after, hplus⟩ := plus_run is_digit d ')' [] hdig hd (by decide)
    have hhere : qq_branch ts n ('(' :: (d ++ [')'])) ++ email_branch ts n ('(' :: (d ++ [')']))
        = { time := ts, name := n, qq := some d, email := none }
          :: ((after.flatMap fun q => (lit ')' q.2).flatMap fun c =>
              if c.2 = [] then
                [({ time := ts, name := n, qq := some q.1, email := none } : HeaderMatch)]
              else [])
            ++ email_branch ts n ('(' :: (d ++ [')']))) := by
      simp [qq_branch, lit, hplus]
    have hlong : ∀ a r2, a ≠ [] → a ++ r2 = '(' :: (d ++ [')']) →
        qq_branch ts (n ++ a) r2 ++ email_branch ts (n ++ a) r2 = [] := by
      intro a r2 ha har
      have hmem : ∀ c ∈ r2, c ∈ d ++ [')'] := by
        intro c hc
        cases a with
        | nil => exact absurd rfl ha
        | cons a0 a2 =>
          simp only [List.cons_append, List.cons.injEq] at har
          rw [← har.2]
          exact List.mem_append_right _ hc
      have hno : ∀ c ∈ r2, c ≠ '(' ∧ c ≠ '<' := by
        intro c hc
        rcases List.mem_append.1 (hmem c hc) with h | h
        · have := hdig c h
          constructor <;> (rintro rfl; revert this; decide)
        · simp only [List.mem_singleton] at h
          subst h
          decide
      rw [qq_branch_nil_of_head _ _ _
          (fun rest e => (hno '(' (by rw [e]; exact List.mem_cons_self _ _)).1 rfl),
        email_branch_nil_of_head _ _ _
          (fun rest e => (hno '<' (by rw [e]; exact List.mem_cons_self _ _)).2 rfl)]
      rfl
    have := header_matches_head ts n _ hts hn _ _ hlong hhere
    simp [parse_header, this, js_or, hd]
  · intro e he hang
    have hang2 : ∀ c ∈ e, is_not_angle c = true := by
      intro c hc
      simp [is_not_angle, (hang c hc).1, (hang c hc).2]
    obtain ⟨after, hplus⟩ := plus_run is_not_angle e '>' [] hang2 he (by decide)
    have hhere : qq_branch ts n ('<' :: (e ++ ['>'])) ++ email_branch ts n ('<' :: (e ++ ['>']))
        = { time := ts, name := n, qq := none, email := some e }
          :: (after.flatMap fun q => (lit '>' q.2).flatMap fun c =>
              if c.2 = [] then
                [({ time := ts, name := n, qq := none, email := some q.1 } : HeaderMatch)]
              else []) := by
      simp [qq_branch, email_branch, lit, hplus]
    have hlong : ∀ a r2, a ≠ [] → a ++ r2 = '<' :: (e ++ ['>']) →
        qq_branch ts (n ++ a) r2 ++ email_branch ts (n ++ a) r2 = [] := by
      intro a r2 ha har
      obtain ⟨a0, a2, rfl⟩ := List.exists_cons_of_ne_nil ha
      simp only [List.cons_append, List.cons.injEq] at har
      have har2 := har.2
      have h1 : email_branch ts (n ++ a0 :: a2) r2 = [] := by
        apply email_branch_nil_of_head
        intro rest hr
        have hmem : '<' ∈ e ++ ['>'] := by
          rw [← har2, hr]
          exact List.mem_append_right _ (List.mem_cons_self _ _)
        rcases List.mem_append.1 hmem with h | h
        · exact (hang _ h).1 rfl
        · revert h; decide
      have h2 : qq_branch ts (n ++ a0 :: a2) r2 = [] := by
        by_contra hne
        obtain ⟨q, hq⟩ := qq_branch_last _ _ _ hne
        have hlast : (a2 ++ r2).getLast? = (e ++ ['>']).getLast? := by rw [har2]
        rw [hq] at hlast
        have e1 : (a2 ++ ('(' :: q ++ [')'])).getLast? = some ')' := by
          have e2 : a2 ++ ('(' :: q ++ [')']) = (a2 ++ '(' :: q) ++ [')'] := by simp
          rw [e2, List.getLast?_append]
          simp
        rw [e1] at hlast
        simp at hlast
      rw [h1, h2]
      rfl
    have := header_matches_head ts n _ hts hn _ _ hlong hhere
    simp [parse_header, this, js_or, he]

/-- Witness for C10: the header line of Bob with id 123456 at 2023-05-01 9:03:21, and
the same header with an address between angle brackets. -/
theorem parse_header_format_witness :
    parse_header "2023-05-01 9:03:21 Bob(123456)".toList
        = some { time := "2023-05-01 9:03:21".toList, name := "Bob".toList,
                 id := some "123456".toList }
      ∧ parse_header "2023-05-01 9:03:21 Bob<bob@example.com>".toList
        = some { time := "2023-05-01 9:03:21".toList, name := "Bob".toList,
                 id := some "bob@example.com".toList } :=
  ⟨(parse_header_format "2023-05-01 9:03:21".toList "Bob".toList (by decide) (by decide)).1
      "123456".toList (by decide) (by decide),
    (parse_header_format "2023-05-01 9:03:21".toList "Bob".toList (by decide) (by decide)).2
      "bob@example.com".toList (by decide) (by decide)⟩

/-! ## Theorems: TF-IDF -/

theorem table_get_set_same {κ ν : Type} [DecidableEq κ] (k : κ) (v : ν) (t : List (κ × ν)) :
    table_get k (table_set k v t) = some v := by
  induction t with
  | nil => simp [table_set, table_get]
  | cons x rest ih =>
    obtain ⟨k2, v2⟩ := x
    by_cases h : k2 = k <;> simp [table_set, table_get, h, ih]

theorem table_get_set_other {κ ν : Type} [DecidableEq κ] (k k2 : κ) (v : ν) (t : List (κ × ν))
    (h : k2 ≠ k) : table_get k2 (table_set k v t) = table_get k2 t := by
  induction t with
  | nil => simp [table_set, table_get, Ne.symm h]
  | cons x rest ih =>
    obtain ⟨k3, v3⟩ := x
    by_cases h3 : k3 = k
    · subst h3
      simp [table_set, table_get, Ne.symm h]
    · by_cases h4 : k3 = k2
      · subst h4
        simp [table_set, table_get, h3]
      · simp [table_set, table_get, h3, h4, ih]

theorem table_keys_set {κ ν : Type} [DecidableEq κ] (k : κ) (v : ν) (t : List (κ × ν)) :
    table_keys (table_set k v t) = set_add (table_keys t) k := by
  induction t with
  | nil => simp [table_set, table_keys, set_add]
  | cons x rest ih =>
    obtain ⟨k2, v2⟩ := x
    unfold table_keys set_add at ih ⊢
    by_cases h : k2 = k
    · subst h
      simp [table_set]
    · have h2 : k ≠ k2 := Ne.symm h
      simp only [table_set, h, if_false, List.map_cons, ih, List.mem_cons, h2, false_or]
      split_ifs <;> simp

theorem mem_table_keys {κ ν : Type} [DecidableEq κ] (k : κ) (t : List (κ × ν)) :
    k ∈ table_keys t ↔ ∃ v, table_get k t = some v := by
  induction t with
  | nil => simp [table_keys, table_get]
  | cons x rest ih =>
    obtain ⟨k2, v2⟩ := x
    unfold table_keys at ih ⊢
    by_cases h : k2 = k
    · subst h
      simp [table_get]
    · have h2 : k ≠ k2 := Ne.symm h
      simp [table_get, h, h2, ih]

theorem table_values_sum_increment (k : List Nat) (t : List (List Nat × Nat)) :
    (table_values (table_set k ((table_get k t).getD 0 + 1) t)).sum
      = (table_values t).sum + 1 := by
  induction t with
  | nil => simp [table_set, table_values, table_get]
  | cons x rest ih =>
    obtain ⟨k2, v2⟩ := x
    unfold table_values at ih ⊢
    by_cases h : k2 = k
    · simp [table_set, table_get, h]
      omega
    · simp [table_set, table_get, h, ih]
      omega

theorem foldl_set_add_mem {α : Type} [DecidableEq α] (l : List α) :
    ∀ (init : List α) (x : α), x ∈ l.foldl set_add init ↔ x ∈ init ∨ x ∈ l := by
  induction l with
  | nil => intro init x; simp
  | cons a rest ih =>
    intro init x
    simp only [List.foldl_cons, ih, set_add_mem, List.mem_cons]
    tauto

theorem foldl_set_add_nodup {α : Type} [DecidableEq α] (l : List α) :
    ∀ init : List α, init.Nodup → (l.foldl set_add init).Nodup := by
  induction l with
  | nil => intro init h; simpa using h
  | cons a rest ih =>
    intro init h
    simp only [List.foldl_cons]
    exact ih _ (set_add_nodup _ _ h)

/-- A set filled from a list has as many elements as the list has distinct elements. -/
theorem foldl_set_add_length {α : Type} [DecidableEq α] (l : List α) :
    (l.foldl set_add []).length = l.dedup.length := by
  apply List.Perm.length_eq
  rw [List.perm_ext_iff_of_nodup (foldl_set_add_nodup l [] List.nodup_nil) (List.nodup_dedup l)]
  intro x
  simp [foldl_set_add_mem]

theorem message_words_mem (tokens : List Token) (w : List Nat) :
    w ∈ message_words tokens ↔ w ∈ tokens.map Token.value := by
  unfold message_words
  rw [foldl_set_add_mem]
  simp

theorem message_words_nodup (tokens : List Token) : (message_words tokens).Nodup :=
  foldl_set_add_nodup _ [] List.nodup_nil

/-- Number of times `w` stands in a list of words. -/
theorem filter_eq_length_nodup (l : List (List Nat)) (hl : l.Nodup) (w : List Nat) :
    (l.filter (fun x => decide (x = w))).length = if w ∈ l then 1 else 0 := by
  induction l with
  | nil => simp
  | cons a rest ih =>
    have hn := List.nodup_cons.1 hl
    have ih2 := ih hn.2
    by_cases h : a = w
    · subst h
      have : a ∉ rest := hn.1
      simp only [this, if_false] at ih2
      simp [List.filter_cons, ih2]
    · have h2 : ¬ w = a := fun e => h e.symm
      simp [List.filter_cons, h, h2, ih2]

theorem message_words_count (tokens : List Token) (w : List Nat) :
    ((message_words tokens).filter (fun x => decide (x = w))).length
      = if w ∈ tokens.map Token.value then 1 else 0 := by
  rw [filter_eq_length_nodup _ (message_words_nodup tokens)]
  simp only [message_words_mem]

theorem message_words_length (tokens : List Token) :
    (message_words tokens).length = (tokens.map Token.value).dedup.length :=
  foldl_set_add_length _

/-! ### The first loop: the tables `tf` and `df` -/

theorem count_word_keys (id : List Char) (st : TfTable × DfTable) (w : List Nat)
    (h : id ∈ table_keys st.1) : table_keys (count_word id st w).1 = table_keys st.1 := by
  simp [count_word, table_keys_set, set_add, h]

theorem count_word_counts_other (id id2 : List Char) (st : TfTable × DfTable) (w : List Nat)
    (h : id2 ≠ id) : tf_counts (count_word id st w).1 id2 = tf_counts st.1 id2 := by
  simp [count_word, tf_counts, table_get_set_other _ _ _ _ h]

theorem count_word_counts_same (id : List Char) (st : TfTable × DfTable) (w : List Nat) :
    tf_counts (count_word id st w).1 id
      = table_set w (tf_count st.1 id w + 1) (tf_counts st.1 id) := by
  simp [count_word, tf_counts, table_get_set_same]

theorem count_word_df (id : List Char) (st : TfTable × DfTable) (w w2 : List Nat) :
    df_set (count_word id st w).2 w2
      = if w2 = w then set_add (df_set st.2 w) id else df_set st.2 w2 := by
  by_cases h : w2 = w
  · subst h
    simp [count_word, df_set, table_get_set_same]
  · simp [count_word, df_set, table_get_set_other _ _ _ _ h, h]

theorem set_add_idem {α : Type} [DecidableEq α] (set : List α) (x : α) :
    set_add (set_add set x) x = set_add set x := by
  have h : x ∈ set_add set x := (set_add_mem set x x).2 (Or.inr rfl)
  generalize set_add set x = s at h
  simp [set_add, h]

/-- The tables after the words of one message. -/
theorem count_words_fold (id : List Char) (words : List (List Nat)) :
    ∀ st : TfTable × DfTable, id ∈ table_keys st.1 →
      table_keys (words.foldl (count_word id) st).1 = table_keys st.1
      ∧ (∀ id2, id2 ≠ id → tf_counts (words.foldl (count_word id) st).1 id2 = tf_counts st.1 id2)
      ∧ (∀ w, tf_count (words.foldl (count_word id) st).1 id w
          = tf_count st.1 id w + (words.filter (fun x => decide (x = w))).length)
      ∧ ((table_values (tf_counts (words.foldl (count_word id) st).1 id)).sum
          = (table_values (tf_counts st.1 id)).sum + words.length)
      ∧ (∀ w, w ∈ table_keys (tf_counts (words.foldl (count_word id) st).1 id)
          ↔ w ∈ table_keys (tf_counts st.1 id) ∨ w ∈ words)
      ∧ (∀ w, df_set (words.foldl (count_word id) st).2 w
          = if w ∈ words then set_add (df_set st.2 w) id else df_set st.2 w) := by
  induction words with
  | nil => intro st _; simp
  | cons a rest ih =>
    intro st hst
    have hk := count_word_keys id st a hst
    obtain ⟨i1, i2, i3, i4, i5, i6⟩ := ih (count_word id st a) (by rw [hk]; exact hst)
    simp only [List.foldl_cons]
    refine ⟨by rw [i1, hk], ?_, ?_, ?_, ?_, ?_⟩
    · intro id2 h2
      rw [i2 id2 h2, count_word_counts_other id id2 st a h2]
    · intro w
      rw [i3 w]
      unfold tf_count
      rw [count_word_counts_same]
      by_cases h : a = w
      · subst h
        simp [table_get_set_same, List.filter_cons, tf_count]
        omega
      · have h2 : w ≠ a := fun e => h e.symm
        simp [table_get_set_other _ _ _ _ h2, List.filter_cons, h]
    · rw [i4, count_word_counts_same]
      unfold tf_count
      rw [table_values_sum_increment]
      simp only [List.length_cons]
      omega
    · intro w
      rw [i5 w, count_word_counts_same, table_keys_set, set_add_mem, List.mem_cons]
      tauto
    · intro w
      rw [i6 w, count_word_df]
      by_cases h1 : w ∈ rest
      · by_cases h2 : w = a
        · subst h2
          simp [h1, set_add_idem]
        · simp [h1, h2]
      · by_cases h2 : w = a
        · subst h2
          simp [h1]
        · simp [h1, h2]

/-- The tables after one message. -/
theorem count_message_spec (st : TfTable × DfTable) (m : Message) :
    table_keys (count_message st m).1 = set_add (table_keys st.1) m.id
    ∧ (∀ id w, tf_count (count_message st m).1 id w
        = tf_count st.1 id w
          + (if m.id = id ∧ w ∈ m.tokens.map Token.value then 1 else 0))
    ∧ (∀ id, (table_values (tf_counts (count_message st m).1 id)).sum
        = (table_values (tf_counts st.1 id)).sum
          + (if m.id = id then (m.tokens.map Token.value).dedup.length else 0))
    ∧ (∀ id w, w ∈ table_keys (tf_counts (count_message st m).1 id)
        ↔ w ∈ table_keys (tf_counts st.1 id) ∨ (m.id = id ∧ w ∈ m.tokens.map Token.value))
    ∧ (∀ w, df_set (count_message st m).2 w
        = if w ∈ m.tokens.map Token.value then set_add (df_set st.2 w) m.id
          else df_set st.2 w) := by
  have hmem : m.id ∈ table_keys (table_set m.id (tf_counts st.1 m.id) st.1) := by
    rw [table_keys_set, set_add_mem]
    exact Or.inr rfl
  have hsame : ∀ id, tf_counts (table_set m.id (tf_counts st.1 m.id) st.1) id
      = tf_counts st.1 id := by
    intro id
    by_cases h : id = m.id
    · subst h
      simp [tf_counts, table_get_set_same]
    · simp [tf_counts, table_get_set_other _ _ _ _ h]
  obtain ⟨f1, f2, f3, f4, f5, f6⟩ := count_words_fold m.id (message_words m.tokens)
    (table_set m.id (tf_counts st.1 m.id) st.1, st.2) hmem
  unfold count_message
  refine ⟨by rw [f1, table_keys_set], ?_, ?_, ?_, ?_⟩
  · intro id w
    by_cases h : m.id = id
    · subst h
      rw [f3 w, message_words_count]
      simp [tf_count, hsame]
    · have h2 : id ≠ m.id := fun e => h e.symm
      unfold tf_count
      rw [f2 id h2]
      simp [hsame, h]
  · intro id
    by_cases h : m.id = id
    · subst h
      rw [f4, message_words_length]
      simp [hsame]
    · have h2 : id ≠ m.id := fun e => h e.symm
      rw [f2 id h2]
      simp [hsame, h]
  · intro id w
    by_cases h : m.id = id
    · subst h
      rw [f5 w, message_words_mem]
      simp [hsame]
    · have h2 : id ≠ m.id := fun e => h e.symm
      rw [f2 id h2]
      simp [hsame, h]
  · intro w
    rw [f6 w]
    simp only [message_words_mem]

/-- The tables after the first loop, from any starting tables. -/
theorem count_messages_fold (ms : List Message) :
    ∀ st : TfTable × DfTable,
      table_keys (ms.foldl count_message st).1
        = (ms.map Message.id).foldl set_add (table_keys st.1)
      ∧ (∀ id w, tf_count (ms.foldl count_message st).1 id w
          = tf_count st.1 id w + message_count id w ms)
      ∧ (∀ id, (table_values (tf_counts (ms.foldl count_message st).1 id)).sum
          = (table_values (tf_counts st.1 id)).sum + distinct_word_total id ms)
      ∧ (∀ id w, w ∈ table_keys (tf_counts (ms.foldl count_message st).1 id)
          ↔ w ∈ table_keys (tf_counts st.1 id)
            ∨ ∃ m ∈ ms, m.id = id ∧ w ∈ m.tokens.map Token.value)
      ∧ (∀ w, df_set (ms.foldl count_message st).2 w
          = ((ms.filter (uses w)).map Message.id).foldl set_add (df_set st.2 w)) := by
  induction ms with
  | nil =>
    intro st
    simp [message_count, distinct_word_total, messages_of]
  | cons m rest ih =>
    intro st
    obtain ⟨i1, i2, i3, i4, i5⟩ := ih (count_message st m)
    obtain ⟨c1, c2, c3, c4, c5⟩ := count_message_spec st m
    simp only [List.foldl_cons, List.map_cons]
    refine ⟨by rw [i1, c1], ?_, ?_, ?_, ?_⟩
    · intro id w
      rw [i2, c2]
      by_cases h : m.id = id
      · by_cases h2 : w ∈ m.tokens.map Token.value
        · simp [message_count, messages_of, List.filter_cons, h, h2, uses]
          omega
        · simp [message_count, messages_of, List.filter_cons, h, h2, uses]
      · simp [message_count, messages_of, List.filter_cons, h]
    · intro id
      rw [i3, c3]
      by_cases h : m.id = id
      · simp [distinct_word_total, messages_of, List.filter_cons, h]
        omega
      · simp [distinct_word_total, messages_of, List.filter_cons, h]
    · intro id w
      rw [i4, c4]
      simp only [List.mem_cons, exists_eq_or_imp]
      tauto
    · intro w
      rw [i5, c5]
      by_cases h2 : w ∈ m.tokens.map Token.value
      · have hu : uses w m = true := by simp [uses, h2]
        simp only [List.filter_cons, hu, if_true, List.map_cons, List.foldl_cons]
        rw [if_pos h2]
      · have hu : uses w m = false := by simp [uses, h2]
        simp only [List.filter_cons, hu]
        rw [if_neg h2]
        rfl

/-- The tables `tf` and `df` after the first loop of `calc_tfidf`, in the words of the
specification. -/
theorem count_messages_spec (ms : List Message) :
    (table_keys (count_messages ms).1).length = (identities ms).length
    ∧ (∀ id, id ∈ table_keys (count_messages ms).1 ↔ id ∈ identities ms)
    ∧ (∀ id w, tf_count (count_messages ms).1 id w = message_count id w ms)
    ∧ (∀ id, (table_values (tf_counts (count_messages ms).1 id)).sum
        = distinct_word_total id ms)
    ∧ (∀ id w, w ∈ table_keys (tf_counts (count_messages ms).1 id)
        ↔ ∃ m ∈ ms, m.id = id ∧ w ∈ m.tokens.map Token.value)
    ∧ (∀ w, (df_set (count_messages ms).2 w).length = (speakers w ms).length)
    ∧ (∀ w id, id ∈ df_set (count_messages ms).2 w ↔ id ∈ speakers w ms) := by
  obtain ⟨a1, a2, a3, a4, a5⟩ := count_messages_fold ms ([], [])
  unfold count_messages
  refine ⟨?_, ?_, ?_, ?_, ?_, ?_, ?_⟩
  · rw [a1]
    exact foldl_set_add_length _
  · intro id
    rw [a1, foldl_set_add_mem]
    simp [identities, table_keys]
  · intro id w
    rw [a2]
    simp [tf_count, tf_counts, table_get]
  · intro id
    rw [a3]
    simp [tf_counts, table_get, table_values]
  · intro id w
    rw [a4]
    simp [tf_counts, table_get, table_keys]
  · intro w
    rw [a5]
    exact foldl_set_add_length _
  · intro w id
    rw [a5, foldl_set_add_mem]
    simp [speakers, identities, df_set, table_get]

/-! ### The second loop: the table `tfidf` -/

theorem score_at_eq {R : Type} (t : List (List Char × List (List Nat × R))) (id : List Char)
    (w : List Nat) : score_at t id w = table_get w ((table_get id t).getD []) := by
  unfold score_at
  cases h : table_get id t <;> simp [table_get]

theorem score_at_score_word {R : Type} [Field R] (log : R → R) (tf : TfTable) (df : DfTable)
    (id : List Char) (t : List (List Char × List (List Nat × R))) (w : List Nat)
    (id2 : List Char) (w2 : List Nat) :
    score_at (score_word log tf df id t w) id2 w2
      = if id2 = id ∧ w2 = w ∧ (df_set df w).length > 1 then some (score log tf df id w)
        else score_at t id2 w2 := by
  unfold score_word
  by_cases hc : (df_set df w).length > 1
  · simp only [hc, if_true, and_true]
    by_cases h1 : id2 = id
    · subst h1
      by_cases h2 : w2 = w
      · subst h2
        simp [score_at, table_get_set_same]
      · simp only [h2, and_false, if_false]
        rw [score_at_eq, score_at_eq, table_get_set_same]
        simp [table_get_set_other _ _ _ _ h2]
    · simp only [h1, false_and, if_false]
      simp [score_at, table_get_set_other _ _ _ _ h1]
  · simp [hc]

theorem score_at_fold_words {R : Type} [Field R] (log : R → R) (tf : TfTable) (df : DfTable)
    (id : List Char) (words : List (List Nat)) (id2 : List Char) (w2 : List Nat) :
    ∀ t : List (List Char × List (List Nat × R)),
      score_at (words.foldl (score_word log tf df id) t) id2 w2
        = if id2 = id ∧ w2 ∈ words ∧ (df_set df w2).length > 1 then
            some (score log tf df id w2)
          else score_at t id2 w2 := by
  induction words with
  | nil => intro t; simp
  | cons a rest ih =>
    intro t
    simp only [List.foldl_cons, ih, score_at_score_word, List.mem_cons]
    by_cases h1 : id2 = id
    · by_cases h4 : w2 = a
      · subst h4
        by_cases h3 : (df_set df w2).length > 1 <;> simp [h1, h3]
      · simp [h1, h4]
    · simp [h1]

theorem score_at_score_id {R : Type} [Field R] (log : R → R) (tf : TfTable) (df : DfTable)
    (t : List (List Char × List (List Nat × R))) (id id2 : List Char) (w2 : List Nat) :
    score_at (score_id log tf df t id) id2 w2
      = if id2 = id ∧ w2 ∈ table_keys (tf_counts tf id) ∧ (df_set df w2).length > 1 then
          some (score log tf df id w2)
        else score_at t id2 w2 := by
  unfold score_id
  rw [score_at_fold_words]
  have e : score_at (table_set id ((table_get id t).getD []) t) id2 w2 = score_at t id2 w2 := by
    by_cases h : id2 = id
    · subst h
      rw [score_at_eq, score_at_eq, table_get_set_same]
      rfl
    · simp [score_at, table_get_set_other _ _ _ _ h]
  rw [e]

theorem score_at_fold_ids {R : Type} [Field R] (log : R → R) (tf : TfTable) (df : DfTable)
    (ids : List (List Char)) (id2 : List Char) (w2 : List Nat) :
    ∀ t : List (List Char × List (List Nat × R)),
      score_at (ids.foldl (score_id log tf df) t) id2 w2
        = if id2 ∈ ids ∧ w2 ∈ table_keys (tf_counts tf id2) ∧ (df_set df w2).length > 1 then
            some (score log tf df id2 w2)
          else score_at t id2 w2 := by
  induction ids with
  | nil => intro t; simp
  | cons a rest ih =>
    intro t
    simp only [List.foldl_cons, ih, score_at_score_id, List.mem_cons]
    by_cases h1 : id2 = a
    · subst h1
      by_cases h2 : id2 ∈ rest <;>
        by_cases h3 : w2 ∈ table_keys (tf_counts tf id2) ∧ (df_set df w2).length > 1 <;>
          simp [h2, h3]
    · simp [h1]

theorem used_by_iff (id : List Char) (w : List Nat) (ms : List Message) :
    used_by id w ms = true ↔ ∃ m ∈ ms, m.id = id ∧ w ∈ m.tokens.map Token.value := by
  simp [used_by, uses]

/-- The entries of the table returned by `calc_tfidf`: an entry exists for the words
the identity used that at least two identities used, and holds the score computed from
the counts per message. -/
theorem score_at_calc_tfidf {R : Type} [Field R] (log : R → R) (ms : List Message)
    (id : List Char) (w : List Nat) :
    score_at (calc_tfidf log ms) id w
      = if used_by id w ms = true ∧ 2 ≤ (speakers w ms).length then
          some (message_score log ms id w)
        else none := by
  obtain ⟨s1, s2, s3, s4, s5, s6, _⟩ := count_messages_spec ms
  unfold calc_tfidf
  rw [score_at_fold_ids]
  have hscore : score log (count_messages ms).1 (count_messages ms).2 id w
      = message_score log ms id w := by
    unfold score message_score
    rw [s3, s4, s1, s6]
  have hnone : score_at ([] : List (List Char × List (List Nat × R))) id w = none := rfl
  rw [hscore, hnone]
  have himp : (∃ m ∈ ms, m.id = id ∧ w ∈ m.tokens.map Token.value) → id ∈ identities ms := by
    rintro ⟨m, hm, rfl, _⟩
    simp only [identities, List.mem_dedup, List.mem_map]
    exact ⟨m, hm, rfl⟩
  by_cases h1 : ∃ m ∈ ms, m.id = id ∧ w ∈ m.tokens.map Token.value
  · have h2 := (s2 id).2 (himp h1)
    have h5 := (s5 id w).2 h1
    have h6 := (used_by_iff id w ms).2 h1
    by_cases h3 : 2 ≤ (speakers w ms).length
    · have h4 : (df_set (count_messages ms).2 w).length > 1 := by rw [s6]; exact h3
      rw [if_pos ⟨h2, h5, h4⟩, if_pos ⟨h6, h3⟩]
    · have h4 : ¬ (df_set (count_messages ms).2 w).length > 1 := by rw [s6]; exact h3
      rw [if_neg (fun h => h4 h.2.2), if_neg (fun h => h3 h.2)]
  · rw [if_neg (fun h => h1 ((s5 id w).1 h.2.1)),
      if_neg (fun h => h1 ((used_by_iff id w ms).1 h.1))]

theorem speakers_length_le (w : List Nat) (ms : List Message) :
    (speakers w ms).length ≤ (identities ms).length := by
  unfold speakers identities
  apply List.Subperm.length_le
  apply List.subperm_of_subset (List.nodup_dedup _)
  intro x hx
  simp only [List.mem_dedup, List.mem_map, List.mem_filter] at hx ⊢
  obtain ⟨m, ⟨hm, _⟩, rfl⟩ := hx
  exact ⟨m, hm, rfl⟩

theorem message_count_pos (id : List Char) (w : List Nat) (ms : List Message)
    (h : used_by id w ms = true) : 0 < message_count id w ms := by
  obtain ⟨m, hm, hid, hw⟩ := (used_by_iff id w ms).1 h
  unfold message_count messages_of
  apply List.length_pos_of_mem (a := m)
  have hu : uses w m = true := by
    unfold uses
    exact decide_eq_true hw
  simp [List.mem_filter, hm, hid, hu]

theorem distinct_word_total_pos (id : List Char) (w : List Nat) (ms : List Message)
    (h : used_by id w ms = true) : 0 < distinct_word_total id ms := by
  obtain ⟨m, hm, hid, hw⟩ := (used_by_iff id w ms).1 h
  unfold distinct_word_total messages_of
  have h1 : (m.tokens.map Token.value).dedup.length
      ∈ (ms.filter (fun m => decide (m.id = id))).map
          (fun m => (m.tokens.map Token.value).dedup.length) := by
    simp only [List.mem_map, List.mem_filter]
    exact ⟨m, ⟨hm, by simp [hid]⟩, rfl⟩
  have h2 : 0 < (m.tokens.map Token.value).dedup.length :=
    List.length_pos_of_mem (List.mem_dedup.2 hw)
  have h3 := List.single_le_sum (fun x _ => Nat.zero_le x) _ h1
  omega

/-- The sign of the score with the counts per message: it is not negative exactly when
some identity did not use the word. -/
theorem message_score_sign (ms : List Message) (id : List Char) (w : List Nat)
    (hu : used_by id w ms = true) (hd : 2 ≤ (speakers w ms).length) :
    0 ≤ message_score Real.log ms id w ↔ (speakers w ms).length < (identities ms).length := by
  have h1 := message_count_pos id w ms hu
  have h2 := distinct_word_total_pos id w ms hu
  have h3 := speakers_length_le w ms
  have c1 : (0 : ℝ) < (message_count id w ms : ℝ) := by exact_mod_cast h1
  have c2 : (0 : ℝ) < (distinct_word_total id ms : ℝ) := by exact_mod_cast h2
  have c3 : (0 : ℝ) < (message_count id w ms : ℝ) / (distinct_word_total id ms : ℝ) :=
    div_pos c1 c2
  have c4 : (0 : ℝ) < ((speakers w ms).length : ℝ) + 1 := by positivity
  unfold message_score
  constructor
  · intro h
    by_contra hlt
    have heq : (identities ms).length = (speakers w ms).length := by omega
    have hn : (0 : ℝ) < ((identities ms).length : ℝ) := by
      have : 0 < (identities ms).length := by omega
      exact_mod_cast this
    have hlog : Real.log (((identities ms).length : ℝ) / (((speakers w ms).length : ℝ) + 1)) < 0 := by
      apply Real.log_neg (div_pos hn c4)
      rw [div_lt_one c4, heq]
      linarith
    have := mul_neg_of_pos_of_neg c3 hlog
    linarith
  · intro h
    have hge : ((speakers w ms).length : ℝ) + 1 ≤ ((identities ms).length : ℝ) := by
      exact_mod_cast h
    have hlog : 0 ≤ Real.log (((identities ms).length : ℝ) / (((speakers w ms).length : ℝ) + 1)) := by
      apply Real.log_nonneg
      rw [le_div_iff₀ c4]
      linarith
    exact mul_nonneg (le_of_lt c3) hlog

/-- C4 (counterexample): A says the word x twice in one message of three tokens; x is
used by two identities, and the stored score counts the message once, (1/2) ln(2/3),
not the occurrences, (2/3) ln(2/3). -/
theorem calc_tfidf_not_occurrence_score :
    2 ≤ (speakers [120] repeated_word_messages).length
      ∧ score_at (calc_tfidf Real.log repeated_word_messages) ['A'] [120]
          = some (1 / 2 * Real.log (2 / 3))
      ∧ occurrence_score Real.log repeated_word_messages ['A'] [120] = 2 / 3 * Real.log (2 / 3)
      ∧ score_at (calc_tfidf Real.log repeated_word_messages) ['A'] [120]
          ≠ some (occurrence_score Real.log repeated_word_messages ['A'] [120]) := by
  have e1 : message_count ['A'] [120] repeated_word_messages = 1 := by decide
  have e2 : distinct_word_total ['A'] repeated_word_messages = 2 := by decide
  have e3 : (identities repeated_word_messages).length = 2 := by decide
  have e4 : (speakers [120] repeated_word_messages).length = 2 := by decide
  have e5 : occurrences ['A'] [120] repeated_word_messages = 2 := by decide
  have e6 : total_occurrences ['A'] repeated_word_messages = 3 := by decide
  have hlog : Real.log (2 / 3) < 0 := Real.log_neg (by norm_num) (by norm_num)
  have h23 : ((2 : ℝ) / (2 + 1)) = 2 / 3 := by norm_num
  have hs : score_at (calc_tfidf Real.log repeated_word_messages) ['A'] [120]
      = some (1 / 2 * Real.log (2 / 3)) := by
    rw [score_at_calc_tfidf, if_pos ⟨by decide, by decide⟩]
    unfold message_score
    rw [e1, e2, e3, e4]
    norm_num
  have ho : occurrence_score Real.log repeated_word_messages ['A'] [120]
      = 2 / 3 * Real.log (2 / 3) := by
    unfold occurrence_score
    rw [e3, e4, e5, e6]
    norm_num
  refine ⟨by decide, hs, ho, ?_⟩
  rw [hs, ho]
  intro h
  have h2 := Option.some.inj h
  linarith

/-- C4 (amended): for an identity that used the word, and a word used by at least two
identities, the stored score is `(tf / total) * ln(N / (df + 1))` with `tf` the number of
messages of the identity that hold the word, `total` the sum over the messages of the
identity of their numbers of distinct words, `df` the number of identities that used the
word and `N` the number of identities. -/
theorem calc_tfidf_message_score (ms : List Message) (id : List Char) (w : List Nat)
    (hu : used_by id w ms = true) (hd : 2 ≤ (speakers w ms).length) :
    score_at (calc_tfidf Real.log ms) id w
      = some ((message_count id w ms : ℝ) / (distinct_word_total id ms : ℝ)
          * Real.log (((identities ms).length : ℝ) / (((speakers w ms).length : ℝ) + 1))) := by
  rw [score_at_calc_tfidf, if_pos ⟨hu, hd⟩]
  rfl

/-- Witness for C4: the score of the word x for A in the example with a repeated word. -/
theorem calc_tfidf_message_score_witness :
    score_at (calc_tfidf Real.log repeated_word_messages) ['A'] [120]
      = some ((message_count ['A'] [120] repeated_word_messages : ℝ)
          / (distinct_word_total ['A'] repeated_word_messages : ℝ)
          * Real.log (((identities repeated_word_messages).length : ℝ)
              / (((speakers [120] repeated_word_messages).length : ℝ) + 1))) :=
  calc_tfidf_message_score repeated_word_messages ['A'] [120] (by decide) (by decide)

/-- C5 (counterexample): when the two identities both say the word x, the stored score
of x is ln(2/3), a negative number. -/
theorem calc_tfidf_negative_score :
    score_at (calc_tfidf Real.log shared_word_messages) ['A'] [120]
        = some (message_score Real.log shared_word_messages ['A'] [120])
      ∧ message_score Real.log shared_word_messages ['A'] [120] < 0 := by
  refine ⟨by rw [score_at_calc_tfidf, if_pos ⟨by decide, by decide⟩], ?_⟩
  have h := message_score_sign shared_word_messages ['A'] [120] (by decide) (by decide)
  by_contra hneg
  have h2 := h.1 (not_lt.1 hneg)
  revert h2
  decide

/-- C5 (amended): a stored score is not negative exactly when some identity did not use
the word (df < N); the score of a word that every identity used is negative. -/
theorem calc_tfidf_score_sign (ms : List Message) (id : List Char) (w : List Nat) (s : ℝ)
    (h : score_at (calc_tfidf Real.log ms) id w = some s) :
    0 ≤ s ↔ (speakers w ms).length < (identities ms).length := by
  rw [score_at_calc_tfidf] at h
  by_cases hc : used_by id w ms = true ∧ 2 ≤ (speakers w ms).length
  · rw [if_pos hc] at h
    rw [← Option.some.inj h]
    exact message_score_sign ms id w hc.1 hc.2
  · rw [if_neg hc] at h
    cases h

/-- Witness for C5: with three identities of which two say the word x, the score of x is
not negative. -/
theorem calc_tfidf_score_sign_witness :
    (0 ≤ message_score Real.log three_speaker_messages ['A'] [120]
      ↔ (speakers [120] three_speaker_messages).length
          < (identities three_speaker_messages).length)
      ∧ (speakers [120] three_speaker_messages).length = 2
      ∧ (identities three_speaker_messages).length = 3 :=
  ⟨calc_tfidf_score_sign three_speaker_messages ['A'] [120]
      (message_score Real.log three_speaker_messages ['A'] [120])
      (by rw [score_at_calc_tfidf, if_pos ⟨by decide, by decide⟩]),
    by decide, by decide⟩

/-- C6: a word is a key of the table of an identity if and only if the identity used
the word in one of its messages and at least two distinct identities used the word. -/
theorem calc_tfidf_keys (ms : List Message) (id : List Char) (w : List Nat) :
    w ∈ table_keys ((table_get id (calc_tfidf Real.log ms)).getD [])
      ↔ (∃ m ∈ ms, m.id = id ∧ w ∈ m.tokens.map Token.value)
        ∧ 2 ≤ (speakers w ms).length := by
  rw [mem_table_keys, ← score_at_eq, score_at_calc_tfidf, ← used_by_iff]
  by_cases hc : used_by id w ms = true ∧ 2 ≤ (speakers w ms).length
  · rw [if_pos hc]
    simp [hc]
  · rw [if_neg hc]
    simp only [reduceCtorEq, exists_false, false_iff]
    exact hc

/-! ## Theorems: the lines `parse_header` accepts -/

theorem mem_lit (c : Char) (s : List Char) (x : List Char × List Char) :
    x ∈ lit c s ↔ x.1 = [c] ∧ s = c :: x.2 := by
  obtain ⟨a, b⟩ := x
  cases s with
  | nil => simp [lit]
  | cons s0 s1 =>
    by_cases h : s0 = c
    · subst h
      simp only [lit, if_true, List.mem_singleton, Prod.mk.injEq, List.cons.injEq, true_and]
      constructor
      · rintro ⟨rfl, rfl⟩; exact ⟨rfl, rfl⟩
      · rintro ⟨rfl, rfl⟩; exact ⟨rfl, rfl⟩
    · simp only [lit, h, if_false, List.not_mem_nil, List.cons.injEq, false_iff, not_and]
      intro _ h2
      exact absurd h2 (by simp [h])

theorem mem_exactly (p : Char → Bool) (n : Nat) (s : List Char) (x : List Char × List Char) :
    x ∈ exactly p n s ↔ (x.1 ++ x.2 = s ∧ x.1.length = n ∧ ∀ c ∈ x.1, p c = true) := by
  obtain ⟨a, b⟩ := x
  unfold exactly
  by_cases h : n ≤ s.length ∧ (s.take n).all p = true
  · rw [if_pos h]
    simp only [List.mem_singleton, Prod.mk.injEq]
    constructor
    · rintro ⟨rfl, rfl⟩
      refine ⟨List.take_append_drop n s, by simp [h.1], ?_⟩
      simpa using h.2
    · rintro ⟨rfl, rfl, h3⟩
      simp
  · rw [if_neg h]
    simp only [List.not_mem_nil, false_iff, not_and]
    rintro rfl rfl h3
    apply h
    refine ⟨by simp, ?_⟩
    simpa using h3

theorem mem_seq (m1 m2 : List Char → List (List Char × List Char)) (s : List Char)
    (x : List Char × List Char) :
    x ∈ seq m1 m2 s ↔ ∃ a ∈ m1 s, ∃ b ∈ m2 a.2, x = (a.1 ++ b.1, b.2) := by
  unfold seq
  simp only [List.mem_flatMap, List.mem_map]
  constructor
  · rintro ⟨a, ha, b, hb, rfl⟩
    exact ⟨a, ha, b, hb, rfl⟩
  · rintro ⟨a, ha, b, hb, rfl⟩
    exact ⟨a, ha, b, hb, rfl⟩

theorem mem_digits_1_2 (s : List Char) (x : List Char × List Char) :
    x ∈ digits_1_2 s
      ↔ (x.1 ++ x.2 = s ∧ (x.1.length = 2 ∨ x.1.length = 1) ∧ ∀ c ∈ x.1, is_digit c = true) := by
  unfold digits_1_2
  rw [List.mem_append, mem_exactly, mem_exactly]
  tauto

/-- Every candidate of group 1 is a timestamp, in front of the rest of the text. -/
theorem mem_timestamp_re (s : List Char) (x : List Char × List Char) (h : x ∈ timestamp_re s) :
    is_timestamp x.1 = true ∧ x.1 ++ x.2 = s := by
  unfold timestamp_re at h
  simp only [mem_seq, mem_exactly, mem_lit, mem_digits_1_2] at h
  obtain ⟨y, ⟨hy1, hy2, hy3⟩, _, ⟨d1, ⟨hd1a, hd1b⟩, _, ⟨mo, ⟨hmo1, hmo2, hmo3⟩,
    _, ⟨d2, ⟨hd2a, hd2b⟩, _, ⟨da, ⟨hda1, hda2, hda3⟩, _, ⟨sp, ⟨hsp1, hsp2⟩,
    _, ⟨ho, ⟨hho1, hho2, hho3⟩, _, ⟨c1, ⟨hc1a, hc1b⟩, _, ⟨mi, ⟨hmi1, hmi2, hmi3⟩,
    _, ⟨c2, ⟨hc2a, hc2b⟩, se, ⟨hse1, hse2, hse3⟩, rfl⟩, rfl⟩, rfl⟩, rfl⟩, rfl⟩, rfl⟩,
    rfl⟩, rfl⟩, rfl⟩, rfl⟩ := h
  obtain ⟨ya, yb⟩ := y
  obtain ⟨d1a, d1b⟩ := d1
  obtain ⟨moa, mob⟩ := mo
  obtain ⟨d2a, d2b⟩ := d2
  obtain ⟨daa, dab⟩ := da
  obtain ⟨spa, spb⟩ := sp
  obtain ⟨hoa, hob⟩ := ho
  obtain ⟨c1a, c1b⟩ := c1
  obtain ⟨mia, mib⟩ := mi
  obtain ⟨c2a, c2b⟩ := c2
  obtain ⟨sea, seb⟩ := se
  simp only at *
  subst hd1a hd2a hsp1 hc1a hc2a
  subst hse1 hc2b hmi1 hc1b hho1 hsp2 hda1 hd2b hmo1 hd1b hy1
  refine ⟨?_, by simp⟩
  obtain ⟨y1, y2, y3, y4, rfl⟩ : ∃ a b c d, ya = [a, b, c, d] := by
    match ya, hy2 with
    | [a, b, c, d], _ => exact ⟨a, b, c, d, rfl⟩
  obtain ⟨m1, m2, rfl⟩ := List.length_eq_two.1 hmo2
  obtain ⟨e1, e2, rfl⟩ := List.length_eq_two.1 hda2
  obtain ⟨n1, n2, rfl⟩ := List.length_eq_two.1 hmi2
  obtain ⟨s1, s2, rfl⟩ := List.length_eq_two.1 hse2
  simp only [List.mem_cons, List.mem_singleton, List.not_mem_nil, or_false,
    forall_eq_or_imp, forall_eq] at hy3 hmo3 hda3 hmi3 hse3
  rcases hho2 with hho2 | hho2
  · obtain ⟨h1, h2, rfl⟩ := List.length_eq_two.1 hho2
    simp only [List.mem_cons, List.mem_singleton, List.not_mem_nil, or_false,
      forall_eq_or_imp, forall_eq] at hho3
    simp [is_timestamp, hy3, hmo3, hda3, hmi3, hse3, hho3]
  · obtain ⟨h1, rfl⟩ := List.length_eq_one.1 hho2
    simp only [List.mem_cons, List.mem_singleton, List.not_mem_nil, or_false,
      forall_eq_or_imp, forall_eq] at hho3
    simp [is_timestamp, hy3, hmo3, hda3, hmi3, hse3, hho3]

theorem mem_plus (p : Char → Bool) (s : List Char) (x : List Char × List Char) :
    x ∈ plus p s ↔ (x.1 ++ x.2 = s ∧ (∀ c ∈ x.1, p c = true) ∧ x.1 ≠ []) := by
  unfold plus
  rw [List.mem_filter, mem_star]
  simp [and_assoc]

theorem mem_qq_branch (time name s : List Char) (m : HeaderMatch)
    (h : m ∈ qq_branch time name s) :
    ∃ q, q ≠ [] ∧ (∀ c ∈ q, is_digit c = true) ∧ s = '(' :: (q ++ [')'])
      ∧ m = { time := time, name := name, qq := some q, email := none } := by
  unfold qq_branch at h
  simp only [List.mem_flatMap, mem_lit, mem_plus] at h
  obtain ⟨o, ⟨_, ho⟩, q, ⟨hq1, hq2, hq3⟩, c, ⟨_, hc⟩, hm⟩ := h
  by_cases hc2 : c.2 = []
  · rw [if_pos hc2, List.mem_singleton] at hm
    refine ⟨q.1, hq3, hq2, ?_, hm⟩
    rw [ho, ← hq1, hc, hc2]
  · rw [if_neg hc2] at hm
    cases hm

theorem mem_email_branch (time name s : List Char) (m : HeaderMatch)
    (h : m ∈ email_branch time name s) :
    ∃ e, e ≠ [] ∧ (∀ c ∈ e, is_not_angle c = true) ∧ s = '<' :: (e ++ ['>'])
      ∧ m = { time := time, name := name, qq := none, email := some e } := by
  unfold email_branch at h
  simp only [List.mem_flatMap, mem_lit, mem_plus] at h
  obtain ⟨o, ⟨_, ho⟩, q, ⟨hq1, hq2, hq3⟩, c, ⟨_, hc⟩, hm⟩ := h
  by_cases hc2 : c.2 = []
  · rw [if_pos hc2, List.mem_singleton] at hm
    refine ⟨q.1, hq3, hq2, ?_, hm⟩
    rw [ho, ← hq1, hc, hc2]
  · rw [if_neg hc2] at hm
    cases hm

/-- Every match of `header_format`: the text is the timestamp, a blank, the name and
either a parenthesized digit string or a bracketed string without angle bracket. -/
theorem mem_header_matches (text : List Char) (m : HeaderMatch) (h : m ∈ header_matches text) :
    is_timestamp m.time = true ∧ (∀ c ∈ m.name, is_dot c = true)
      ∧ ((∃ q, q ≠ [] ∧ (∀ c ∈ q, is_digit c = true) ∧ m.qq = some q ∧ m.email = none
            ∧ text = m.time ++ ' ' :: (m.name ++ '(' :: (q ++ [')'])))
        ∨ (∃ e, e ≠ [] ∧ (∀ c ∈ e, is_not_angle c = true) ∧ m.qq = none ∧ m.email = some e
            ∧ text = m.time ++ ' ' :: (m.name ++ '<' :: (e ++ ['>'])))) := by
  unfold header_matches at h
  simp only [List.mem_flatMap, mem_lit, mem_star, List.mem_append] at h
  obtain ⟨t, ht, sp, ⟨_, hsp⟩, nm, ⟨hnm1, hnm2⟩, hm⟩ := h
  obtain ⟨ht1, ht2⟩ := mem_timestamp_re text t ht
  rcases hm with hm | hm
  · obtain ⟨q, hq1, hq2, hq3, rfl⟩ := mem_qq_branch _ _ _ _ hm
    refine ⟨ht1, hnm2, Or.inl ⟨q, hq1, hq2, rfl, rfl, ?_⟩⟩
    simp only
    rw [← ht2, hsp, ← hnm1, hq3]
  · obtain ⟨e, he1, he2, he3, rfl⟩ := mem_email_branch _ _ _ _ hm
    refine ⟨ht1, hnm2, Or.inr ⟨e, he1, he2, rfl, rfl, ?_⟩⟩
    simp only
    rw [← ht2, hsp, ← hnm1, he3]

/-- C11: `parse_header` accepts only lines of the header shape. Whenever it returns
`{time, name, id}`, `time` has the shape YYYY-MM-DD H:MM:SS and the line is either
`time name(id)` with `id` a non-empty digit string or `time name<id>` with `id`
non-empty and free of `<` and `>`; so every other line gives `null`, as do a header with
trailing content and a header with an empty id. -/
theorem parse_header_shape :
    (∀ (line : List Char) (header : Header), parse_header line = some header →
      is_timestamp header.time = true
        ∧ ((∃ d, header.id = some d ∧ d ≠ [] ∧ (∀ c ∈ d, is_digit c = true)
              ∧ line = header.time ++ ' ' :: (header.name ++ '(' :: (d ++ [')'])))
          ∨ (∃ e, header.id = some e ∧ e ≠ [] ∧ (∀ c ∈ e, c ≠ '<' ∧ c ≠ '>')
              ∧ line = header.time ++ ' ' :: (header.name ++ '<' :: (e ++ ['>'])))))
    ∧ parse_header "2023-05-01 9:03:21 Bob(123456) hi".toList = none
    ∧ parse_header "2023-05-01 9:03:21 Bob()".toList = none := by
  refine ⟨?_, by decide, by decide⟩
  intro line header hp
  unfold parse_header at hp
  cases hh : (header_matches line).head? with
  | none => rw [hh] at hp; cases hp
  | some m =>
    rw [hh] at hp
    simp only [Option.some.injEq] at hp
    subst hp
    obtain ⟨h1, _, h3⟩ := mem_header_matches line m (List.mem_of_mem_head? hh)
    refine ⟨h1, ?_⟩
    rcases h3 with ⟨q, hq1, hq2, hq3, hq4, hq5⟩ | ⟨e, he1, he2, he3, he4, he5⟩
    · left
      refine ⟨q, ?_, hq1, hq2, hq5⟩
      simp [js_or, hq3, hq1]
    · right
      refine ⟨e, ?_, he1, ?_, he5⟩
      · simp [js_or, he3, he4]
      · intro c hc
        have := he2 c hc
        simpa [is_not_angle, not_or] using this

/-- Witness for C11: the header line of Bob is accepted and has the header shape. -/
theorem parse_header_shape_witness :
    is_timestamp "2023-05-01 9:03:21".toList = true
      ∧ ((∃ d, some "123456".toList = some d ∧ d ≠ [] ∧ (∀ c ∈ d, is_digit c = true)
            ∧ "2023-05-01 9:03:21 Bob(123456)".toList
                = "2023-05-01 9:03:21".toList ++ ' ' :: ("Bob".toList ++ '(' :: (d ++ [')'])))
        ∨ (∃ e, some "123456".toList = some e ∧ e ≠ [] ∧ (∀ c ∈ e, c ≠ '<' ∧ c ≠ '>')
            ∧ "2023-05-01 9:03:21 Bob(123456)".toList
                = "2023-05-01 9:03:21".toList ++ ' ' :: ("Bob".toList ++ '<' :: (e ++ ['>'])))) :=
  parse_header_shape.1 "2023-05-01 9:03:21 Bob(123456)".toList
    { time := "2023-05-01 9:03:21".toList, name := "Bob".toList, id := some "123456".toList }
    (by decide)

/-! ## Theorems: identity cleaner -/

theorem keep_unmarked_append (a a2 : List Message) (b b2 : List Bool)
    (h : a.length = b.length) :
    keep_unmarked (a ++ a2) (b ++ b2) = keep_unmarked a b ++ keep_unmarked a2 b2 := by
  unfold keep_unmarked
  rw [List.zip_append h, List.filter_append, List.map_append]

theorem parent_index_append (b c : List Bool) :
    ∀ k, k ≤ b.length → parent_index (b ++ c) k = parent_index b k := by
  intro k
  induction k with
  | zero => intro _; rfl
  | succ k ih =>
    intro hk
    have hlt : k < b.length := hk
    have e : (b ++ c).getD k false = b.getD k false := by
      simp [List.getD_eq_getElem?_getD, List.getElem?_append_left hlt]
    simp only [parent_index, e, ih (Nat.le_of_lt hlt)]

theorem parent_index_lt (b : List Bool) : ∀ k j, parent_index b k = some j → j < k := by
  intro k
  induction k with
  | zero => intro j h; cases h
  | succ k ih =>
    intro j h
    simp only [parent_index] at h
    split_ifs at h with hx
    · exact Nat.lt_succ_of_lt (ih j h)
    · cases h
      exact Nat.lt_succ_self _

theorem mark_removed_append (b c : List Bool) (p : Option Nat)
    (hp : ∀ j, p = some j → j < b.length) :
    mark_removed (b ++ c) p = mark_removed b p ++ c := by
  cases p with
  | none => rfl
  | some j =>
    have := hp j rfl
    simp only [mark_removed]
    rw [List.set_append_left _ _ this]

theorem mark_removed_length (b : List Bool) (p : Option Nat) :
    (mark_removed b p).length = b.length := by
  cases p <;> simp [mark_removed]

/-- Marking the nearest unmarked element before the end removes the last kept message. -/
theorem keep_unmarked_mark_parent (b : List Bool) :
    ∀ a : List Message, a.length = b.length →
      keep_unmarked a (mark_removed b (parent_index b b.length))
        = (keep_unmarked a b).dropLast := by
  induction b using List.reverseRecOn with
  | nil =>
    intro a ha
    have : a = [] := List.length_eq_zero.1 ha
    subst this
    rfl
  | append_singleton b0 x ih =>
    intro a ha
    have hne : a ≠ [] := by
      intro h
      subst h
      simp at ha
    obtain ⟨a0, y, rfl⟩ : ∃ a0 y, a = a0 ++ [y] :=
      ⟨a.dropLast, a.getLast hne, (List.dropLast_append_getLast hne).symm⟩
    have hlen : a0.length = b0.length := by
      simp at ha
      exact ha
    have e1 : parent_index (b0 ++ [x]) (b0 ++ [x]).length
        = if x = true then parent_index b0 b0.length else some b0.length := by
      have hl : (b0 ++ [x]).length = b0.length + 1 := by simp
      rw [hl]
      simp only [parent_index]
      have e : (b0 ++ [x]).getD b0.length false = x := by
        simp [List.getD_eq_getElem?_getD]
      rw [e, parent_index_append b0 [x] b0.length (Nat.le_refl _)]
    rw [e1]
    cases x with
    | true =>
      simp only [if_true]
      rw [mark_removed_append b0 [true] _ (fun j hj => parent_index_lt b0 _ j hj),
        keep_unmarked_append a0 [y] _ [true]
          (by rw [mark_removed_length]; exact hlen),
        keep_unmarked_append a0 [y] b0 [true] hlen, ih a0 hlen]
      simp [keep_unmarked]
    | false =>
      simp only [Bool.false_eq_true, if_false, mark_removed]
      have e2 : (b0 ++ [false]).set b0.length true = b0 ++ [true] := by
        rw [List.set_append_right _ _ (Nat.le_refl _)]
        simp
      rw [e2, keep_unmarked_append a0 [y] b0 [true] hlen,
        keep_unmarked_append a0 [y] b0 [false] hlen]
      simp [keep_unmarked]

theorem removal_scan_append (id : List Char) (rp : Bool) (l : List Message) (m : Message) :
    removal_scan id rp (l ++ [m])
      = if m.id = id then (if rp then (removal_scan id rp l).dropLast else removal_scan id rp l)
        else removal_scan id rp l ++ [m] := by
  simp [removal_scan, List.foldl_append]

/-- The array `to_remove` after `k` iterations: the marks of the first `k` messages keep
the messages of the scan, the other marks are still `false`. -/
theorem removal_marks_prefix (ms : List Message) (id : List Char) (rp : Bool) :
    ∀ k, k ≤ ms.length → ∃ b : List Bool, b.length = k
      ∧ (List.range k).foldl (remove_id_step ms id rp) (ms.map (fun _ => false))
          = b ++ List.replicate (ms.length - k) false
      ∧ keep_unmarked (ms.take k) b = removal_scan id rp (ms.take k) := by
  intro k
  induction k with
  | zero =>
    intro _
    refine ⟨[], rfl, ?_, rfl⟩
    simp [List.map_const']
  | succ k ih =>
    intro hk
    have hlt : k < ms.length := hk
    obtain ⟨b, hb, hfold, hkeep⟩ := ih (Nat.le_of_lt hlt)
    have hget : ms.get? k = some ms[k] := by simp [List.getElem?_eq_getElem hlt]
    have htake : ms.take (k + 1) = ms.take k ++ [ms[k]] := by
      rw [List.take_succ, List.getElem?_eq_getElem hlt]
      rfl
    have hrep : List.replicate (ms.length - k) false
        = false :: List.replicate (ms.length - (k + 1)) false := by
      have : ms.length - k = (ms.length - (k + 1)) + 1 := by omega
      rw [this, List.replicate_succ]
    have hlen : (ms.take k).length = b.length := by
      rw [List.length_take, hb]
      omega
    have hset : (b ++ false :: List.replicate (ms.length - (k + 1)) false).set k true
        = b ++ true :: List.replicate (ms.length - (k + 1)) false := by
      rw [List.set_append_right _ _ (by omega), hb]
      simp
    rw [List.range_succ, List.foldl_append, hfold, hrep]
    simp only [List.foldl_cons, List.foldl_nil, remove_id_step, hget]
    rw [htake, removal_scan_append]
    by_cases hid : ms[k].id = id
    · simp only [hid, if_true]
      rw [hset]
      cases rp with
      | false =>
        refine ⟨b ++ [true], by simp [hb], by simp, ?_⟩
        rw [keep_unmarked_append _ _ _ _ hlen, hkeep]
        simp [keep_unmarked]
      | true =>
        have hp : parent_index (b ++ true :: List.replicate (ms.length - (k + 1)) false) k
            = parent_index b b.length := by
          rw [parent_index_append b _ k (by omega), hb]
        simp only [if_true]
        rw [hp, mark_removed_append b _ _ (fun j hj => parent_index_lt b _ j hj)]
        refine ⟨mark_removed b (parent_index b b.length) ++ [true],
          by simp [mark_removed_length, hb], by simp, ?_⟩
        rw [keep_unmarked_append _ _ _ _ (by rw [mark_removed_length]; exact hlen),
          keep_unmarked_mark_parent b _ hlen, hkeep]
        simp [keep_unmarked]
    · simp only [hid, if_false]
      refine ⟨b ++ [false], by simp [hb], by simp, ?_⟩
      rw [keep_unmarked_append _ _ _ _ hlen, hkeep]
      simp [keep_unmarked]

/-- The result of `remove_id` is the result of the scan. -/
theorem remove_id_eq_scan (ms : List Message) (id : List Char) (rp : Bool) :
    remove_id ms id rp = removal_scan id rp ms := by
  obtain ⟨b, _, hfold, hkeep⟩ := removal_marks_prefix ms id rp ms.length (Nat.le_refl _)
  unfold remove_id removal_marks
  rw [hfold]
  simp only [Nat.sub_self, List.replicate_zero, List.append_nil, List.take_length] at hkeep ⊢
  exact hkeep

theorem removal_scan_false (id : List Char) (ms : List Message) :
    removal_scan id false ms = ms.filter (fun m => decide (m.id ≠ id)) := by
  induction ms using List.reverseRecOn with
  | nil => rfl
  | append_singleton l m ih =>
    rw [removal_scan_append, ih, List.filter_append]
    by_cases h : m.id = id <;> simp [h]

/-- C12: `remove_id(messages, id, false)` is the input list without the messages of the
target identity, the other messages in their order. -/
theorem remove_id_filter (messages : List Message) (id : List Char) :
    remove_id messages id false = messages.filter (fun m => decide (m.id ≠ id)) := by
  rw [remove_id_eq_scan, removal_scan_false]

/-- C13: `remove_id(messages, id, true)` is total and equals the scan with a stack of
surviving messages: a message of another identity is pushed, a message of the target is
dropped and pops the most recently kept message if there is one; so [A, A, Bot, B]
gives [A, B] and [A, Bot, Bot, B] gives [B]. -/
theorem remove_id_parent_scan :
    (∀ (messages : List Message) (id : List Char),
      remove_id messages id true
        = messages.foldl
            (fun stack m => if m.id = id then stack.dropLast else stack ++ [m]) [])
    ∧ remove_id [message_of ['A'], message_of ['A'], message_of ['B', 'o', 't'],
          message_of ['B']] ['B', 'o', 't'] true
        = [message_of ['A'], message_of ['B']]
    ∧ remove_id [message_of ['A'], message_of ['B', 'o', 't'], message_of ['B', 'o', 't'],
          message_of ['B']] ['B', 'o', 't'] true
        = [message_of ['B']]
    ∧ remove_id [message_of ['B', 'o', 't'], message_of ['B']] ['B', 'o', 't'] true
        = [message_of ['B']] := by
  refine ⟨?_, by decide, by decide, by decide⟩
  intro messages id
  rw [remove_id_eq_scan]
  simp [removal_scan]

theorem mem_removal_scan (id : List Char) (rp : Bool) (ms : List Message) :
    ∀ m ∈ removal_scan id rp ms, m ∈ ms ∧ m.id ≠ id := by
  induction ms using List.reverseRecOn with
  | nil => intro m hm; cases hm
  | append_singleton l x ih =>
    intro m hm
    rw [removal_scan_append] at hm
    by_cases hx : x.id = id
    · rw [if_pos hx] at hm
      have hm2 : m ∈ removal_scan id rp l := by
        cases rp with
        | false => exact hm
        | true => exact List.mem_of_mem_dropLast hm
      exact ⟨List.mem_append_left _ (ih m hm2).1, (ih m hm2).2⟩
    · rw [if_neg hx] at hm
      rcases List.mem_append.1 hm with h | h
      · exact ⟨List.mem_append_left _ (ih m h).1, (ih m h).2⟩
      · simp only [List.mem_singleton] at h
        subst h
        exact ⟨by simp, hx⟩

theorem mem_remove_id (ms : List Message) (id : List Char) (rp : Bool) :
    ∀ m ∈ remove_id ms id rp, m ∈ ms ∧ m.id ≠ id := by
  rw [remove_id_eq_scan]
  exact mem_removal_scan id rp ms

theorem mem_table_keys_delete {κ ν : Type} [DecidableEq κ] (key k : κ) (t : List (κ × ν)) :
    k ∈ table_keys (table_delete key t) ↔ k ∈ table_keys t ∧ k ≠ key := by
  unfold table_keys table_delete
  simp only [List.mem_map, List.mem_filter, decide_eq_true_eq]
  constructor
  · rintro ⟨e, ⟨he, hne⟩, rfl⟩
    exact ⟨⟨e, he, rfl⟩, hne⟩
  · rintro ⟨⟨e, he, rfl⟩, hne⟩
    exact ⟨e, ⟨he, hne⟩, rfl⟩

/-- A loop of removals: each identity of `ids` that passes the test `c` is removed from
the messages and from the registry, and nothing else leaves the registry. -/
theorem clean_fold (c : List Char → Bool) (rp : Bool) (ids : List (List Char)) :
    ∀ st : List Message × Aliases,
      (∀ m ∈ (ids.foldl (fun s id => if c id = true then clean_id rp s id else s) st).1,
          m ∈ st.1 ∧ ∀ id ∈ ids, c id = true → m.id ≠ id)
      ∧ (∀ k, k ∈ table_keys (ids.foldl
            (fun s id => if c id = true then clean_id rp s id else s) st).2
          ↔ k ∈ table_keys st.2 ∧ ∀ id ∈ ids, c id = true → k ≠ id) := by
  induction ids with
  | nil => intro st; simp
  | cons a rest ih =>
    intro st
    simp only [List.foldl_cons]
    obtain ⟨i1, i2⟩ := ih (if c a = true then clean_id rp st a else st)
    constructor
    · intro m hm
      obtain ⟨h1, h2⟩ := i1 m hm
      by_cases hc : c a = true
      · rw [if_pos hc] at h1
        obtain ⟨h3, h4⟩ := mem_remove_id st.1 a rp m h1
        refine ⟨h3, ?_⟩
        intro id hid
        rcases List.mem_cons.1 hid with rfl | hid
        · exact fun _ => h4
        · exact h2 id hid
      · rw [if_neg hc] at h1
        refine ⟨h1, ?_⟩
        intro id hid
        rcases List.mem_cons.1 hid with rfl | hid
        · exact fun h => absurd h hc
        · exact h2 id hid
    · intro k
      rw [i2 k]
      by_cases hc : c a = true
      · rw [if_pos hc]
        simp only [clean_id, mem_table_keys_delete, List.mem_cons, forall_eq_or_imp]
        tauto
      · rw [if_neg hc]
        simp only [List.mem_cons, forall_eq_or_imp]
        tauto

theorem clean_id_fold (rp : Bool) (ids : List (List Char)) (st : List Message × Aliases) :
    ids.foldl (clean_id rp) st
      = ids.foldl (fun s id => if (fun _ => true) id = true then clean_id rp s id else s) st := by
  simp

/-- C14: with the test against the black list taken as a predicate on identities, when
every message's id has a registry entry, `clean` returns messages none of which has an id
that is blacklisted or in a bot list, a registry without any of those ids, and every
returned message's id still has a registry entry. -/
theorem clean_consistent (blacklisted : List Char → Bool) (messages : List Message)
    (aliases : Aliases) (interactive_bot_ids non_interactive_bot_ids : List (List Char))
    (h : ∀ m ∈ messages, m.id ∈ table_keys aliases) :
    (∀ m ∈ (clean blacklisted messages aliases interactive_bot_ids non_interactive_bot_ids).1,
        blacklisted m.id = false ∧ m.id ∉ interactive_bot_ids
          ∧ m.id ∉ non_interactive_bot_ids)
    ∧ (∀ id ∈ table_keys
          (clean blacklisted messages aliases interactive_bot_ids non_interactive_bot_ids).2,
        blacklisted id = false ∧ id ∉ interactive_bot_ids ∧ id ∉ non_interactive_bot_ids)
    ∧ (∀ m ∈ (clean blacklisted messages aliases interactive_bot_ids non_interactive_bot_ids).1,
        m.id ∈ table_keys
          (clean blacklisted messages aliases interactive_bot_ids non_interactive_bot_ids).2) := by
  unfold clean
  rw [clean_id_fold false, clean_id_fold true]
  obtain ⟨a1, a2⟩ := clean_fold blacklisted false (table_keys aliases) (messages, aliases)
  have a1b : ∀ m ∈ ((table_keys aliases).foldl (clean_blacklisted blacklisted)
      (messages, aliases)).1, m ∈ messages
        ∧ ∀ id ∈ table_keys aliases, blacklisted id = true → m.id ≠ id := a1
  have a2b : ∀ k, k ∈ table_keys ((table_keys aliases).foldl (clean_blacklisted blacklisted)
      (messages, aliases)).2 ↔ k ∈ table_keys aliases
        ∧ ∀ id ∈ table_keys aliases, blacklisted id = true → k ≠ id := a2
  obtain ⟨b1, b2⟩ := clean_fold (fun _ => true) true interactive_bot_ids
    ((table_keys aliases).foldl (clean_blacklisted blacklisted) (messages, aliases))
  obtain ⟨c1, c2⟩ := clean_fold (fun _ => true) false non_interactive_bot_ids
    (interactive_bot_ids.foldl
      (fun s id => if (fun _ => true) id = true then clean_id true s id else s)
      ((table_keys aliases).foldl (clean_blacklisted blacklisted) (messages, aliases)))
  have hmsg : ∀ m ∈ (non_interactive_bot_ids.foldl
      (fun s id => if (fun _ => true) id = true then clean_id false s id else s)
      (interactive_bot_ids.foldl
        (fun s id => if (fun _ => true) id = true then clean_id true s id else s)
        ((table_keys aliases).foldl (clean_blacklisted blacklisted) (messages, aliases)))).1,
      m.id ∈ table_keys aliases ∧ blacklisted m.id = false ∧ m.id ∉ interactive_bot_ids
        ∧ m.id ∉ non_interactive_bot_ids := by
    intro m hm
    obtain ⟨hc1, hc2⟩ := c1 m hm
    obtain ⟨hb1, hb2⟩ := b1 m hc1
    obtain ⟨ha1, ha2⟩ := a1b m hb1
    have hk := h m ha1
    refine ⟨hk, ?_, fun hx => hb2 _ hx rfl rfl, fun hx => hc2 _ hx rfl rfl⟩
    by_contra hbl
    exact ha2 _ hk (by simpa using hbl) rfl
  refine ⟨fun m hm => (hmsg m hm).2, ?_, ?_⟩
  · intro id hid
    obtain ⟨hc1, hc2⟩ := (c2 id).1 hid
    obtain ⟨hb1, hb2⟩ := (b2 id).1 hc1
    obtain ⟨ha1, ha2⟩ := (a2b id).1 hb1
    refine ⟨?_, fun hx => hb2 _ hx rfl rfl, fun hx => hc2 _ hx rfl rfl⟩
    by_contra hbl
    exact ha2 _ ha1 (by simpa using hbl) rfl
  · intro m hm
    obtain ⟨hk, hbl, hi, hn⟩ := hmsg m hm
    rw [c2, b2, a2b]
    refine ⟨⟨⟨hk, ?_⟩, ?_⟩, ?_⟩
    · intro id _ hid he
      rw [he, hid] at hbl
      cases hbl
    · intro id hid _ he
      exact hi (he ▸ hid)
    · intro id hid _ he
      exact hn (he ▸ hid)

/-- Witness for C14: with X blacklisted and the interactive bot Bot, the message of B and
its registry entry remain (the message of A goes as parent of the bot's message). -/
theorem clean_consistent_witness :
    clean (fun id => decide (id = ['X'])) clean_example_messages clean_example_aliases
        [['B', 'o', 't']] []
      = ([message_of ['B']], [(['A'], [(['a'], 1)]), (['B'], [(['b'], 1)])])
    ∧ ((∀ m ∈ (clean (fun id => decide (id = ['X'])) clean_example_messages
            clean_example_aliases [['B', 'o', 't']] []).1,
          (fun id => decide (id = ['X'])) m.id = false ∧ m.id ∉ [['B', 'o', 't']]
            ∧ m.id ∉ ([] : List (List Char)))
      ∧ (∀ id ∈ table_keys (clean (fun id => decide (id = ['X'])) clean_example_messages
            clean_example_aliases [['B', 'o', 't']] []).2,
          (fun id => decide (id = ['X'])) id = false ∧ id ∉ [['B', 'o', 't']]
            ∧ id ∉ ([] : List (List Char)))
      ∧ (∀ m ∈ (clean (fun id => decide (id = ['X'])) clean_example_messages
            clean_example_aliases [['B', 'o', 't']] []).1,
          m.id ∈ table_keys (clean (fun id => decide (id = ['X'])) clean_example_messages
            clean_example_aliases [['B', 'o', 't']] []).2)) :=
  ⟨by decide,
    clean_consistent (fun id => decide (id = ['X'])) clean_example_messages
      clean_example_aliases [['B', 'o', 't']] [] (by decide)⟩

/-! ## Theorems: the tokenizer and separators -/

theorem tokens_from_separator (c : Char) (hc : char_class c = CharClass.other)
    (s t : List Char) :
    ∀ state : Option Token,
      tokens_from state (s ++ c :: t) = tokens_from state s ++ tokens_from none t := by
  induction s with
  | nil =>
    intro state
    rw [List.nil_append, tokens_from_cons, tokenize_step_other state c hc]
  | cons x rest ih =>
    intro state
    rw [List.cons_append, tokens_from_cons, tokens_from_cons, ih, List.append_assoc]

theorem no_stop_word_of_no_bracket (text : List Char) (h : '[' ∉ text) :
    no_stop_word text [] := by
  intro w hw
  rcases (mem_stop_words [] w).1 hw with (rfl | rfl) | ⟨entry, hentry, _⟩
  · exact absent_of_mem_not_mem _ _ '[' (List.mem_cons_self _ _) h
  · exact absent_of_mem_not_mem _ _ '[' (List.mem_cons_self _ _) h
  · cases hentry

theorem string_to_token_no_bracket (text : List Char) (h : '[' ∉ text) :
    string_to_token text [] = tokens_from none text := by
  unfold string_to_token
  rw [remove_stop_words_of_no_stop_word text [] (no_stop_word_of_no_bracket text h)]
  rfl

/-- C20: with an empty alias registry, for texts `s`, `t` and a character `c` that is
neither a Han character nor an ASCII Latin letter, none of them holding `[`, the tokens
of `s + c + t` are the tokens of `s` followed by the tokens of `t`. -/
theorem string_to_token_separator (s t : List Char) (c : Char)
    (hc : char_class c = CharClass.other) (hs : '[' ∉ s) (ht : '[' ∉ t) (hcb : c ≠ '[') :
    string_to_token (s ++ c :: t) [] = string_to_token s [] ++ string_to_token t [] := by
  have hall : '[' ∉ s ++ c :: t := by
    intro h
    rcases List.mem_append.1 h with h | h
    · exact hs h
    · rcases List.mem_cons.1 h with h | h
      · exact hcb h.symm
      · exact ht h
  rw [string_to_token_no_bracket _ hall, string_to_token_no_bracket _ hs,
    string_to_token_no_bracket _ ht]
  exact tokens_from_separator c hc s t none

/-- Witness for C20: the text `ab,世界x` is split at the comma. -/
theorem string_to_token_separator_witness :
    string_to_token ("ab".toList ++ ',' :: "世界x".toList) []
        = string_to_token "ab".toList [] ++ string_to_token "世界x".toList []
      ∧ string_to_token "ab".toList [] = [Token.English (utf16_text "ab".toList)]
      ∧ string_to_token "世界x".toList []
          = [Token.BiGram (utf16_text "世界".toList), Token.English (utf16_text "x".toList)] :=
  ⟨string_to_token_separator "ab".toList "世界x".toList ',' (by decide) (by decide)
      (by decide) (by decide),
    by decide, by decide⟩

/-! ## Theorems: message assembler -/

theorem table_get_own_insert {ν : Type} (key : List Char) (v : ν) (t : List (List Char × ν))
    (h : key ∉ table_keys t) (k : List Char) :
    table_get k (own_insert key v t) = if k = key then some v else table_get k t := by
  induction t with
  | nil =>
    by_cases hk : k = key
    · subst hk; simp [own_insert, table_get]
    · have hk2 : ¬ key = k := fun e => hk e.symm
      simp [own_insert, table_get, hk, hk2]
  | cons x rest ih =>
    obtain ⟨k0, v0⟩ := x
    have hne : k0 ≠ key := by
      intro e
      apply h
      simp only [table_keys, List.map_cons, List.mem_cons]
      exact Or.inl e.symm
    have hrest : key ∉ table_keys rest := by
      intro e
      apply h
      simp only [table_keys, List.map_cons, List.mem_cons]
      exact Or.inr e
    by_cases hb : enumerated_before key k0 = true
    · by_cases hk : k = key
      · subst hk; simp [own_insert, hb, table_get]
      · have hk2 : ¬ key = k := fun e => hk e.symm
        simp [own_insert, hb, table_get, hk, hk2]
    · simp only [own_insert, hb, Bool.false_eq_true, if_false, table_get, ih hrest]
      by_cases hk : k = key
      · subst hk
        simp [hne]
      · simp [hk]

/-- A property read after a property write. -/
theorem table_get_own_set {ν : Type} (key : List Char) (v : ν) (t : List (List Char × ν))
    (k : List Char) :
    table_get k (own_set key v t) = if k = key then some v else table_get k t := by
  unfold own_set
  by_cases h : key ∈ table_keys t
  · rw [if_pos h]
    by_cases hk : k = key
    · subst hk
      rw [if_pos rfl, table_get_set_same]
    · rw [if_neg hk, table_get_set_other _ _ _ _ hk]
  · rw [if_neg h, table_get_own_insert key v t h k]

theorem mem_table_keys_own_set {ν : Type} (key : List Char) (v : ν)
    (t : List (List Char × ν)) (k : List Char) :
    k ∈ table_keys (own_set key v t) ↔ k = key ∨ k ∈ table_keys t := by
  rw [mem_table_keys, mem_table_keys]
  simp only [table_get_own_set]
  by_cases hk : k = key
  · simp [hk]
  · simp [hk]

theorem table_values_sum_own_insert (key : List Char) (v : Nat) (t : List (List Char × Nat)) :
    (table_values (own_insert key v t)).sum = (table_values t).sum + v := by
  induction t with
  | nil => simp [own_insert, table_values]
  | cons x rest ih =>
    obtain ⟨k0, v0⟩ := x
    unfold table_values at ih ⊢
    by_cases hb : enumerated_before key k0 = true
    · simp [own_insert, hb]
      omega
    · simp [own_insert, hb, ih]
      omega

theorem table_values_sum_set_succ {κ : Type} [DecidableEq κ] (k : κ) (t : List (κ × Nat)) :
    (table_values (table_set k ((table_get k t).getD 0 + 1) t)).sum
      = (table_values t).sum + 1 := by
  induction t with
  | nil => simp [table_set, table_values, table_get]
  | cons x rest ih =>
    obtain ⟨k2, v2⟩ := x
    unfold table_values at ih ⊢
    by_cases h : k2 = k
    · simp [table_set, table_get, h]
      omega
    · simp [table_set, table_get, h, ih]
      omega

/-- Counting one more occurrence of a key adds one to the sum of the counts. -/
theorem table_values_sum_own_set_succ (key : List Char) (t : List (List Char × Nat)) :
    (table_values (own_set key ((table_get key t).getD 0 + 1) t)).sum
      = (table_values t).sum + 1 := by
  unfold own_set
  by_cases h : key ∈ table_keys t
  · rw [if_pos h, table_values_sum_set_succ]
  · rw [if_neg h, table_values_sum_own_insert]
    have : table_get key t = none := by
      cases hg : table_get key t with
      | none => rfl
      | some v => exact absurd ((mem_table_keys key t).2 ⟨v, hg⟩) h
    simp [this]

theorem record_alias_get (aliases : Aliases) (id name : List Char) (id2 : List Char) :
    table_get id2 (record_alias aliases id name)
      = if id2 = id then
          some (own_set name
            ((table_get name ((table_get id aliases).getD [])).getD 0 + 1)
            ((table_get id aliases).getD []))
        else table_get id2 aliases := by
  unfold record_alias
  simp only [table_get_own_set, if_true, Option.getD_some]
  by_cases h : id2 = id <;> simp [h]

theorem record_alias_sum (aliases : Aliases) (id name : List Char) (id2 : List Char) :
    name_count_sum (record_alias aliases id name) id2
      = name_count_sum aliases id2 + (if id2 = id then 1 else 0) := by
  unfold name_count_sum
  rw [record_alias_get]
  by_cases h : id2 = id
  · subst h
    simp only [if_true, Option.getD_some]
    rw [table_values_sum_own_set_succ]
  · simp [h]

theorem record_alias_keys (aliases : Aliases) (id name : List Char) (id2 : List Char) :
    id2 ∈ table_keys (record_alias aliases id name) ↔ id2 = id ∨ id2 ∈ table_keys aliases := by
  rw [mem_table_keys, mem_table_keys, record_alias_get]
  by_cases h : id2 = id <;> simp [h]

theorem push_tokens_ids (ms : List ParsedMessage) (tokens : List Token) :
    (push_tokens ms tokens).map (fun m => m.id) = ms.map (fun m => m.id) := by
  unfold push_tokens
  cases h : ms.getLast? with
  | none => rfl
  | some last =>
    obtain ⟨l, rfl⟩ : ∃ l, ms = l ++ [last] := by
      have hne : ms ≠ [] := by
        intro e
        subst e
        simp at h
      refine ⟨ms.dropLast, ?_⟩
      have h2 := List.getLast?_eq_getLast ms hne
      rw [h2] at h
      rw [← Option.some.inj h]
      exact (List.dropLast_append_getLast hne).symm
    simp

theorem push_tokens_times (ms : List ParsedMessage) (tokens : List Token) :
    (push_tokens ms tokens).map (fun m => m.time) = ms.map (fun m => m.time) := by
  unfold push_tokens
  cases h : ms.getLast? with
  | none => rfl
  | some last =>
    obtain ⟨l, rfl⟩ : ∃ l, ms = l ++ [last] := by
      have hne : ms ≠ [] := by
        intro e
        subst e
        simp at h
      refine ⟨ms.dropLast, ?_⟩
      have h2 := List.getLast?_eq_getLast ms hne
      rw [h2] at h
      rw [← Option.some.inj h]
      exact (List.dropLast_append_getLast hne).symm
    simp

/-- The state of `parse` after some lines, from any state: one message per header line,
in order, and one more occurrence of a name in the registry per header line. -/
theorem parse_fold (dp : List Char → Option Int) (lines : List (List Char)) :
    ∀ st : Aliases × List ParsedMessage,
      (lines.foldl (parse_line dp) st).2.map (fun m => m.id)
          = st.2.map (fun m => m.id) ++ (header_lines lines).map (fun h => id_key h.id)
      ∧ (lines.foldl (parse_line dp) st).2.map (fun m => m.time)
          = st.2.map (fun m => m.time) ++ (header_lines lines).map (fun h => dp h.time)
      ∧ (∀ id, name_count_sum (lines.foldl (parse_line dp) st).1 id
          = name_count_sum st.1 id
            + ((header_lines lines).filter (fun h => decide (id_key h.id = id))).length)
      ∧ (∀ id, id ∈ table_keys (lines.foldl (parse_line dp) st).1
          ↔ id ∈ table_keys st.1 ∨ ∃ h ∈ header_lines lines, id_key h.id = id) := by
  induction lines with
  | nil => intro st; simp [header_lines]
  | cons line rest ih =>
    intro st
    obtain ⟨i1, i2, i3, i4⟩ := ih (parse_line dp st line)
    simp only [List.foldl_cons]
    cases hh : parse_header line with
    | none =>
      have hl : header_lines (line :: rest) = header_lines rest := by
        simp [header_lines, List.filterMap_cons, hh]
      have e1 : (parse_line dp st line).1 = st.1 := by
        unfold parse_line
        rw [hh]
        by_cases h0 : st.2.length = 0 <;> simp [h0]
      have e2 : (parse_line dp st line).2.map (fun m => m.id) = st.2.map (fun m => m.id) := by
        unfold parse_line
        rw [hh]
        by_cases h0 : st.2.length = 0
        · simp [h0]
        · simp only [h0, if_false]
          exact push_tokens_ids _ _
      have e3 : (parse_line dp st line).2.map (fun m => m.time)
          = st.2.map (fun m => m.time) := by
        unfold parse_line
        rw [hh]
        by_cases h0 : st.2.length = 0
        · simp [h0]
        · simp only [h0, if_false]
          exact push_tokens_times _ _
      rw [hl]
      refine ⟨by rw [i1, e2], by rw [i2, e3], ?_, ?_⟩
      · intro id
        rw [i3, e1]
      · intro id
        rw [i4, e1]
    | some header =>
      have hl : header_lines (line :: rest) = header :: header_lines rest := by
        simp [header_lines, List.filterMap_cons, hh]
      have e : parse_line dp st line
          = (record_alias st.1 (id_key header.id) header.name,
              st.2 ++ [{ time := dp header.time, id := id_key header.id, tokens := [] }]) := by
        unfold parse_line
        rw [hh]
      rw [hl]
      refine ⟨by rw [i1, e]; simp, by rw [i2, e]; simp, ?_, ?_⟩
      · intro id
        rw [i3, e]
        simp only [record_alias_sum, List.filter_cons]
        by_cases h : id_key header.id = id
        · subst h
          simp
          omega
        · have h2 : ¬ id = id_key header.id := fun x => h x.symm
          simp [h, h2]
      · intro id
        rw [i4, e]
        simp only [record_alias_keys, List.mem_cons, exists_eq_or_imp]
        constructor
        · rintro ((h | h) | h)
          · exact Or.inr (Or.inl h.symm)
          · exact Or.inl h
          · exact Or.inr (Or.inr h)
        · rintro (h | h | h)
          · exact Or.inl (Or.inr h)
          · exact Or.inl (Or.inl h.symm)
          · exact Or.inr h

theorem parse_lines_skip (dp : List Char → Option Int) (pre rest : List (List Char))
    (h : ∀ l ∈ pre, parse_header l = none) :
    parse_lines dp (pre ++ rest) = parse_lines dp rest := by
  unfold parse_lines
  rw [List.foldl_append]
  have : pre.foldl (parse_line dp) ([], []) = ([], []) := by
    induction pre with
    | nil => rfl
    | cons l ls ih =>
      have hl := h l (List.mem_cons_self _ _)
      have e : parse_line dp ([], []) l = ([], []) := by
        unfold parse_line
        rw [hl]
        rfl
      rw [List.foldl_cons, e]
      exact ih (fun x hx => h x (List.mem_cons_of_mem _ hx))
  rw [this]

theorem filter_id_length (ms : List ParsedMessage) (id : List Char) :
    (ms.filter (fun m => decide (m.id = id))).length
      = ((ms.map (fun m => m.id)).filter (fun x => decide (x = id))).length := by
  induction ms with
  | nil => rfl
  | cons m rest ih =>
    by_cases h : m.id = id <;> simp [List.filter_cons, h, ih]

theorem filter_header_id_length (hs : List Header) (id : List Char) :
    (hs.filter (fun h => decide (id_key h.id = id))).length
      = ((hs.map (fun h => id_key h.id)).filter (fun x => decide (x = id))).length := by
  induction hs with
  | nil => rfl
  | cons m rest ih =>
    by_cases h : id_key m.id = id <;> simp [List.filter_cons, h, ih]

/-- C15: in the result of `parse`, for every identity the occurrence counts of its display
names sum to the number of messages with that id; every message id has a registry
entry; there is one message per header line, in the order of the lines; and lines
before the first header change nothing. -/
theorem parse_registry_counts (date_parse : List Char → Option Int) (text : List Char) :
    (∀ id, name_count_sum (parse date_parse text).1 id
        = ((parse date_parse text).2.filter (fun m => decide (m.id = id))).length)
    ∧ (∀ m ∈ (parse date_parse text).2, m.id ∈ table_keys (parse date_parse text).1)
    ∧ (parse date_parse text).2.length = (header_lines (split_lines text)).length
    ∧ (parse date_parse text).2.map (fun m => m.id)
        = (header_lines (split_lines text)).map (fun h => id_key h.id)
    ∧ (∀ pre rest : List (List Char), (∀ l ∈ pre, parse_header l = none) →
        parse_lines date_parse (pre ++ rest) = parse_lines date_parse rest) := by
  obtain ⟨p1, _, p3, p4⟩ := parse_fold date_parse (split_lines text) ([], [])
  have hids : (parse date_parse text).2.map (fun m => m.id)
      = (header_lines (split_lines text)).map (fun h => id_key h.id) := by
    unfold parse parse_lines
    rw [p1]
    rfl
  refine ⟨?_, ?_, ?_, hids, fun pre rest h => parse_lines_skip date_parse pre rest h⟩
  · intro id
    rw [filter_id_length, hids, ← filter_header_id_length]
    unfold parse parse_lines
    rw [p3]
    simp [name_count_sum, table_get, table_values]
  · intro m hm
    have hmem : m.id ∈ (parse date_parse text).2.map (fun m => m.id) :=
      List.mem_map.2 ⟨m, hm, rfl⟩
    rw [hids] at hmem
    obtain ⟨h, hh, he⟩ := List.mem_map.1 hmem
    unfold parse parse_lines
    rw [p4]
    exact Or.inr ⟨h, hh, he⟩
  · have := congrArg List.length hids
    simpa using this

/-- Witness for C15: the text before the first header of an export is skipped, and the
two headers of the identity 123456 give two messages and two name occurrences. -/
theorem parse_registry_counts_witness :
    parse_lines date_parse_utc
        (["junk".toList] ++ ["2023-05-01 9:03:21 Bob(123456)".toList])
      = parse_lines date_parse_utc ["2023-05-01 9:03:21 Bob(123456)".toList]
    ∧ parse date_parse_utc two_header_text
      = ([("123456".toList, [("Bob".toList, 1), ("Bobby".toList, 1)])],
         [{ time := some 1682931801, id := "123456".toList, tokens := [] },
          { time := some 1682931805, id := "123456".toList, tokens := [] }])
    ∧ name_count_sum (parse date_parse_utc two_header_text).1 "123456".toList = 2 :=
  ⟨(parse_registry_counts date_parse_utc two_header_text).2.2.2.2
      ["junk".toList] ["2023-05-01 9:03:21 Bob(123456)".toList] (by decide),
    by decide, by decide⟩

/-- C16 (counterexample): the header line `2023-13-45 99:99:99 Bob(1)` has the header
shape, its timestamp is no date, and `parse` returns a message for it whose time is
`NaN`. -/
theorem parse_keeps_invalid_time :
    date_parse_utc "2023-13-45 99:99:99".toList = none
      ∧ parse date_parse_utc invalid_date_text
          = ([("1".toList, [("Bob".toList, 1)])],
             [{ time := none, id := "1".toList, tokens := [] }]) := by
  decide

/-- C16 (amended): the messages returned by `parse` carry, in order, the times that
`Date.parse` gives for the timestamps of the header lines, divided by 1000; a header
line whose timestamp `Date.parse` rejects is kept, with the time `NaN`. -/
theorem parse_message_times (date_parse : List Char → Option Int) (text : List Char) :
    (parse date_parse text).2.map (fun m => m.time)
      = (header_lines (split_lines text)).map (fun h => date_parse h.time) := by
  obtain ⟨_, p2, _, _⟩ := parse_fold date_parse (split_lines text) ([], [])
  unfold parse parse_lines
  rw [p2]
  rfl

/-! ## Theorems: representative display names -/

/-- The first entry after the stable sort by descending count is the first entry of
maximal count. -/
theorem head_insertionSort_more_first (names : List (List Char × Nat)) (h : names ≠ []) :
    ∃ n c pre post, (names.insertionSort more_first).head? = some (n, c)
      ∧ names = pre ++ (n, c) :: post ∧ (∀ x ∈ pre, x.2 < c) ∧ (∀ x ∈ post, x.2 ≤ c) := by
  induction names with
  | nil => exact absurd rfl h
  | cons a l ih =>
    by_cases hl : l = []
    · subst hl
      exact ⟨a.1, a.2, [], [], by simp, by simp, by simp, by simp⟩
    · obtain ⟨n, c, pre, post, hhead, hsplit, hpre, hpost⟩ := ih hl
      obtain ⟨tl, htl⟩ : ∃ tl, l.insertionSort more_first = (n, c) :: tl := by
        cases hs : l.insertionSort more_first with
        | nil => rw [hs] at hhead; cases hhead
        | cons x tl =>
          rw [hs] at hhead
          simp only [List.head?_cons, Option.some.injEq] at hhead
          exact ⟨tl, by rw [hhead]⟩
      by_cases hc : c ≤ a.2
      · refine ⟨a.1, a.2, [], l, ?_, by simp, by simp, ?_⟩
        · have hr : more_first a (n, c) := hc
          simp [List.insertionSort, htl, List.orderedInsert, hr]
        · intro x hx
          rw [hsplit] at hx
          rcases List.mem_append.1 hx with hx | hx
          · exact Nat.le_of_lt (Nat.lt_of_lt_of_le (hpre x hx) hc)
          · rcases List.mem_cons.1 hx with hx | hx
            · rw [hx]; exact hc
            · exact Nat.le_trans (hpost x hx) hc
      · refine ⟨n, c, a :: pre, post, ?_, by simp [hsplit], ?_, hpost⟩
        · have hr : ¬ more_first a (n, c) := hc
          simp [List.insertionSort, htl, List.orderedInsert, hr]
        · intro x hx
          rcases List.mem_cons.1 hx with hx | hx
          · rw [hx]; omega
          · exact hpre x hx

theorem representative_entries_get (aliases : Aliases) (h : ∀ e ∈ aliases, e.2 ≠ []) :
    ∃ entries, representative_entries aliases = some entries
      ∧ table_keys entries = table_keys aliases
      ∧ ∀ id names, table_get id aliases = some names →
          ∃ n, table_get id entries = some n ∧ representative names = some n := by
  induction aliases with
  | nil => exact ⟨[], rfl, rfl, by intro id names hx; cases hx⟩
  | cons e rest ih =>
    obtain ⟨entries, he, hk, hg⟩ := ih (fun x hx => h x (List.mem_cons_of_mem _ hx))
    obtain ⟨n, c, pre, post, hhead, _⟩ :=
      head_insertionSort_more_first e.2 (h e (List.mem_cons_self _ _))
    have hrep : representative e.2 = some n := by simp [representative, hhead]
    refine ⟨(e.1, n) :: entries, by simp [representative_entries, hrep, he], ?_, ?_⟩
    · simp only [table_keys, List.map_cons] at hk ⊢
      rw [hk]
    · intro id names hx
      obtain ⟨k, v⟩ := e
      by_cases hid : k = id
      · simp only [table_get, hid, if_true, Option.some.injEq] at hx ⊢
        subst hx
        exact ⟨n, rfl, hrep⟩
      · simp only [table_get, hid, if_false] at hx ⊢
        exact hg id names hx

theorem table_get_append_last {ν : Type} (l : List (List Char × ν)) (e : List Char × ν)
    (id : List Char) (h : e.1 ∉ table_keys l) :
    table_get id (l ++ [e]) = if id = e.1 then some e.2 else table_get id l := by
  induction l with
  | nil =>
    by_cases hid : id = e.1
    · simp [table_get, hid]
    · have h2 : ¬ e.1 = id := fun x => hid x.symm
      simp [table_get, hid, h2]
  | cons x rest ih =>
    obtain ⟨k, v⟩ := x
    have hk : e.1 ≠ k := by
      intro x
      apply h
      simp only [table_keys, List.map_cons, List.mem_cons]
      exact Or.inl x
    have hrest : e.1 ∉ table_keys rest := by
      intro x
      apply h
      simp only [table_keys, List.map_cons, List.mem_cons]
      exact Or.inr x
    by_cases hid : k = id
    · subst hid
      have : ¬ k = e.1 := fun x => hk x.symm
      simp [table_get, this]
    · simp only [List.cons_append, table_get, hid, if_false]
      exact ih hrest

/-- A read of the object built by `Object.fromEntries` from entries with distinct keys. -/
theorem table_get_from_entries (entries : List (List Char × List Char))
    (h : (table_keys entries).Nodup) (id : List Char) :
    table_get id (from_entries entries) = table_get id entries := by
  induction entries using List.reverseRecOn with
  | nil => rfl
  | append_singleton l e ih =>
    have hn : (table_keys l).Nodup ∧ e.1 ∉ table_keys l := by
      simp only [table_keys, List.map_append, List.map_cons, List.map_nil] at h
      rw [List.nodup_append] at h
      refine ⟨h.1, ?_⟩
      intro hx
      exact h.2.2 hx (List.mem_singleton_self _)
    have e1 : from_entries (l ++ [e]) = own_set e.1 e.2 (from_entries l) := by
      simp [from_entries, List.foldl_append]
    rw [e1, table_get_own_set, ih hn.1, table_get_append_last l e id hn.2]

/-- C18 (counterexample): the identity 1 is seen first with the name 9 and then with
the name 1, once each; the registry enumerates the name 1 first and the representative
name is 1, not the first observed name 9. -/
theorem representative_not_first_observed :
    (header_lines (split_lines numeric_names_text)).map (fun h => (id_key h.id, h.name))
        = [("1".toList, "9".toList), ("1".toList, "1".toList)]
      ∧ (parse date_parse_utc numeric_names_text).1
        = [("1".toList, [("1".toList, 1), ("9".toList, 1)])]
      ∧ get_representitive_alias (parse date_parse_utc numeric_names_text).1
        = some [("1".toList, "1".toList)] := by
  decide

/-- C18 (amended): for a registry with distinct keys in which each identity has at least
one display name, `get_representitive_alias` returns, for each identity, a display name
of maximal occurrence count, and among the names tied at the maximal count the first one
in the order of enumeration of the names of the identity. -/
theorem get_representitive_alias_first_max (aliases : Aliases)
    (hnames : ∀ e ∈ aliases, e.2 ≠ []) (hkeys : (table_keys aliases).Nodup) :
    ∃ reps, get_representitive_alias aliases = some reps
      ∧ ∀ id names, table_get id aliases = some names →
          ∃ n c pre post, table_get id reps = some n
            ∧ names = pre ++ (n, c) :: post
            ∧ (∀ x ∈ pre, x.2 < c) ∧ (∀ x ∈ post, x.2 ≤ c) := by
  obtain ⟨entries, he, hk, hg⟩ := representative_entries_get aliases hnames
  refine ⟨from_entries entries, by simp [get_representitive_alias, he], ?_⟩
  intro id names hx
  obtain ⟨n, hn1, hn2⟩ := hg id names hx
  have hne : names ≠ [] := by
    intro e
    subst e
    simp [representative] at hn2
  obtain ⟨n2, c, pre, post, hhead, hsplit, hpre, hpost⟩ :=
    head_insertionSort_more_first names hne
  have hn3 : n2 = n := by
    simp [representative, hhead] at hn2
    exact hn2
  subst hn3
  refine ⟨n2, c, pre, post, ?_, hsplit, hpre, hpost⟩
  rw [table_get_from_entries entries (hk ▸ hkeys), hn1]

/-- Witness for C18: an identity with the names a (once), b (twice) and c (twice) is
represented by b. -/
theorem get_representitive_alias_first_max_witness :
    ∃ reps, get_representitive_alias
        [("7".toList, [("a".toList, 1), ("b".toList, 2), ("c".toList, 2)])] = some reps
      ∧ ∀ id names,
          table_get id [("7".toList, [("a".toList, 1), ("b".toList, 2), ("c".toList, 2)])]
            = some names →
          ∃ n c pre post, table_get id reps = some n
            ∧ names = pre ++ (n, c) :: post
            ∧ (∀ x ∈ pre, x.2 < c) ∧ (∀ x ∈ post, x.2 ≤ c) :=
  get_representitive_alias_first_max
    [("7".toList, [("a".toList, 1), ("b".toList, 2), ("c".toList, 2)])]
    (by decide) (by decide)

/-! ## Theorems: double arithmetic -/

theorem bit_length_loop_spec (fuel : Nat) :
    ∀ n : Nat, n ≤ fuel →
      n < 2 ^ bit_length_loop fuel n ∧ (n ≠ 0 → 2 ^ (bit_length_loop fuel n - 1) ≤ n) := by
  induction fuel with
  | zero =>
    intro n hn
    have : n = 0 := by omega
    subst this
    simp [bit_length_loop]
  | succ fuel ih =>
    intro n hn
    by_cases h0 : n = 0
    · subst h0
      simp [bit_length_loop]
    · simp only [bit_length_loop, h0, if_false, Nat.add_sub_cancel]
      have hle : n / 2 ≤ fuel := by omega
      obtain ⟨i1, i2⟩ := ih (n / 2) hle
      refine ⟨?_, fun _ => ?_⟩
      · rw [pow_succ]
        omega
      · by_cases h2 : n / 2 = 0
        · have hb : bit_length_loop fuel (n / 2) = 0 := by
            rw [h2]
            cases fuel <;> simp [bit_length_loop]
          rw [hb]
          simp
          omega
        · have i3 := i2 h2
          have hpos : 0 < bit_length_loop fuel (n / 2) := by
            by_contra hc
            have : bit_length_loop fuel (n / 2) = 0 := by omega
            rw [this] at i1
            simp at i1
            exact h2 i1
          have e : bit_length_loop fuel (n / 2) = (bit_length_loop fuel (n / 2) - 1) + 1 := by
            omega
          rw [e, pow_succ]
          omega

theorem bit_length_spec (n : Nat) :
    n < 2 ^ bit_length n ∧ (n ≠ 0 → 2 ^ (bit_length n - 1) ≤ n) :=
  bit_length_loop_spec n n (le_refl n)

theorem binade_spec (q : ℚ) (hq : 0 < q) :
    (2 : ℚ) ^ binade q ≤ q ∧ q < (2 : ℚ) ^ (binade q + 1) := by
  have hnum : 0 < q.num := Rat.num_pos.2 hq
  have ha0 : q.num.natAbs ≠ 0 := by
    intro h
    rw [Int.natAbs_eq_zero] at h
    omega
  have hb0 : q.den ≠ 0 := q.den_nz
  obtain ⟨a1, a2⟩ := bit_length_spec q.num.natAbs
  obtain ⟨b1, b2⟩ := bit_length_spec q.den
  have a3 := a2 ha0
  have b3 := b2 hb0
  have hla : 0 < bit_length q.num.natAbs := by
    by_contra hc
    have : bit_length q.num.natAbs = 0 := by omega
    rw [this, pow_zero] at a1
    omega
  have hlb : 0 < bit_length q.den := by
    by_contra hc
    have : bit_length q.den = 0 := by omega
    rw [this, pow_zero] at b1
    omega
  obtain ⟨la, hla2⟩ : ∃ la, bit_length q.num.natAbs = la + 1 := ⟨_, (Nat.succ_pred_eq_of_pos hla).symm⟩
  obtain ⟨lb, hlb2⟩ : ∃ lb, bit_length q.den = lb + 1 := ⟨_, (Nat.succ_pred_eq_of_pos hlb).symm⟩
  rw [hla2] at a1 a3
  rw [hlb2] at b1 b3
  simp only [Nat.add_sub_cancel] at a3 b3
  have hqe : q = (q.num.natAbs : ℚ) / (q.den : ℚ) := by
    have h1 : (q.num.natAbs : ℤ) = q.num := Int.natAbs_of_nonneg (le_of_lt hnum)
    have h2 : ((q.num.natAbs : ℕ) : ℚ) = (q.num : ℚ) := by
      rw [← Int.cast_natCast, h1]
    rw [h2]
    exact (Rat.num_div_den q).symm
  have A1 : ((2 : ℚ)) ^ la ≤ (q.num.natAbs : ℚ) := by exact_mod_cast a3
  have A2 : (q.num.natAbs : ℚ) < (2 : ℚ) ^ (la + 1) := by exact_mod_cast a1
  have B1 : ((2 : ℚ)) ^ lb ≤ (q.den : ℚ) := by exact_mod_cast b3
  have B2 : (q.den : ℚ) < (2 : ℚ) ^ (lb + 1) := by exact_mod_cast b1
  have hB : (0 : ℚ) < (q.den : ℚ) := by
    have : 0 < q.den := q.den_pos
    exact_mod_cast this
  have hk : ((bit_length q.num.natAbs : ℤ) - (bit_length q.den : ℤ)) = (la : ℤ) - (lb : ℤ) := by
    rw [hla2, hlb2]
    push_cast
    ring
  have two_ne : (2 : ℚ) ≠ 0 := by norm_num
  have pk : (2 : ℚ) ^ ((la : ℤ) - (lb : ℤ)) = (2 : ℚ) ^ la / (2 : ℚ) ^ lb := by
    rw [zpow_sub₀ two_ne, zpow_natCast, zpow_natCast]
  have pk1 : (2 : ℚ) ^ ((la : ℤ) - (lb : ℤ) + 1) = (2 : ℚ) ^ (la + 1) / (2 : ℚ) ^ lb := by
    rw [zpow_add_one₀ two_ne, pk, pow_succ]
    ring
  have pkm : (2 : ℚ) ^ ((la : ℤ) - (lb : ℤ) - 1) = (2 : ℚ) ^ la / (2 : ℚ) ^ (lb + 1) := by
    rw [zpow_sub_one₀ two_ne, pk, pow_succ]
    field_simp
  have hpl : (0 : ℚ) < (2 : ℚ) ^ lb := by positivity
  have hpl1 : (0 : ℚ) < (2 : ℚ) ^ (lb + 1) := by positivity
  have upper : q < (2 : ℚ) ^ ((la : ℤ) - (lb : ℤ) + 1) := by
    rw [pk1, hqe, div_lt_div_iff₀ hB hpl]
    calc (q.num.natAbs : ℚ) * (2 : ℚ) ^ lb < (2 : ℚ) ^ (la + 1) * (2 : ℚ) ^ lb :=
          mul_lt_mul_of_pos_right A2 hpl
      _ ≤ (2 : ℚ) ^ (la + 1) * (q.den : ℚ) :=
          mul_le_mul_of_nonneg_left B1 (by positivity)
  have lower : (2 : ℚ) ^ ((la : ℤ) - (lb : ℤ) - 1) ≤ q := by
    rw [pkm]
    conv_rhs => rw [hqe]
    rw [div_le_div_iff₀ hpl1 hB]
    calc (2 : ℚ) ^ la * (q.den : ℚ) ≤ (q.num.natAbs : ℚ) * (q.den : ℚ) :=
          mul_le_mul_of_nonneg_right A1 (le_of_lt hB)
      _ ≤ (q.num.natAbs : ℚ) * (2 : ℚ) ^ (lb + 1) :=
          mul_le_mul_of_nonneg_left (le_of_lt B2) (by positivity)
  unfold binade
  simp only [hk, abs_of_pos hq]
  by_cases ht : (2 : ℚ) ^ ((la : ℤ) - (lb : ℤ)) ≤ q
  · rw [if_pos ht]
    exact ⟨ht, upper⟩
  · rw [if_neg ht]
    refine ⟨lower, ?_⟩
    simp only [sub_add_cancel]
    exact lt_of_not_le ht

theorem round_even_near (x : ℚ) : |(round_even x : ℚ) - x| ≤ 1 / 2 := by
  have h1 : (⌊x⌋ : ℚ) ≤ x := Int.floor_le x
  have h2 : x < (⌊x⌋ : ℚ) + 1 := Int.lt_floor_add_one x
  unfold round_even
  rw [abs_le]
  by_cases c1 : x - ⌊x⌋ < 1 / 2
  · rw [if_pos c1]
    constructor <;> linarith
  · rw [if_neg c1]
    by_cases c2 : 1 / 2 < x - ⌊x⌋
    · rw [if_pos c2]
      push_cast
      constructor <;> linarith
    · rw [if_neg c2]
      have c3 : x - ⌊x⌋ = 1 / 2 := le_antisymm (not_lt.1 c2) (not_lt.1 c1)
      by_cases c4 : ⌊x⌋ % 2 = 0
      · rw [if_pos c4]
        constructor <;> linarith
      · rw [if_neg c4]
        push_cast
        constructor <;> linarith

theorem round_double_zero : round_double 0 = 0 := by
  simp [round_double]

/-- The rounding on known values: the doubles 0.1 and 1/18, the sum 0.1 + 0.2, which is
0.30000000000000004, and the two ties 2^53 + 1 and 2^53 + 3, which go to the even
significands. -/
theorem round_double_values :
    double_div 1 10 = 3602879701896397 / 2 ^ 55
      ∧ double_div 1 18 = 2001599834386887 / 2 ^ 55
      ∧ double_add (double_div 1 10) (double_div 2 10) = 1351079888211149 / 2 ^ 52
      ∧ round_double (2 ^ 53 + 1) = 2 ^ 53
      ∧ round_double (2 ^ 53 + 3) = 2 ^ 53 + 4
      ∧ round_double (-(1 / 3)) = -(6004799503160661 / 2 ^ 54) := by
  decide!

/-- The relative error of a rounding is at most `2^-53`. -/
theorem round_double_near (q : ℚ) (hq : 0 < q) : |round_double q - q| ≤ q / 2 ^ 53 := by
  have hne : q ≠ 0 := ne_of_gt hq
  have hP : (0 : ℚ) < (2 : ℚ) ^ (binade q - 52) := by positivity
  have hb := (binade_spec q hq).1
  have two_ne : (2 : ℚ) ≠ 0 := by norm_num
  have hPe : (2 : ℚ) ^ (binade q - 52) = (2 : ℚ) ^ binade q / 2 ^ 52 := by
    rw [zpow_sub₀ two_ne]
    norm_num
  have hn := round_even_near (q / (2 : ℚ) ^ (binade q - 52))
  have e : round_double q - q
      = ((round_even (q / (2 : ℚ) ^ (binade q - 52)) : ℚ) - q / (2 : ℚ) ^ (binade q - 52))
        * (2 : ℚ) ^ (binade q - 52) := by
    simp only [round_double, hne, if_false]
    field_simp
  rw [e, abs_mul, abs_of_pos hP]
  calc |(round_even (q / (2 : ℚ) ^ (binade q - 52)) : ℚ) - q / (2 : ℚ) ^ (binade q - 52)|
        * (2 : ℚ) ^ (binade q - 52)
      ≤ 1 / 2 * (2 : ℚ) ^ (binade q - 52) := mul_le_mul_of_nonneg_right hn (le_of_lt hP)
    _ = (2 : ℚ) ^ binade q / 2 ^ 53 := by rw [hPe]; ring
    _ ≤ q / 2 ^ 53 := div_le_div_of_nonneg_right hb (by positivity)

theorem round_double_le (q : ℚ) (hq : 0 ≤ q) : round_double q ≤ q * (1 + 1 / 2 ^ 53) := by
  rcases eq_or_lt_of_le hq with h | h
  · rw [← h, round_double_zero]
    simp
  · have := (abs_le.1 (round_double_near q h)).2
    linarith

theorem round_double_ge (q : ℚ) (hq : 0 ≤ q) : q * (1 - 1 / 2 ^ 53) ≤ round_double q := by
  rcases eq_or_lt_of_le hq with h | h
  · rw [← h, round_double_zero]
    simp
  · have := (abs_le.1 (round_double_near q h)).1
    linarith

theorem round_double_nonneg (q : ℚ) (hq : 0 ≤ q) : 0 ≤ round_double q := by
  have h := round_double_ge q hq
  have : (0 : ℚ) ≤ q * (1 - 1 / 2 ^ 53) := mul_nonneg hq (by norm_num)
  linarith

theorem round_double_pos (q : ℚ) (hq : 0 < q) : 0 < round_double q := by
  have h := round_double_ge q (le_of_lt hq)
  have : (0 : ℚ) < q * (1 - 1 / 2 ^ 53) := mul_pos hq (by norm_num)
  linarith

/-! ## Theorems: interaction links -/

/-- The links of the list before normalization: the pairs whose total exceeds 1, with
their total. -/
theorem mem_links_list (links : Links) (l : Link) :
    l ∈ links_list links
      ↔ l.value = link_total links l.source l.target ∧ link_total links l.source l.target > 1 := by
  unfold links_list
  simp only [List.mem_flatMap, List.mem_filterMap]
  constructor
  · rintro ⟨a, _, b, _, hl⟩
    by_cases hv : link_total links a b > 1
    · rw [if_pos hv] at hl
      simp only [Option.some.injEq] at hl
      subst hl
      exact ⟨rfl, hv⟩
    · rw [if_neg hv] at hl
      cases hl
  · rintro ⟨h1, h2⟩
    have hb : ∃ v, table_get l.target ((table_get l.source links).getD []) = some v := by
      cases hg : table_get l.target ((table_get l.source links).getD []) with
      | some v => exact ⟨v, rfl⟩
      | none =>
        simp only [link_total, hg, Option.getD_none] at h2
        exact absurd h2 (by norm_num)
    have ha : ∃ v, table_get l.source links = some v := by
      cases hg : table_get l.source links with
      | some v => exact ⟨v, rfl⟩
      | none =>
        obtain ⟨v, hv⟩ := hb
        rw [hg] at hv
        simp [table_get] at hv
    refine ⟨l.source, (mem_table_keys _ _).2 ha, l.target, (mem_table_keys _ _).2 hb, ?_⟩
    rw [if_pos h2, ← h1]

theorem maximum_spec (values : List ℚ) (h : values ≠ []) :
    ∃ m, maximum values = some m ∧ m ∈ values ∧ ∀ v ∈ values, v ≤ m := by
  induction values with
  | nil => exact absurd rfl h
  | cons v rest ih =>
    by_cases hr : rest = []
    · subst hr
      exact ⟨v, by simp [maximum], by simp, by simp⟩
    · obtain ⟨m, hm1, hm2, hm3⟩ := ih hr
      refine ⟨max v m, by simp [maximum, hm1], ?_, ?_⟩
      · rcases le_total v m with hle | hle
        · rw [max_eq_right hle]
          exact List.mem_cons_of_mem _ hm2
        · rw [max_eq_left hle]
          exact List.mem_cons_self _ _
      · intro x hx
        rcases List.mem_cons.1 hx with rfl | hx
        · exact le_max_left _ _
        · exact le_trans (hm3 x hx) (le_max_right _ _)

theorem table_keys_own_insert_perm {ν : Type} (key : List Char) (v : ν)
    (t : List (List Char × ν)) :
    (table_keys (own_insert key v t)).Perm (key :: table_keys t) := by
  induction t with
  | nil => simp [own_insert, table_keys]
  | cons x rest ih =>
    obtain ⟨k0, v0⟩ := x
    unfold table_keys at ih ⊢
    by_cases hb : enumerated_before key k0 = true
    · simp [own_insert, hb]
    · simp only [own_insert, hb, Bool.false_eq_true, if_false, List.map_cons]
      exact (List.Perm.cons k0 ih).trans (List.Perm.swap key k0 _)

theorem table_keys_own_set_nodup {ν : Type} (key : List Char) (v : ν)
    (t : List (List Char × ν)) (h : (table_keys t).Nodup) :
    (table_keys (own_set key v t)).Nodup := by
  unfold own_set
  by_cases hk : key ∈ table_keys t
  · rw [if_pos hk, table_keys_set]
    exact set_add_nodup _ _ h
  · rw [if_neg hk]
    rw [(table_keys_own_insert_perm key v t).nodup_iff]
    exact List.nodup_cons.2 ⟨hk, h⟩

/-- The table after the loop over the messages `l`, from a table `t`, when every message
replaces the value `v` of its identity by `f v`: the value of an identity is `f` iterated
as many times as the identity has messages. -/
theorem shares_fold (f : ℚ → ℚ) (l : List Message) :
    ∀ t : List (List Char × ℚ),
      (∀ id, (table_get id (l.foldl
            (fun mc m => own_set m.id (f ((table_get m.id mc).getD 0)) mc) t)).getD 0
          = f^[(l.filter (fun m => decide (m.id = id))).length] ((table_get id t).getD 0))
      ∧ (∀ id, id ∈ table_keys (l.foldl
            (fun mc m => own_set m.id (f ((table_get m.id mc).getD 0)) mc) t)
          ↔ id ∈ table_keys t ∨ id ∈ l.map Message.id)
      ∧ ((table_keys t).Nodup → (table_keys (l.foldl
            (fun mc m => own_set m.id (f ((table_get m.id mc).getD 0)) mc) t)).Nodup) := by
  induction l with
  | nil => intro t; simp
  | cons m rest ih =>
    intro t
    obtain ⟨i1, i2, i3⟩ := ih (own_set m.id (f ((table_get m.id t).getD 0)) t)
    simp only [List.foldl_cons]
    refine ⟨?_, ?_, ?_⟩
    · intro id
      rw [i1, table_get_own_set]
      by_cases h : m.id = id
      · subst h
        simp [List.filter_cons]
      · have h2 : ¬ id = m.id := fun e => h e.symm
        simp [List.filter_cons, h, h2]
    · intro id
      rw [i2, mem_table_keys_own_set]
      simp only [List.map_cons, List.mem_cons]
      tauto
    · intro hn
      exact i3 (table_keys_own_set_nodup _ _ _ hn)

/-- The share of an identity in a session: from 0, one addition of the rounded
`1 / session.length` for each of its messages. -/
theorem share_eq (s : List Message) (id : List Char) :
    share s id
      = (fun v => double_add v (double_div 1 (s.length : ℚ)))^[
          (s.filter (fun m => decide (m.id = id))).length] 0 := by
  unfold share session_shares
  rw [(shares_fold (fun v => double_add v (double_div 1 (s.length : ℚ))) s []).1 id]
  simp [table_get]

theorem session_shares_keys (s : List Message) (id : List Char) :
    id ∈ table_keys (session_shares s) ↔ id ∈ s.map Message.id := by
  unfold session_shares
  rw [(shares_fold (fun v => double_add v (double_div 1 (s.length : ℚ))) s []).2.1 id]
  simp [table_keys]

theorem session_shares_nodup (s : List Message) : (table_keys (session_shares s)).Nodup := by
  unfold session_shares
  exact (shares_fold (fun v => double_add v (double_div 1 (s.length : ℚ))) s []).2.2
    (by simp [table_keys])

theorem share_eq_zero (s : List Message) (id : List Char) (h : id ∉ s.map Message.id) :
    share s id = 0 := by
  rw [share_eq]
  have : s.filter (fun m => decide (m.id = id)) = [] := by
    apply List.filter_eq_nil_iff.2
    intro m hm hid
    apply h
    simp only [decide_eq_true_eq] at hid
    exact List.mem_map.2 ⟨m, hm, hid⟩
  rw [this]
  simp

theorem filter_two_ids_length (s : List Message) (a b : List Char) (h : a ≠ b) :
    (s.filter (fun m => decide (m.id = a))).length
      + (s.filter (fun m => decide (m.id = b))).length ≤ s.length := by
  induction s with
  | nil => simp
  | cons m rest ih =>
    by_cases ha : m.id = a
    · subst ha
      have hb : ¬ m.id = b := h
      simp only [List.filter_cons, hb, decide_True, decide_False, if_true, Bool.false_eq_true,
        if_false, List.length_cons]
      omega
    · by_cases hb : m.id = b
      · subst hb
        simp only [List.filter_cons, ha, decide_True, decide_False, if_true,
          Bool.false_eq_true, if_false, List.length_cons]
        omega
      · simp only [List.filter_cons, ha, hb, decide_False, Bool.false_eq_true, if_false,
          List.length_cons]
        omega

theorem bound_step_up (a a1 r U : ℚ) (k : Nat) (hU : 1 ≤ U) (ha1 : a1 ≤ a * U) (hr : 0 ≤ r) :
    (a1 + r) * U ^ k ≤ (a + r) * U ^ (k + 1) := by
  have hUk : 0 ≤ U ^ k := pow_nonneg (by linarith) k
  have h1 : a1 + r ≤ (a + r) * U := by nlinarith
  calc (a1 + r) * U ^ k ≤ ((a + r) * U) * U ^ k := mul_le_mul_of_nonneg_right h1 hUk
    _ = (a + r) * U ^ (k + 1) := by rw [pow_succ]; ring

theorem bound_step_down (a a1 r L : ℚ) (k : Nat) (hL0 : 0 ≤ L) (hL : L ≤ 1) (ha1 : a * L ≤ a1)
    (hr : 0 ≤ r) :
    (a + r) * L ^ (k + 1) ≤ (a1 + r) * L ^ k := by
  have hLk : 0 ≤ L ^ k := pow_nonneg hL0 k
  have h1 : (a + r) * L ≤ a1 + r := by nlinarith
  calc (a + r) * L ^ (k + 1) = ((a + r) * L) * L ^ k := by rw [pow_succ]; ring
    _ ≤ (a1 + r) * L ^ k := mul_le_mul_of_nonneg_right h1 hLk

/-- Repeated rounded addition of `d`, `k` times from `v`: the result is `v + k d` up to
the factors `(1 - 2^-53)^k` and `(1 + 2^-53)^k`. -/
theorem iterate_add_bounds (d : ℚ) (hd : 0 ≤ d) (k : Nat) :
    ∀ v : ℚ, 0 ≤ v →
      (fun x => double_add x d)^[k] v ≤ (v + k * d) * (1 + 1 / 2 ^ 53) ^ k
      ∧ (v + k * d) * (1 - 1 / 2 ^ 53) ^ k ≤ (fun x => double_add x d)^[k] v := by
  induction k with
  | zero => intro v _; simp
  | succ k ih =>
    intro v hv
    have hvd : 0 ≤ v + d := by linarith
    have h0 : 0 ≤ double_add v d := round_double_nonneg _ hvd
    have hu : double_add v d ≤ (v + d) * (1 + 1 / 2 ^ 53) := round_double_le _ hvd
    have hl : (v + d) * (1 - 1 / 2 ^ 53) ≤ double_add v d := round_double_ge _ hvd
    obtain ⟨i1, i2⟩ := ih (double_add v d) h0
    have hkd : (0 : ℚ) ≤ k * d := mul_nonneg (Nat.cast_nonneg k) hd
    rw [Function.iterate_succ_apply]
    have e : v + ((k + 1 : ℕ) : ℚ) * d = (v + d) + k * d := by push_cast; ring
    rw [e]
    constructor
    · exact le_trans i1 (bound_step_up (v + d) _ _ _ k (by norm_num) hu hkd)
    · exact le_trans (bound_step_down (v + d) _ _ _ k (by norm_num) (by norm_num) hl hkd) i2

theorem pow_up_bound (k : Nat) (hk : k ≤ 2 ^ 34) :
    (1 + 1 / 2 ^ 53 : ℚ) ^ k ≤ 1 + 2 * k / 2 ^ 53 := by
  induction k with
  | zero => simp
  | succ k ih =>
    have h1 := ih (by omega)
    have hk2 : (k : ℚ) ≤ 2 ^ 34 := by
      have : k ≤ 2 ^ 34 := by omega
      exact_mod_cast this
    rw [pow_succ]
    push_cast
    have h0 : (0 : ℚ) ≤ k := Nat.cast_nonneg k
    have h2 : (1 + 1 / 2 ^ 53 : ℚ) ^ k * (1 + 1 / 2 ^ 53)
        ≤ (1 + 2 * k / 2 ^ 53) * (1 + 1 / 2 ^ 53) :=
      mul_le_mul_of_nonneg_right h1 (by norm_num)
    refine le_trans h2 ?_
    have h3 : (2 : ℚ) * k / 2 ^ 53 ≤ 1 := by
      rw [div_le_one (by positivity)]
      calc (2 : ℚ) * k ≤ 2 * 2 ^ 34 := by linarith
        _ ≤ 2 ^ 53 := by norm_num
    nlinarith

theorem pow_down_bound (k : Nat) : 1 - (k : ℚ) / 2 ^ 53 ≤ (1 - 1 / 2 ^ 53 : ℚ) ^ k := by
  have h := one_add_mul_le_pow (show (-2 : ℚ) ≤ -(1 / 2 ^ 53) by norm_num) k
  have e1 : (1 : ℚ) + (k : ℚ) * -(1 / 2 ^ 53) = 1 - (k : ℚ) / 2 ^ 53 := by ring
  have e2 : (1 : ℚ) + -(1 / 2 ^ 53) = 1 - 1 / 2 ^ 53 := by ring
  rw [e1, e2] at h
  exact h

theorem double_div_one_bounds (n : Nat) (hn : 0 < n) :
    0 ≤ double_div 1 (n : ℚ)
      ∧ double_div 1 (n : ℚ) ≤ 1 / (n : ℚ) * (1 + 1 / 2 ^ 53)
      ∧ 1 / (n : ℚ) * (1 - 1 / 2 ^ 53) ≤ double_div 1 (n : ℚ) := by
  have h : (0 : ℚ) ≤ 1 / (n : ℚ) := by positivity
  exact ⟨round_double_nonneg _ h, round_double_le _ h, round_double_ge _ h⟩

/-- The share of an identity that has `c` of the `n` messages of a session of less than
2^32 messages is `c / n` up to a relative rounding error of `2^-20`. -/
theorem share_bounds (s : List Message) (id : List Char) (hlen : s.length < 2 ^ 32) :
    ((s.filter (fun m => decide (m.id = id))).length : ℚ) / (s.length : ℚ) * (1 - 1 / 2 ^ 20)
        ≤ share s id
      ∧ share s id
        ≤ ((s.filter (fun m => decide (m.id = id))).length : ℚ) / (s.length : ℚ)
            * (1 + 1 / 2 ^ 20) := by
  by_cases hs : s = []
  · subst hs
    simp [share_eq]
  have hn : 0 < s.length := List.length_pos.2 hs
  have hnq : (0 : ℚ) < (s.length : ℚ) := by exact_mod_cast hn
  obtain ⟨d0, d1, d2⟩ := double_div_one_bounds s.length hn
  have hc : (s.filter (fun m => decide (m.id = id))).length ≤ s.length := List.length_filter_le _ _
  obtain ⟨b1, b2⟩ := iterate_add_bounds (double_div 1 (s.length : ℚ)) d0
    (s.filter (fun m => decide (m.id = id))).length 0 (le_refl 0)
  rw [← share_eq] at b1 b2
  generalize (s.filter (fun m => decide (m.id = id))).length = c at hc b1 b2
  have hcq : (0 : ℚ) ≤ (c : ℚ) := Nat.cast_nonneg c
  have hc2 : (c : ℚ) + 1 ≤ 2 ^ 32 := by
    have : c + 1 ≤ 2 ^ 32 := by omega
    exact_mod_cast this
  have hc34 : c ≤ 2 ^ 34 := by
    have : (2 : ℕ) ^ 32 ≤ 2 ^ 34 := by norm_num
    omega
  have hcn : 0 ≤ (c : ℚ) / (s.length : ℚ) := by positivity
  have pu := pow_up_bound c hc34
  have pd := pow_down_bound c
  have hU : (0 : ℚ) ≤ (1 + 1 / 2 ^ 53 : ℚ) ^ c := by positivity
  have hL : (0 : ℚ) ≤ (1 - 1 / 2 ^ 53 : ℚ) ^ c := pow_nonneg (by norm_num) c
  constructor
  · refine le_trans ?_ b2
    rw [zero_add]
    have s1 : (c : ℚ) * (1 / (s.length : ℚ) * (1 - 1 / 2 ^ 53)) * (1 - 1 / 2 ^ 53 : ℚ) ^ c
        ≤ (c : ℚ) * double_div 1 (s.length : ℚ) * (1 - 1 / 2 ^ 53 : ℚ) ^ c :=
      mul_le_mul_of_nonneg_right (mul_le_mul_of_nonneg_left d2 hcq) hL
    refine le_trans ?_ s1
    have e : (c : ℚ) * (1 / (s.length : ℚ) * (1 - 1 / 2 ^ 53)) * (1 - 1 / 2 ^ 53 : ℚ) ^ c
        = (c : ℚ) / (s.length : ℚ) * ((1 - 1 / 2 ^ 53) * (1 - 1 / 2 ^ 53 : ℚ) ^ c) := by
      ring
    rw [e]
    apply mul_le_mul_of_nonneg_left _ hcn
    have : (1 - (c : ℚ) / 2 ^ 53) * (1 - 1 / 2 ^ 53) ≤ (1 - 1 / 2 ^ 53) * (1 - 1 / 2 ^ 53 : ℚ) ^ c := by
      rw [mul_comm]
      exact mul_le_mul_of_nonneg_left pd (by norm_num)
    refine le_trans ?_ this
    linarith
  · refine le_trans b1 ?_
    rw [zero_add]
    have s1 : (c : ℚ) * double_div 1 (s.length : ℚ) * (1 + 1 / 2 ^ 53 : ℚ) ^ c
        ≤ (c : ℚ) * (1 / (s.length : ℚ) * (1 + 1 / 2 ^ 53)) * (1 + 1 / 2 ^ 53 : ℚ) ^ c :=
      mul_le_mul_of_nonneg_right (mul_le_mul_of_nonneg_left d1 hcq) hU
    refine le_trans s1 ?_
    have e : (c : ℚ) * (1 / (s.length : ℚ) * (1 + 1 / 2 ^ 53)) * (1 + 1 / 2 ^ 53 : ℚ) ^ c
        = (c : ℚ) / (s.length : ℚ) * ((1 + 1 / 2 ^ 53) * (1 + 1 / 2 ^ 53 : ℚ) ^ c) := by
      ring
    rw [e]
    apply mul_le_mul_of_nonneg_left _ hcn
    have : (1 + 1 / 2 ^ 53) * (1 + 1 / 2 ^ 53 : ℚ) ^ c
        ≤ (1 + 1 / 2 ^ 53) * (1 + 2 * (c : ℚ) / 2 ^ 53) :=
      mul_le_mul_of_nonneg_left pu (by norm_num)
    refine le_trans this ?_
    linarith

theorem share_nonneg (s : List Message) (id : List Char) : 0 ≤ share s id := by
  rw [share_eq]
  generalize (s.filter (fun m => decide (m.id = id))).length = c
  induction c with
  | zero => simp
  | succ c ih =>
    rw [Function.iterate_succ_apply']
    apply round_double_nonneg
    have : (0 : ℚ) ≤ (s.length : ℚ) := Nat.cast_nonneg _
    have : 0 ≤ double_div 1 (s.length : ℚ) := round_double_nonneg _ (by positivity)
    linarith

/-- The product of the shares of two distinct identities, in a session of less than 2^32
messages, is at most `1/4 + 2^-20`. -/
theorem contribution_le (s : List Message) (a b : List Char) (h : a ≠ b)
    (hlen : s.length < 2 ^ 32) :
    0 ≤ contribution s a b ∧ contribution s a b ≤ 1 / 4 + 1 / 2 ^ 20 := by
  have ha := (share_bounds s a hlen).2
  have hb := (share_bounds s b hlen).2
  have ha0 := share_nonneg s a
  have hb0 := share_nonneg s b
  have hprod0 : 0 ≤ share s a * share s b := mul_nonneg ha0 hb0
  have hcount := filter_two_ids_length s a b h
  have hx0 : (0 : ℚ) ≤ ((s.filter (fun m => decide (m.id = a))).length : ℚ) / (s.length : ℚ) := by
    positivity
  have hy0 : (0 : ℚ) ≤ ((s.filter (fun m => decide (m.id = b))).length : ℚ) / (s.length : ℚ) := by
    positivity
  have hxy : ((s.filter (fun m => decide (m.id = a))).length : ℚ) / (s.length : ℚ)
      + ((s.filter (fun m => decide (m.id = b))).length : ℚ) / (s.length : ℚ) ≤ 1 := by
    by_cases hs : s = []
    · subst hs
      simp
    · have hlen0 : (0 : ℚ) < (s.length : ℚ) := by
        have : 0 < s.length := List.length_pos.2 hs
        exact_mod_cast this
      have hle : (((s.filter (fun m => decide (m.id = a))).length : ℚ)
          + ((s.filter (fun m => decide (m.id = b))).length : ℚ)) ≤ (s.length : ℚ) := by
        exact_mod_cast hcount
      rw [← add_div, div_le_one hlen0]
      exact hle
  generalize ((s.filter (fun m => decide (m.id = a))).length : ℚ) / (s.length : ℚ) = x
    at ha hx0 hxy
  generalize ((s.filter (fun m => decide (m.id = b))).length : ℚ) / (s.length : ℚ) = y
    at hb hy0 hxy
  have hq : x * y ≤ 1 / 4 := by nlinarith [sq_nonneg (x - y)]
  have h1 : share s a * share s b ≤ (x * (1 + 1 / 2 ^ 20)) * (y * (1 + 1 / 2 ^ 20)) :=
    mul_le_mul ha hb hb0 (le_trans ha0 ha)
  have h2 : (x * (1 + 1 / 2 ^ 20)) * (y * (1 + 1 / 2 ^ 20))
      ≤ 1 / 4 * ((1 + 1 / 2 ^ 20) * (1 + 1 / 2 ^ 20)) := by
    have e : (x * (1 + 1 / 2 ^ 20)) * (y * (1 + 1 / 2 ^ 20))
        = (x * y) * ((1 + 1 / 2 ^ 20) * (1 + 1 / 2 ^ 20)) := by ring
    rw [e]
    exact mul_le_mul_of_nonneg_right hq (by norm_num)
  have h3 : share s a * share s b ≤ 1 / 4 * ((1 + 1 / 2 ^ 20) * (1 + 1 / 2 ^ 20)) :=
    le_trans h1 h2
  unfold contribution double_mul
  refine ⟨round_double_nonneg _ hprod0, ?_⟩
  refine le_trans (round_double_le _ hprod0) ?_
  have h4 : share s a * share s b * (1 + 1 / 2 ^ 53)
      ≤ 1 / 4 * ((1 + 1 / 2 ^ 20) * (1 + 1 / 2 ^ 20)) * (1 + 1 / 2 ^ 53) :=
    mul_le_mul_of_nonneg_right h3 (by norm_num)
  refine le_trans h4 ?_
  norm_num

theorem units_lt_irrefl (x : List Nat) : units_lt x x = false := by
  induction x with
  | nil => rfl
  | cons a rest ih => simp [units_lt, ih]

theorem ne_of_js_lt (a b : List Char) (h : js_lt a b = true) : a ≠ b := by
  rintro rfl
  unfold js_lt at h
  rw [units_lt_irrefl] at h
  cases h

theorem link_total_own_set (links : Links) (a : List Char) (inner : List (List Char × ℚ))
    (a2 b2 : List Char) :
    link_total (own_set a inner links) a2 b2
      = if a2 = a then (table_get b2 inner).getD 0 else link_total links a2 b2 := by
  unfold link_total
  rw [table_get_own_set]
  by_cases h : a2 = a <;> simp [h]

/-- The total of a pair after the statements of lines 220-221 for the pair `(a, b)`. -/
theorem link_total_add_link (s : List Message) (links : Links) (a b a2 b2 : List Char) :
    link_total (add_link s links a b) a2 b2
      = if a2 = a ∧ b2 = b ∧ js_lt a b = true then
          double_add (link_total links a b) (contribution s a b)
        else link_total links a2 b2 := by
  unfold add_link contribution
  by_cases hlt : js_lt a b = true
  · simp only [hlt, if_true]
    rw [link_total_own_set, table_get_own_set]
    simp only [if_true, Option.getD_some, table_get_own_set]
    by_cases ha : a2 = a
    · subst ha
      by_cases hb : b2 = b
      · subst hb
        simp [link_total_own_set, link_total, table_get_own_set]
      · simp [hb, link_total]
    · simp [ha, link_total_own_set]
  · simp [hlt]

theorem link_total_fold_targets (s : List Message) (a : List Char) (bs : List (List Char))
    (a2 b2 : List Char) (hbs : bs.Nodup) :
    ∀ links : Links,
      link_total (bs.foldl (fun l b => add_link s l a b) links) a2 b2
        = if a2 = a ∧ b2 ∈ bs ∧ js_lt a b2 = true then
            double_add (link_total links a b2) (contribution s a b2)
          else link_total links a2 b2 := by
  induction bs with
  | nil => intro links; simp
  | cons b rest ih =>
    intro links
    have hn := List.nodup_cons.1 hbs
    simp only [List.foldl_cons]
    rw [ih hn.2, link_total_add_link, link_total_add_link]
    by_cases ha : a2 = a
    · subst ha
      by_cases hb : b2 = b
      · subst hb
        have : b2 ∉ rest := hn.1
        simp [this]
      · by_cases hr : b2 ∈ rest
        · simp [hb, hr]
        · simp [hb, hr]
    · simp [ha]

theorem link_total_fold_sources (s : List Message) (as bs : List (List Char))
    (a2 b2 : List Char) (has : as.Nodup) (hbs : bs.Nodup) :
    ∀ links : Links,
      link_total (as.foldl (fun l1 a => bs.foldl (fun l b => add_link s l a b) l1) links) a2 b2
        = if a2 ∈ as ∧ b2 ∈ bs ∧ js_lt a2 b2 = true then
            double_add (link_total links a2 b2) (contribution s a2 b2)
          else link_total links a2 b2 := by
  induction as with
  | nil => intro links; simp
  | cons a rest ih =>
    intro links
    have hn := List.nodup_cons.1 has
    simp only [List.foldl_cons]
    rw [ih hn.2, link_total_fold_targets s a bs a2 b2 hbs]
    by_cases ha : a2 = a
    · subst ha
      have : a2 ∉ rest := hn.1
      simp [this]
    · by_cases hr : a2 ∈ rest
      · simp [ha, hr]
      · simp [ha, hr]

/-- A session in which `a` and `b` both have messages, with `a < b`, adds the product of
their shares to the total of the pair, in a rounded addition; another session leaves the
total as it is. -/
theorem link_total_add_session (links : Links) (s : List Message) (a b : List Char) :
    link_total (add_session_links links s) a b
      = if both_in a b s = true ∧ js_lt a b = true then
          double_add (link_total links a b) (contribution s a b)
        else link_total links a b := by
  unfold add_session_links
  rw [link_total_fold_sources s _ _ a b (session_shares_nodup s) (session_shares_nodup s)]
  simp only [session_shares_keys, both_in, Bool.and_eq_true, decide_eq_true_eq, and_assoc]

/-- The total of a pair after the sessions: at most `k (1/4 + 2^-20) (1 + 2^-53)^k` more
than before, `k` the number of sessions in which both identities have messages. -/
theorem link_total_sessions_le (a b : List Char) (sessions : List (List Message))
    (hlen : ∀ s ∈ sessions, s.length < 2 ^ 32) :
    ∀ links : Links, 0 ≤ link_total links a b →
      0 ≤ link_total (sessions.foldl add_session_links links) a b
      ∧ link_total (sessions.foldl add_session_links links) a b
          ≤ (link_total links a b
              + ((sessions.filter (both_in a b)).length : ℚ) * (1 / 4 + 1 / 2 ^ 20))
            * (1 + 1 / 2 ^ 53) ^ (sessions.filter (both_in a b)).length := by
  induction sessions with
  | nil => intro links h0; simpa using h0
  | cons s rest ih =>
    intro links h0
    have ih2 := ih (fun x hx => hlen x (List.mem_cons_of_mem _ hx))
    have hs := hlen s (List.mem_cons_self _ _)
    simp only [List.foldl_cons]
    have hk0 : (0 : ℚ) ≤ ((rest.filter (both_in a b)).length : ℚ) * (1 / 4 + 1 / 2 ^ 20) := by
      positivity
    by_cases hboth : both_in a b s = true
    · simp only [List.filter_cons, hboth, if_true, List.length_cons]
      have e : (((rest.filter (both_in a b)).length + 1 : ℕ) : ℚ) * (1 / 4 + 1 / 2 ^ 20)
          = (1 / 4 + 1 / 2 ^ 20)
            + ((rest.filter (both_in a b)).length : ℚ) * (1 / 4 + 1 / 2 ^ 20) := by
        push_cast
        ring
      rw [e, ← add_assoc]
      by_cases hlt : js_lt a b = true
      · have hc := contribution_le s a b (ne_of_js_lt a b hlt) hs
        have hsum0 : 0 ≤ link_total links a b + contribution s a b := by linarith [hc.1]
        have h1 : link_total (add_session_links links s) a b
            = double_add (link_total links a b) (contribution s a b) := by
          rw [link_total_add_session]
          simp [hboth, hlt]
        have h10 : 0 ≤ link_total (add_session_links links s) a b := by
          rw [h1]
          exact round_double_nonneg _ hsum0
        have h1le : link_total (add_session_links links s) a b
            ≤ (link_total links a b + (1 / 4 + 1 / 2 ^ 20)) * (1 + 1 / 2 ^ 53) := by
          rw [h1]
          refine le_trans (round_double_le _ hsum0) ?_
          apply mul_le_mul_of_nonneg_right _ (by norm_num)
          linarith [hc.2]
        obtain ⟨i1, i2⟩ := ih2 (add_session_links links s) h10
        exact ⟨i1, le_trans i2 (bound_step_up _ _ _ _ _ (by norm_num) h1le hk0)⟩
      · have h1 : link_total (add_session_links links s) a b = link_total links a b := by
          rw [link_total_add_session]
          simp [hlt]
        obtain ⟨i1, i2⟩ := ih2 (add_session_links links s) (by rw [h1]; exact h0)
        rw [h1] at i2
        refine ⟨i1, le_trans i2 (bound_step_up _ _ _ _ _ (by norm_num) ?_ hk0)⟩
        have : (0 : ℚ) ≤ link_total links a b + (1 / 4 + 1 / 2 ^ 20) := by
          have : (0 : ℚ) ≤ 1 / 4 + 1 / 2 ^ 20 := by norm_num
          linarith
        nlinarith
    · have h1 : link_total (add_session_links links s) a b = link_total links a b := by
        rw [link_total_add_session]
        simp [hboth]
      obtain ⟨i1, i2⟩ := ih2 (add_session_links links s) (by rw [h1]; exact h0)
      rw [h1] at i2
      simp only [List.filter_cons, hboth, Bool.false_eq_true, if_false]
      exact ⟨i1, i2⟩

theorem detect_session_nonempty (messages : List Message) (gap_limit : Int)
    (sessions : List (List Message)) (h : detect_session messages gap_limit = some sessions) :
    ∀ s ∈ sessions, s ≠ [] := by
  cases messages with
  | nil =>
    simp [detect_session, detect_session_loop] at h
    subst h
    simp
  | cons m rest =>
    rw [detect_session_cons] at h
    by_cases hg : gap_exceeded m.time (some 0) gap_limit = true
    · rw [if_pos hg] at h
      simp only [Option.some.injEq] at h
      subst h
      intro s hs
      simp only [List.mem_cons] at hs
      rcases hs with hs | hs
      · simp [hs]
      · exact session_runs_nonempty gap_limit rest m.time s hs
    · rw [if_neg hg] at h
      cases h

theorem detect_session_flatten (messages : List Message) (gap_limit : Int)
    (sessions : List (List Message)) (h : detect_session messages gap_limit = some sessions) :
    sessions.flatten = messages := by
  cases messages with
  | nil =>
    simp [detect_session, detect_session_loop] at h
    subst h
    simp
  | cons m rest =>
    rw [detect_session_cons] at h
    by_cases hg : gap_exceeded m.time (some 0) gap_limit = true
    · rw [if_pos hg] at h
      simp only [Option.some.injEq] at h
      subst h
      simpa using session_runs_flatten gap_limit rest m.time
    · rw [if_neg hg] at h
      cases h

theorem length_le_of_mem_flatten {α : Type} (ls : List (List α)) (l : List α) (h : l ∈ ls) :
    l.length ≤ ls.flatten.length := by
  induction ls with
  | nil => cases h
  | cons x rest ih =>
    simp only [List.flatten_cons, List.length_append]
    rcases List.mem_cons.1 h with e | e
    · subst e
      omega
    · have := ih e
      omega

theorem detect_session_length_le (messages : List Message) (gap_limit : Int)
    (sessions : List (List Message)) (h : detect_session messages gap_limit = some sessions) :
    ∀ s ∈ sessions, s.length ≤ messages.length := by
  intro s hs
  have := length_le_of_mem_flatten sessions s hs
  rw [detect_session_flatten messages gap_limit sessions h] at this
  exact this

theorem table_values_sum_own_set (key : List Char) (w : ℚ) (t : List (List Char × ℚ)) :
    (table_values (own_set key w t)).sum
      = (table_values t).sum - (table_get key t).getD 0 + w := by
  unfold own_set
  by_cases h : key ∈ table_keys t
  · rw [if_pos h]
    clear h
    induction t with
    | nil => simp [table_set, table_values, table_get]
    | cons x rest ih =>
      obtain ⟨k2, v2⟩ := x
      unfold table_values at ih ⊢
      by_cases hk : k2 = key
      · simp [table_set, table_get, hk]
        ring
      · simp [table_set, table_get, hk, ih]
        ring
  · rw [if_neg h]
    have hnone : table_get key t = none := by
      cases hg : table_get key t with
      | none => rfl
      | some v => exact absurd ((mem_table_keys key t).2 ⟨v, hg⟩) h
    rw [hnone]
    clear h hnone
    induction t with
    | nil => simp [own_insert, table_values]
    | cons x rest ih =>
      obtain ⟨k0, v0⟩ := x
      unfold table_values at ih ⊢
      by_cases hb : enumerated_before key k0 = true
      · simp [own_insert, hb]
        ring
      · simp [own_insert, hb] at ih ⊢
        rw [ih]
        ring

theorem table_values_own_set_mem (key : List Char) (w : ℚ) (t : List (List Char × ℚ)) :
    ∀ x ∈ table_values (own_set key w t), x = w ∨ x ∈ table_values t := by
  unfold own_set
  by_cases h : key ∈ table_keys t
  · rw [if_pos h]
    clear h
    induction t with
    | nil => intro x hx; simp [table_set, table_values] at hx; exact Or.inl hx
    | cons e rest ih =>
      obtain ⟨k2, v2⟩ := e
      unfold table_values at ih ⊢
      intro x hx
      by_cases hk : k2 = key
      · simp [table_set, hk] at hx ⊢
        rcases hx with hx | ⟨a, hx⟩
        · exact Or.inl hx
        · exact Or.inr (Or.inr ⟨a, hx⟩)
      · simp [table_set, hk] at hx ⊢
        rcases hx with hx | ⟨a, hx⟩
        · exact Or.inr (Or.inl hx)
        · have := ih x (by simpa using ⟨a, hx⟩)
          rcases this with h1 | h1
          · exact Or.inl h1
          · simp at h1
            exact Or.inr (Or.inr h1)
  · rw [if_neg h]
    clear h
    induction t with
    | nil => intro x hx; simp [own_insert, table_values] at hx; exact Or.inl hx
    | cons e rest ih =>
      obtain ⟨k0, v0⟩ := e
      unfold table_values at ih ⊢
      intro x hx
      by_cases hb : enumerated_before key k0 = true
      · simp [own_insert, hb] at hx ⊢
        rcases hx with hx | hx | ⟨a, hx⟩
        · exact Or.inl hx
        · exact Or.inr (Or.inl hx)
        · exact Or.inr (Or.inr ⟨a, hx⟩)
      · simp [own_insert, hb] at hx ⊢
        rcases hx with hx | ⟨a, hx⟩
        · exact Or.inr (Or.inl hx)
        · have := ih x (by simpa using ⟨a, hx⟩)
          rcases this with h1 | h1
          · exact Or.inl h1
          · simp at h1
            exact Or.inr (Or.inr h1)

theorem table_get_le_sum (key : List Char) (t : List (List Char × ℚ))
    (h : ∀ x ∈ table_values t, 0 ≤ x) :
    0 ≤ (table_get key t).getD 0 ∧ (table_get key t).getD 0 ≤ (table_values t).sum
      ∧ 0 ≤ (table_values t).sum := by
  induction t with
  | nil => simp [table_get, table_values]
  | cons e rest ih =>
    obtain ⟨k, v⟩ := e
    unfold table_values at h ih ⊢
    have hv : 0 ≤ v := h v (by simp)
    obtain ⟨i1, i2, i3⟩ := ih (fun x hx => h x (by simp at hx ⊢; exact Or.inr hx))
    by_cases hk : k = key
    · simp only [table_get, hk, if_true, Option.getD_some, List.map_cons, List.sum_cons]
      refine ⟨hv, ?_, ?_⟩ <;> linarith
    · simp only [table_get, hk, if_false, List.map_cons, List.sum_cons]
      refine ⟨i1, ?_, ?_⟩ <;> linarith

/-- The sum of the shares after the messages `l`, from a table `t` with the sum `S`: it is
`S + |l| d` up to the factors `(1 - 2^-53)^|l|` and `(1 + 2^-53)^|l|`. -/
theorem shares_fold_sum (d : ℚ) (hd : 0 ≤ d) (l : List Message) :
    ∀ t : List (List Char × ℚ), (∀ x ∈ table_values t, 0 ≤ x) →
      (table_values (l.foldl
          (fun mc m => own_set m.id (double_add ((table_get m.id mc).getD 0) d) mc) t)).sum
        ≤ ((table_values t).sum + (l.length : ℚ) * d) * (1 + 1 / 2 ^ 53) ^ l.length
      ∧ ((table_values t).sum + (l.length : ℚ) * d) * (1 - 1 / 2 ^ 53) ^ l.length
        ≤ (table_values (l.foldl
          (fun mc m => own_set m.id (double_add ((table_get m.id mc).getD 0) d) mc) t)).sum := by
  induction l with
  | nil => intro t _; simp
  | cons m rest ih =>
    intro t ht
    obtain ⟨g0, g1, g2⟩ := table_get_le_sum m.id t ht
    have hvd : 0 ≤ (table_get m.id t).getD 0 + d := by linarith
    have hw0 : 0 ≤ double_add ((table_get m.id t).getD 0) d := round_double_nonneg _ hvd
    have hwu : double_add ((table_get m.id t).getD 0) d
        ≤ ((table_get m.id t).getD 0 + d) * (1 + 1 / 2 ^ 53) := round_double_le _ hvd
    have hwl : ((table_get m.id t).getD 0 + d) * (1 - 1 / 2 ^ 53)
        ≤ double_add ((table_get m.id t).getD 0) d := round_double_ge _ hvd
    have ht1 : ∀ x ∈ table_values
        (own_set m.id (double_add ((table_get m.id t).getD 0) d) t), 0 ≤ x := by
      intro x hx
      rcases table_values_own_set_mem _ _ _ x hx with h | h
      · rw [h]; exact hw0
      · exact ht x h
    obtain ⟨i1, i2⟩ := ih _ ht1
    have hsum := table_values_sum_own_set m.id
      (double_add ((table_get m.id t).getD 0) d) t
    have hrd : (0 : ℚ) ≤ (rest.length : ℚ) * d := mul_nonneg (Nat.cast_nonneg _) hd
    simp only [List.foldl_cons, List.length_cons]
    have e : (table_values t).sum + ((rest.length + 1 : ℕ) : ℚ) * d
        = ((table_values t).sum + d) + (rest.length : ℚ) * d := by push_cast; ring
    rw [e]
    constructor
    · refine le_trans i1 (bound_step_up ((table_values t).sum + d) _ _ _ _ (by norm_num) ?_ hrd)
      rw [hsum]
      nlinarith
    · refine le_trans
        (bound_step_down ((table_values t).sum + d) _ _ _ _ (by norm_num) (by norm_num) ?_ hrd) i2
      rw [hsum]
      nlinarith

/-- The shares of the identities of a session of at least one and less than 2^32 messages
sum to 1 up to a rounding error of `2^-20`. -/
theorem session_shares_sum (s : List Message) (h : s ≠ []) (hlen : s.length < 2 ^ 32) :
    |(table_values (session_shares s)).sum - 1| ≤ 1 / 2 ^ 20 := by
  have hn : 0 < s.length := List.length_pos.2 h
  have hnq : (0 : ℚ) < (s.length : ℚ) := by exact_mod_cast hn
  obtain ⟨d0, d1, d2⟩ := double_div_one_bounds s.length hn
  obtain ⟨b1, b2⟩ := shares_fold_sum (double_div 1 (s.length : ℚ)) d0 s []
    (by simp [table_values])
  have e0 : (table_values ([] : List (List Char × ℚ))).sum = 0 := by simp [table_values]
  rw [e0, zero_add] at b1 b2
  have hfold : (table_values (s.foldl
      (fun mc m => own_set m.id
        (double_add ((table_get m.id mc).getD 0) (double_div 1 (s.length : ℚ))) mc) [])).sum
      = (table_values (session_shares s)).sum := rfl
  rw [hfold] at b1 b2
  have hc34 : s.length ≤ 2 ^ 34 := by
    have : (2 : ℕ) ^ 32 ≤ 2 ^ 34 := by norm_num
    omega
  have hc2 : (s.length : ℚ) + 1 ≤ 2 ^ 32 := by
    have : s.length + 1 ≤ 2 ^ 32 := by omega
    exact_mod_cast this
  have pu := pow_up_bound s.length hc34
  have pd := pow_down_bound s.length
  have hU : (0 : ℚ) ≤ (1 + 1 / 2 ^ 53 : ℚ) ^ s.length := by positivity
  have hL : (0 : ℚ) ≤ (1 - 1 / 2 ^ 53 : ℚ) ^ s.length := pow_nonneg (by norm_num) _
  have nd1 : (s.length : ℚ) * double_div 1 (s.length : ℚ) ≤ 1 + 1 / 2 ^ 53 := by
    have := mul_le_mul_of_nonneg_left d1 (le_of_lt hnq)
    have e : (s.length : ℚ) * (1 / (s.length : ℚ) * (1 + 1 / 2 ^ 53)) = 1 + 1 / 2 ^ 53 := by
      field_simp
      ring
    rw [e] at this
    exact this
  have nd2 : 1 - 1 / 2 ^ 53 ≤ (s.length : ℚ) * double_div 1 (s.length : ℚ) := by
    have := mul_le_mul_of_nonneg_left d2 (le_of_lt hnq)
    have e : (s.length : ℚ) * (1 / (s.length : ℚ) * (1 - 1 / 2 ^ 53)) = 1 - 1 / 2 ^ 53 := by
      field_simp
      ring
    rw [e] at this
    exact this
  rw [abs_le]
  constructor
  · have s1 : (1 - 1 / 2 ^ 53) * (1 - (s.length : ℚ) / 2 ^ 53)
        ≤ (s.length : ℚ) * double_div 1 (s.length : ℚ) * (1 - 1 / 2 ^ 53 : ℚ) ^ s.length :=
      mul_le_mul nd2 pd (by
        have : (s.length : ℚ) / 2 ^ 53 ≤ 1 := by
          rw [div_le_one (by positivity)]
          have : (2 : ℚ) ^ 32 ≤ 2 ^ 53 := by norm_num
          linarith
        linarith) (le_trans (by norm_num) nd2)
    have s2 := le_trans s1 b2
    have : -(1 / 2 ^ 20 : ℚ) + 1 ≤ (1 - 1 / 2 ^ 53) * (1 - (s.length : ℚ) / 2 ^ 53) := by
      nlinarith
    linarith
  · have s1 : (s.length : ℚ) * double_div 1 (s.length : ℚ) * (1 + 1 / 2 ^ 53 : ℚ) ^ s.length
        ≤ (1 + 1 / 2 ^ 53) * (1 + 2 * (s.length : ℚ) / 2 ^ 53) :=
      mul_le_mul nd1 pu hU (by norm_num)
    have s2 := le_trans b1 s1
    have : (1 + 1 / 2 ^ 53) * (1 + 2 * (s.length : ℚ) / 2 ^ 53) ≤ 1 + (1 / 2 ^ 20 : ℚ) := by
      linarith
    linarith

theorem round_even_le (x : ℚ) (n : Int) (h : x ≤ (n : ℚ)) : round_even x ≤ n := by
  have h1 : (⌊x⌋ : ℚ) ≤ x := Int.floor_le x
  have hf : ⌊x⌋ ≤ n := by
    have : (⌊x⌋ : ℚ) ≤ (n : ℚ) := le_trans h1 h
    exact_mod_cast this
  unfold round_even
  by_cases c1 : x - ⌊x⌋ < 1 / 2
  · rw [if_pos c1]
    exact hf
  · have hlt : ⌊x⌋ < n := by
      rcases lt_or_eq_of_le hf with h2 | h2
      · exact h2
      · exfalso
        apply c1
        have : x ≤ (⌊x⌋ : ℚ) := by rw [h2]; exact h
        linarith
    rw [if_neg c1]
    split_ifs <;> omega

theorem round_double_one : round_double 1 = 1 := by
  decide!

/-- A rounding does not leave the binade upwards: it is at most `2^(e+1)`. -/
theorem round_double_le_binade (q : ℚ) (hq : 0 < q) :
    round_double q ≤ (2 : ℚ) ^ (binade q + 1) := by
  have hne : q ≠ 0 := ne_of_gt hq
  have hP : (0 : ℚ) < (2 : ℚ) ^ (binade q - 52) := by positivity
  have hb := (binade_spec q hq).2
  have two_ne : (2 : ℚ) ≠ 0 := by norm_num
  have hPe : (2 : ℚ) ^ (binade q + 1) = 2 ^ 53 * (2 : ℚ) ^ (binade q - 52) := by
    have : binade q + 1 = 53 + (binade q - 52) := by ring
    rw [this, zpow_add₀ two_ne]
    norm_num
  have hs : q / (2 : ℚ) ^ (binade q - 52) ≤ ((2 ^ 53 : Int) : ℚ) := by
    rw [div_le_iff₀ hP]
    have e : ((2 ^ 53 : Int) : ℚ) = 2 ^ 53 := by norm_num
    rw [e, ← hPe]
    exact le_of_lt hb
  have hn := round_even_le _ _ hs
  have hn2 : (round_even (q / (2 : ℚ) ^ (binade q - 52)) : ℚ) ≤ 2 ^ 53 := by
    exact_mod_cast hn
  simp only [round_double, hne, if_false]
  rw [hPe]
  exact mul_le_mul_of_nonneg_right hn2 (le_of_lt hP)

theorem round_double_le_one (q : ℚ) (hq : 0 < q) (h1 : q ≤ 1) : round_double q ≤ 1 := by
  rcases eq_or_lt_of_le h1 with h | h
  · rw [h, round_double_one]
  · refine le_trans (round_double_le_binade q hq) ?_
    have hb := (binade_spec q hq).1
    have hlt : (2 : ℚ) ^ binade q < (2 : ℚ) ^ (0 : ℤ) := by
      rw [zpow_zero]
      exact lt_of_le_of_lt hb h
    have : binade q < 0 := (zpow_lt_zpow_iff_right₀ (by norm_num : (1 : ℚ) < 2)).1 hlt
    have h2 : binade q + 1 ≤ 0 := by omega
    calc (2 : ℚ) ^ (binade q + 1) ≤ (2 : ℚ) ^ (0 : ℤ) :=
          zpow_le_zpow_right₀ (by norm_num) h2
      _ = 1 := zpow_zero _

/-- The normalization of a list of links with positive values: the sources and targets
stay, the values are in (0, 1] and one of them is 1. -/
theorem normalize_links_spec (list : List Link) (hpos : ∀ l ∈ list, 0 < l.value) :
    (normalize_links list).map (fun l => (l.source, l.target))
        = list.map (fun l => (l.source, l.target))
    ∧ (∀ l ∈ normalize_links list, 0 < l.value ∧ l.value ≤ 1)
    ∧ (list ≠ [] → ∃ l ∈ normalize_links list, l.value = 1) := by
  refine ⟨by simp [normalize_links], ?_, ?_⟩
  · intro l hl
    unfold normalize_links at hl
    obtain ⟨x, hx, rfl⟩ := List.mem_map.1 hl
    have hne : list.map (fun l => l.value) ≠ [] := by
      intro e
      rw [List.map_eq_nil_iff] at e
      rw [e] at hx
      cases hx
    obtain ⟨m, hm1, hm2, hm3⟩ := maximum_spec _ hne
    have hxv : x.value ≤ m := hm3 _ (List.mem_map.2 ⟨x, hx, rfl⟩)
    have hx0 := hpos x hx
    have hm0 : 0 < m := lt_of_lt_of_le hx0 hxv
    simp only [hm1, divide_by_maximum, double_div]
    exact ⟨round_double_pos _ (div_pos hx0 hm0),
      round_double_le_one _ (div_pos hx0 hm0) ((div_le_one hm0).2 hxv)⟩
  · intro hne0
    have hne : list.map (fun l => l.value) ≠ [] := by
      intro e
      rw [List.map_eq_nil_iff] at e
      exact hne0 e
    obtain ⟨m, hm1, hm2, hm3⟩ := maximum_spec _ hne
    obtain ⟨x, hx, hxm⟩ := List.mem_map.1 hm2
    have hm0 : 0 < m := by
      rw [← hxm]
      exact hpos x hx
    refine ⟨{ x with value := divide_by_maximum x.value (maximum (list.map fun l => l.value)) },
      ?_, ?_⟩
    · unfold normalize_links
      exact List.mem_map.2 ⟨x, hx, rfl⟩
    · simp only [hm1, divide_by_maximum, double_div]
      rw [hxm, div_self (ne_of_gt hm0), round_double_one]

/-- When `detect_session` returns for both gaps, so that the totals are computed, the graph
links are the normalized list, and: exactly the pairs whose total exceeds 1 are emitted; if
some total exceeds 1, every emitted value is in (0, 1] and a value 1 is emitted; if no total
exceeds 1, the list of links is empty. -/
theorem graph_links_normalized (messages : List Message) (links : Links)
    (h : accumulate_links messages = some links) :
    graph_links messages = some (normalize_links (links_list links))
    ∧ (∀ a b, (∃ l ∈ normalize_links (links_list links), l.source = a ∧ l.target = b)
        ↔ link_total links a b > 1)
    ∧ ((∃ a b, link_total links a b > 1) →
        (∀ l ∈ normalize_links (links_list links), 0 < l.value ∧ l.value ≤ 1)
          ∧ ∃ l ∈ normalize_links (links_list links), l.value = 1)
    ∧ ((¬ ∃ a b, link_total links a b > 1) → normalize_links (links_list links) = []) := by
  have hpos : ∀ l ∈ links_list links, 0 < l.value := by
    intro l hl
    obtain ⟨h1, h2⟩ := (mem_links_list links l).1 hl
    rw [h1]
    exact lt_trans (by norm_num) h2
  obtain ⟨n1, n2, n3⟩ := normalize_links_spec (links_list links) hpos
  have hpairs : ∀ a b, (∃ l ∈ normalize_links (links_list links), l.source = a ∧ l.target = b)
      ↔ link_total links a b > 1 := by
    intro a b
    have e : (∃ l ∈ normalize_links (links_list links), l.source = a ∧ l.target = b)
        ↔ (a, b) ∈ (normalize_links (links_list links)).map (fun l => (l.source, l.target)) := by
      simp only [List.mem_map, Prod.mk.injEq]
    rw [e, n1]
    simp only [List.mem_map, Prod.mk.injEq]
    constructor
    · rintro ⟨l, hl, rfl, rfl⟩
      exact ((mem_links_list links l).1 hl).2
    · intro hv
      exact ⟨{ source := a, target := b, value := link_total links a b },
        (mem_links_list links _).2 ⟨rfl, hv⟩, rfl, rfl⟩
  refine ⟨by simp [graph_links, h], hpairs, ?_, ?_⟩
  · rintro ⟨a, b, hv⟩
    refine ⟨n2, n3 ?_⟩
    intro e
    have := (mem_links_list links { source := a, target := b, value := link_total links a b }).2
      ⟨rfl, hv⟩
    rw [e] at this
    cases this
  · intro hno
    have hnil : links_list links = [] := by
      apply List.eq_nil_iff_forall_not_mem.2
      intro l hl
      exact hno ⟨l.source, l.target, ((mem_links_list links l).1 hl).2⟩
    rw [hnil]
    rfl

/-- C17 (evaluation at the failing input): for the single message sent at time 0 no pair
has a total, and `show_interation` gives no link list, empty or not: `detect_session`
opens no session for the message (0 - 0 > 30 is false) and throws on
`sessions[-1].push`. The same message sent at time 10000 gives the empty link list. -/
theorem graph_links_first_time_zero_throws :
    graph_links [message_of_at ['A'] 0] = none
      ∧ detect_session [message_of_at ['A'] 0] 30 = none
      ∧ graph_links [message_of_at ['A'] 10000] = some [] := by
  decide!

/-- C19 (counterexample): in the two conversations of eighteen messages, nine of A and
nine of B, the share of A is nine rounded additions of the rounded 1/18, which is
`1/2 + 2^-53`; the shares sum to `1 + 2^-52`, the product of the shares of A and B is
`1/4 + 2^-53`, and after the four sessions (two for each gap) the total is `1 + 2^-51`,
so the link from A to B is emitted although A and B share four sessions only. -/
theorem four_sessions_link :
    detect_session two_conversations 30
        = some [eighteen_messages 10000, eighteen_messages 20000]
      ∧ detect_session two_conversations (30 * 60)
        = some [eighteen_messages 10000, eighteen_messages 20000]
      ∧ share (eighteen_messages 10000) ['A'] = 1 / 2 + 1 / 2 ^ 53
      ∧ (table_values (session_shares (eighteen_messages 10000))).sum = 1 + 1 / 2 ^ 52
      ∧ contribution (eighteen_messages 10000) ['A'] ['B'] = 1 / 4 + 1 / 2 ^ 53
      ∧ accumulate_links two_conversations = some [(['A'], [(['B'], 1 + 1 / 2 ^ 51)])]
      ∧ graph_links two_conversations
        = some [{ source := ['A'], target := ['B'], value := 1 }]
      ∧ (([eighteen_messages 10000, eighteen_messages 20000]
            ++ [eighteen_messages 10000, eighteen_messages 20000]).filter
          (both_in ['A'] ['B'])).length = 4 := by
  decide!

/-- C19 (amended): for less than 2^32 messages, in every session that `detect_session`
returns the shares of the identities sum to 1 up to a rounding error of at most `2^-20`;
the product of the shares of two distinct identities is at most `1/4 + 2^-20`; so a link
between two identities is emitted only if both have messages in at least 4 sessions,
counted over the 30-second and the 1800-second runs together. -/
theorem link_needs_four_sessions (messages : List Message)
    (short_sessions long_sessions : List (List Message)) (list : List Link)
    (hlen : messages.length < 2 ^ 32)
    (hshort : detect_session messages 30 = some short_sessions)
    (hlong : detect_session messages (30 * 60) = some long_sessions)
    (hgraph : graph_links messages = some list) :
    (∀ s ∈ short_sessions ++ long_sessions,
        |(table_values (session_shares s)).sum - 1| ≤ 1 / 2 ^ 20)
    ∧ (∀ s ∈ short_sessions ++ long_sessions, ∀ a b : List Char, a ≠ b →
        double_mul (share s a) (share s b) ≤ 1 / 4 + 1 / 2 ^ 20)
    ∧ (∀ l ∈ list,
        4 ≤ ((short_sessions ++ long_sessions).filter (both_in l.source l.target)).length) := by
  have hslen : ∀ s ∈ short_sessions ++ long_sessions, s.length < 2 ^ 32 := by
    intro s hs
    rcases List.mem_append.1 hs with h | h
    · exact lt_of_le_of_lt (detect_session_length_le messages 30 short_sessions hshort s h) hlen
    · exact lt_of_le_of_lt
        (detect_session_length_le messages (30 * 60) long_sessions hlong s h) hlen
  refine ⟨?_, fun s hs a b hab => (contribution_le s a b hab (hslen s hs)).2, ?_⟩
  · intro s hs
    apply session_shares_sum _ _ (hslen s hs)
    rcases List.mem_append.1 hs with h | h
    · exact detect_session_nonempty messages 30 short_sessions hshort s h
    · exact detect_session_nonempty messages (30 * 60) long_sessions hlong s h
  · intro l hl
    have hlinks : accumulate_links messages
        = some ((short_sessions ++ long_sessions).foldl add_session_links []) := by
      unfold accumulate_links
      rw [hshort, hlong, List.foldl_append]
    have hlist : list = normalize_links (links_list
        ((short_sessions ++ long_sessions).foldl add_session_links [])) := by
      unfold graph_links at hgraph
      rw [hlinks] at hgraph
      simp only [Option.map_some', Option.some.injEq] at hgraph
      exact hgraph.symm
    rw [hlist] at hl
    have hl0 : ∃ l0 ∈ links_list ((short_sessions ++ long_sessions).foldl add_session_links []),
        l0.source = l.source ∧ l0.target = l.target := by
      unfold normalize_links at hl
      obtain ⟨x, hx, rfl⟩ := List.mem_map.1 hl
      exact ⟨x, hx, rfl, rfl⟩
    obtain ⟨l0, hl0m, hs0, ht0⟩ := hl0
    have hgt := ((mem_links_list _ l0).1 hl0m).2
    rw [hs0, ht0] at hgt
    have hb := (link_total_sessions_le l.source l.target (short_sessions ++ long_sessions)
      hslen [] (by simp [link_total, table_get])).2
    have e0 : link_total ([] : Links) l.source l.target = 0 := by simp [link_total, table_get]
    rw [e0, zero_add] at hb
    by_contra hk
    have hk3 : ((short_sessions ++ long_sessions).filter (both_in l.source l.target)).length ≤ 3 := by
      omega
    generalize ((short_sessions ++ long_sessions).filter (both_in l.source l.target)).length = k
      at hb hk3
    have : (k : ℚ) * (1 / 4 + 1 / 2 ^ 20) * (1 + 1 / 2 ^ 53) ^ k ≤ 1 := by
      interval_cases k <;> norm_num
    linarith

/-- Witness for C19 (amended): in the two conversations of eighteen messages, the link from
A to B is emitted and A and B share four sessions, two for each gap. -/
theorem link_needs_four_sessions_witness :
    two_conversations.length < 2 ^ 32
    ∧ ((∀ s ∈ [eighteen_messages 10000, eighteen_messages 20000]
            ++ [eighteen_messages 10000, eighteen_messages 20000],
          |(table_values (session_shares s)).sum - 1| ≤ 1 / 2 ^ 20)
      ∧ (∀ s ∈ [eighteen_messages 10000, eighteen_messages 20000]
            ++ [eighteen_messages 10000, eighteen_messages 20000],
          ∀ a b : List Char, a ≠ b → double_mul (share s a) (share s b) ≤ 1 / 4 + 1 / 2 ^ 20)
      ∧ (∀ l ∈ [({ source := ['A'], target := ['B'], value := 1 } : Link)],
          4 ≤ (([eighteen_messages 10000, eighteen_messages 20000]
                ++ [eighteen_messages 10000, eighteen_messages 20000]).filter
              (both_in l.source l.target)).length)) :=
  ⟨by decide,
    link_needs_four_sessions two_conversations
      [eighteen_messages 10000, eighteen_messages 20000]
      [eighteen_messages 10000, eighteen_messages 20000]
      [{ source := ['A'], target := ['B'], value := 1 }]
      (by decide) (by decide) (by decide) (by decide!)⟩

end GroupChat
